import Mathlib

/-!
Shallow embedding of the two ordered-index variants of the stashlist
repository: the baseline probabilistic skip list (package `skiplist`,
type `SkipList`) and the adaptive variant (package `stashlist`, type
`StashList`).

Modelling choices, uniform for both variants:

* The Go heap is an append-only arena `List Element`; a `*Element`
  pointer is the element's arena index, and the `nil` pointer / the
  head sentinel's `elementNode` is `Option.none` where a pointer may
  be either an element or the head.  Removed elements stay in the
  arena (as unreachable garbage), exactly as unreferenced Go heap
  objects would.
* Go `string` keys are byte sequences compared bytewise
  lexicographically; they are modelled as `List Nat` with the
  lexicographic order, and `[]byte` values likewise as `List Nat`.
* The `for`/`while` descent loops are modelled with explicit fuel
  `arena.length + 1`; on every state whose links are strictly
  key-sorted the fuel is never exhausted, so the model agrees with
  the unbounded Go loop there.
* `randSource` / `randLevel` are abstracted into an oracle argument
  `r`: the source's `randLevel` always returns a level in
  `[1, maxLevel]`, so the model normalizes the oracle into that range.
  The floating-point probability table only influences the
  distribution of the drawn level, never the structure given the
  drawn level, so it does not appear in the operational state.
* `Length` is a Go `int`, modelled as `Int`.
-/

/-- Keys are Go strings, i.e. byte sequences ordered lexicographically. -/
abbrev Key := List Nat

/-- Values are Go byte slices. -/
abbrev Bytes := List Nat

namespace Skiplist

/-- Element of the baseline skip list: the embedded `elementNode`
forward-pointer array together with key and value
(`skiplist.go`, `type elementNode` / `type Element`). -/
structure Element where
  next : List (Option Nat)
  key : Key
  value : Bytes
deriving DecidableEq, Repr

/-- Baseline `type SkipList`: the head sentinel's forward pointers, the
level bound, the element count, and the arena holding every element
ever allocated.  (`randSource`, `probability`, `probTable` and
`prevNodesCache` carry no structural information: the probability data
is modelled at construction time only and the cache is recomputed per
call, which is observationally identical for single-threaded use.) -/
structure SkipList where
  headNext : List (Option Nat)
  maxLevel : Nat
  Length : Int
  arena : List Element
deriving DecidableEq, Repr

/-- Default element used by total arena lookup; never reachable in a
well-formed state. -/
def emptyElement : Element := ⟨[], [], []⟩

/-- Dereference an arena index. -/
def node (l : SkipList) (j : Nat) : Element := l.arena.getD j emptyElement

/-- Key of the element at arena index `j`. -/
def keyOf (l : SkipList) (j : Nat) : Key := (node l j).key

/-- Value of the element at arena index `j`. -/
def valueOf (l : SkipList) (j : Nat) : Bytes := (node l j).value

/-- Length of the forward-pointer array of the element at `j`; in the
baseline variant this is the element's (fixed) level. -/
def lvlOf (l : SkipList) (j : Nat) : Nat := (node l j).next.length

/-- Read the level-`i` forward pointer of the head (`p = none`) or of
element `p = some j`. -/
def nextOf (l : SkipList) (p : Option Nat) (i : Nat) : Option Nat :=
  match p with
  | none => l.headNext.getD i none
  | some j => (node l j).next.getD i none

/-- Write the level-`i` forward pointer of the head or of an element. -/
def setNext (l : SkipList) (p : Option Nat) (i : Nat) (v : Option Nat) : SkipList :=
  match p with
  | none => { l with headNext := l.headNext.set i v }
  | some j =>
      { l with arena := l.arena.set j { node l j with next := (node l j).next.set i v } }

/-- Overwrite the value of the element at `j` (`element.value = value`). -/
def setValue (l : SkipList) (j : Nat) (v : Bytes) : SkipList :=
  { l with arena := l.arena.set j { node l j with value := v } }

/-- Fuel bound for the traversal loops: one more than the number of
elements ever allocated. -/
def fuel (l : SkipList) : Nat := l.arena.length + 1

/-- Inner `for next != nil && key > next.key` advance loop of the
descent, at level `i`, starting from `prev`
(`skiplist.go` lines 78-84 and 122-128). -/
def walk (l : SkipList) (key : Key) (i : Nat) : Nat → Option Nat → Option Nat
  | 0, prev => prev
  | f + 1, prev =>
    match nextOf l prev i with
    | none => prev
    | some j => if keyOf l j < key then walk l key i f (some j) else prev

/-- Outer descent: process the `n` highest levels, returning the final
`prev`.  `descend l key (l.maxLevel - i)` has processed levels
`maxLevel-1` down to `i`. -/
def descend (l : SkipList) (key : Key) : Nat → Option Nat
  | 0 => none
  | n + 1 => walk l key (l.maxLevel - (n + 1)) (fuel l) (descend l key n)

/-- The `prevs[i]` entry recorded by `getPrevElementNodes`: the final
`prev` after the walk at level `i`.  The baseline descent performs no
mutation, so recomputing each entry from the same state is exactly the
cached array. -/
def prevAt (l : SkipList) (key : Key) (i : Nat) : Option Nat :=
  descend l key (l.maxLevel - i)

/-- The candidate match inspected after a full descent:
`prevs[0].next[0]`. -/
def candidate (l : SkipList) (key : Key) : Option Nat :=
  nextOf l (prevAt l key 0) 0

/-- Baseline `Get`: full descent, then return the candidate's value if
`next.key <= key` (`skiplist.go` lines 74-92).  The baseline `Get`
never mutates the list. -/
def Get (l : SkipList) (key : Key) : Option Bytes :=
  match candidate l key with
  | some j => if keyOf l j ≤ key then some (valueOf l j) else none
  | none => none

/-- Level drawn for a fresh element.  The source draws a float from
`randSource` and walks `probTable`; the result always lies in
`[1, maxLevel]`.  The draw is abstracted into the oracle `r`,
normalized into exactly that range. -/
def randLevel (l : SkipList) (r : Nat) : Nat := min (max r 1) l.maxLevel

/-- Splice loop of `Add` (`skiplist.go` lines 65-68): for
`i = 0 .. rl-1`, `element.next[i] = prevs[i].next[i];
prevs[i].next[i] = element`, where `n` is the new element's index. -/
def addLinks (n : Nat) (prevs : Nat → Option Nat) : Nat → SkipList → SkipList
  | 0, l => l
  | i + 1, l =>
    let l1 := addLinks n prevs i l
    let l2 := setNext l1 (some n) i (nextOf l1 (prevs i) i)
    setNext l2 (prevs i) i (some n)

/-- Allocation and splice of a fresh element by `Add` when no match was
found: draw a level, allocate `rl` forward slots, link at levels
`0..rl-1`, increment `Length`. -/
def addFresh (l : SkipList) (key : Key) (value : Bytes) (r : Nat) : SkipList :=
  let rl := randLevel l r
  let n := l.arena.length
  let l1 : SkipList := { l with arena := l.arena ++ [⟨List.replicate rl none, key, value⟩] }
  let l2 := addLinks n (prevAt l key) rl l1
  { l2 with Length := l2.Length + 1 }

/-- Baseline `Add` (`skiplist.go` lines 48-71): if the candidate
matches (`element.key <= key`), update its value in place; otherwise
insert a fresh element. -/
def Add (l : SkipList) (key : Key) (value : Bytes) (r : Nat) : SkipList :=
  match candidate l key with
  | some j => if keyOf l j ≤ key then setValue l j value else addFresh l key value r
  | none => addFresh l key value r

/-- Unlink loop of `Remove` (`skiplist.go` lines 101-103): for each
slot `k` of `element.next`, `prevs[k].next[k] = element.next[k]`,
reading the element's slot from the current state as the Go
range-over-slice does. -/
def removeLinks (prevs : Nat → Option Nat) (j : Nat) : Nat → SkipList → SkipList
  | 0, l => l
  | k + 1, l =>
    let l1 := removeLinks prevs j k l
    setNext l1 (prevs k) k (nextOf l1 (some j) k)

/-- Baseline `Remove` (`skiplist.go` lines 96-110): descent, then if
the candidate matches, rewrite each recorded predecessor's pointer at
the slots of `element.next` and decrement `Length`; `some j` plays the
role of the returned element pointer, `none` of the nil (not-found)
result. -/
def Remove (l : SkipList) (key : Key) : SkipList × Option Nat :=
  match candidate l key with
  | some j =>
    if keyOf l j ≤ key then
      let l1 := removeLinks (prevAt l key) j (lvlOf l j) l
      ({ l1 with Length := l1.Length - 1 }, some j)
    else (l, none)
  | none => (l, none)

/-- Operational state produced by `NewWithMaxLevel`: head pointers all
nil, empty list. -/
def initList (m : Nat) : SkipList := ⟨List.replicate m none, m, 0, []⟩

/-- One client operation against the index, with the level oracle for
`Add` embedded. -/
inductive Op where
  | add (key : Key) (value : Bytes) (r : Nat)
  | get (key : Key)
  | remove (key : Key)
deriving DecidableEq

/-- State transition of one operation.  The baseline `Get` performs no
mutation, so its step is the identity on the state. -/
def step (l : SkipList) : Op → SkipList
  | .add k v r => Add l k v r
  | .get _ => l
  | .remove k => (Remove l k).1

/-- Run a sequence of operations. -/
def run (l : SkipList) (ops : List Op) : SkipList := ops.foldl step l

/-- Reachable baseline states: everything producible from a freshly
constructed list (any admissible `maxLevel`) by a sequence of
operations. -/
def Reach (l : SkipList) : Prop :=
  ∃ m ops, 1 ≤ m ∧ m ≤ 64 ∧ l = run (initList m) ops

end Skiplist

namespace Stashlist

/-- Element of the adaptive variant: forward-pointer array (always
`maxLevel` slots), current participation level, recency flag, key,
value (`stashlist` `type elementNode` / `type Element`).  The `level`
field is a Go `int`; demotion's decrement is modelled with truncated
`Nat` subtraction. -/
structure Element where
  next : List (Option Nat)
  level : Nat
  visited : Bool
  key : Key
  value : Bytes
deriving DecidableEq, Repr

/-- Adaptive `type StashList`.  The head sentinel's own `level` and
`visited` fields are written at construction and never read by any
operation, so they are not part of the state. -/
structure StashList where
  headNext : List (Option Nat)
  maxLevel : Nat
  Length : Int
  arena : List Element
deriving DecidableEq, Repr

/-- Default element used by total arena lookup. -/
def emptyElement : Element := ⟨[], 0, false, [], []⟩

/-- Dereference an arena index. -/
def node (t : StashList) (j : Nat) : Element := t.arena.getD j emptyElement

/-- Key of the element at arena index `j`. -/
def keyOf (t : StashList) (j : Nat) : Key := (node t j).key

/-- Value of the element at arena index `j`. -/
def valueOf (t : StashList) (j : Nat) : Bytes := (node t j).value

/-- Current participation level of the element at `j`. -/
def levelOf (t : StashList) (j : Nat) : Nat := (node t j).level

/-- Visited flag of the element at `j`. -/
def visitedOf (t : StashList) (j : Nat) : Bool := (node t j).visited

/-- Read the level-`i` forward pointer of the head or of an element. -/
def nextOf (t : StashList) (p : Option Nat) (i : Nat) : Option Nat :=
  match p with
  | none => t.headNext.getD i none
  | some j => (node t j).next.getD i none

/-- Write the level-`i` forward pointer of the head or of an element. -/
def setNext (t : StashList) (p : Option Nat) (i : Nat) (v : Option Nat) : StashList :=
  match p with
  | none => { t with headNext := t.headNext.set i v }
  | some j =>
      { t with arena := t.arena.set j { node t j with next := (node t j).next.set i v } }

/-- Overwrite the level field of the element at `j`. -/
def setLevel (t : StashList) (j : Nat) (lv : Nat) : StashList :=
  { t with arena := t.arena.set j { node t j with level := lv } }

/-- Overwrite the visited flag of the element at `j`. -/
def setVisited (t : StashList) (j : Nat) (b : Bool) : StashList :=
  { t with arena := t.arena.set j { node t j with visited := b } }

/-- Overwrite the value of the element at `j`. -/
def setValue (t : StashList) (j : Nat) (v : Bytes) : StashList :=
  { t with arena := t.arena.set j { node t j with value := v } }

/-- Fuel bound for the traversal loops. -/
def fuel (t : StashList) : Nat := t.arena.length + 1

/-- Plain advance loop used by the adaptive `Get` (`stashlist` lines
290-297), which — unlike `Add`/`Remove` — descends without the
demotion rule. -/
def walk (t : StashList) (key : Key) (i : Nat) : Nat → Option Nat → Option Nat
  | 0, prev => prev
  | f + 1, prev =>
    match nextOf t prev i with
    | none => prev
    | some j => if keyOf t j < key then walk t key i f (some j) else prev

/-- Outer pure descent of the adaptive `Get`. -/
def descend (t : StashList) (key : Key) : Nat → Option Nat
  | 0 => none
  | n + 1 => walk t key (t.maxLevel - (n + 1)) (fuel t) (descend t key n)

/-- Final `prev` of the adaptive `Get` descent and its level-0
successor, the candidate match. -/
def candidate (t : StashList) (key : Key) : Option Nat :=
  nextOf t (descend t key t.maxLevel) 0

/-- Advance loop of `getPrevElementNodes` at level `i` (`stashlist`
lines 338-354), including the demotion rule: after stepping onto
`prev = j`, if the new `next = m` exactly matches the search key,
`i > 0`, and `j` is unvisited, then `j` is unlinked from level `i`
(`before.next[i] = next; prev.next[i] = nil`), its level is
decremented, and the loop breaks.  Returns the updated state and the
final `prev`. -/
def walkDem (key : Key) (i : Nat) : Nat → StashList → Option Nat → StashList × Option Nat
  | 0, t, prev => (t, prev)
  | f + 1, t, prev =>
    match nextOf t prev i with
    | none => (t, prev)
    | some j =>
      if keyOf t j < key then
        match nextOf t (some j) i with
        | some m =>
          if 0 < i ∧ keyOf t m = key ∧ visitedOf t j = false then
            let t1 := setNext t prev i (some m)
            let t2 := setNext t1 (some j) i none
            let t3 := setLevel t2 j (levelOf t2 j - 1)
            (t3, some j)
          else walkDem key i f t (some j)
        | none => walkDem key i f t (some j)
      else (t, prev)

/-- Mutating descent of `getPrevElementNodes`: process levels from the
top down, threading the state through the per-level walks, recording
`prevs[i]` for each level.  The returned function is the `prevs`
array. -/
def gpenAux (key : Key) : Nat → StashList → Option Nat → StashList × (Nat → Option Nat)
  | 0, t, _ => (t, fun _ => none)
  | n + 1, t, prev =>
    let r := walkDem key n (fuel t) t prev
    let s := gpenAux key n r.1 r.2
    (s.1, fun i => if i = n then r.2 else s.2 i)

/-- The adaptive `getPrevElementNodes`: state after the descent plus
the recorded predecessor for each level. -/
def gpen (t : StashList) (key : Key) : StashList × (Nat → Option Nat) :=
  gpenAux key t.maxLevel t none

/-- Adaptive `Get` (`stashlist` lines 286-307): pure descent; on a
match (`next.key <= key`) set the element's visited flag and return
its value; no other mutation. -/
def Get (t : StashList) (key : Key) : StashList × Option Bytes :=
  match candidate t key with
  | some j =>
    if keyOf t j ≤ key then
      (if visitedOf t j = false then setVisited t j true else t, some (valueOf t j))
    else (t, none)
  | none => (t, none)

/-- Level drawn for a fresh element; oracle normalized into the
source `randLevel` range `[1, maxLevel]`. -/
def randLevel (t : StashList) (r : Nat) : Nat := min (max r 1) t.maxLevel

/-- Promotion step of the adaptive `Add` (`stashlist` lines 246-257):
if the matched element's level is below `maxLevel` and the recorded
predecessor at that level is not the head, splice the element into
that level, clear the predecessor's visited flag if set, and increment
the element's level. -/
def promote (t : StashList) (j : Nat) (prevs : Nat → Option Nat) : StashList :=
  let lv := levelOf t j
  if lv < t.maxLevel then
    match prevs lv with
    | some p =>
      let t1 := setNext t (some j) lv (nextOf t (some p) lv)
      let t2 := setNext t1 (some p) lv (some j)
      let t3 := if visitedOf t2 p = true then setVisited t2 p false else t2
      setLevel t3 j (lv + 1)
    | none => t
  else t

/-- Splice loop for a fresh adaptive element (levels `0..rl-1`). -/
def addLinks (n : Nat) (prevs : Nat → Option Nat) : Nat → StashList → StashList
  | 0, t => t
  | i + 1, t =>
    let t1 := addLinks n prevs i t
    let t2 := setNext t1 (some n) i (nextOf t1 (prevs i) i)
    setNext t2 (prevs i) i (some n)

/-- Fresh-element branch of the adaptive `Add` (`stashlist` lines
263-282): allocate `maxLevel` forward slots, draw the level, mark
visited exactly when the drawn level is 1, splice at levels
`0..rl-1`, increment `Length`. -/
def addFresh (t : StashList) (key : Key) (value : Bytes) (r : Nat)
    (prevs : Nat → Option Nat) : StashList :=
  let rl := randLevel t r
  let n := t.arena.length
  let t1 : StashList :=
    { t with arena :=
        t.arena ++ [⟨List.replicate t.maxLevel none, rl, decide (rl = 1), key, value⟩] }
  let t2 := addLinks n prevs rl t1
  { t2 with Length := t2.Length + 1 }

/-- Adaptive `Add` (`stashlist` lines 238-283): mutating descent; on a
match, either set the visited flag (first hit) or promote (already
visited), then update the value; otherwise insert a fresh element
using the recorded predecessors. -/
def Add (t : StashList) (key : Key) (value : Bytes) (r : Nat) : StashList :=
  let g := gpen t key
  match nextOf g.1 (g.2 0) 0 with
  | some j =>
    if keyOf g.1 j ≤ key then
      if visitedOf g.1 j = false then setValue (setVisited g.1 j true) j value
      else setValue (promote g.1 j g.2) j value
    else addFresh g.1 key value r g.2
  | none => addFresh g.1 key value r g.2

/-- Unlink loop of the adaptive `Remove` (`stashlist` lines 316-318):
iterates over all `maxLevel` slots of `element.next`. -/
def removeLinks (prevs : Nat → Option Nat) (j : Nat) : Nat → StashList → StashList
  | 0, t => t
  | k + 1, t =>
    let t1 := removeLinks prevs j k t
    setNext t1 (prevs k) k (nextOf t1 (some j) k)

/-- Adaptive `Remove` (`stashlist` lines 311-325): mutating descent;
if the candidate matches, rewrite each recorded predecessor's pointer
at every slot of `element.next` (which has `maxLevel` slots in this
variant) and decrement `Length`. -/
def Remove (t : StashList) (key : Key) : StashList × Option Nat :=
  let g := gpen t key
  match nextOf g.1 (g.2 0) 0 with
  | some j =>
    if keyOf g.1 j ≤ key then
      let t1 := removeLinks g.2 j (node g.1 j).next.length g.1
      ({ t1 with Length := t1.Length - 1 }, some j)
    else (g.1, none)
  | none => (g.1, none)

/-- Operational state produced by the adaptive `NewWithMaxLevel`. -/
def initList (m : Nat) : StashList := ⟨List.replicate m none, m, 0, []⟩

/-- One client operation against the adaptive index. -/
inductive Op where
  | add (key : Key) (value : Bytes) (r : Nat)
  | get (key : Key)
  | remove (key : Key)
deriving DecidableEq

/-- State transition of one operation; the adaptive `Get` mutates the
state (visited flag), so its step keeps the returned state. -/
def step (t : StashList) : Op → StashList
  | .add k v r => Add t k v r
  | .get k => (Get t k).1
  | .remove k => (Remove t k).1

/-- Run a sequence of operations. -/
def run (t : StashList) (ops : List Op) : StashList := ops.foldl step t

/-- Reachable adaptive states. -/
def Reach (t : StashList) : Prop :=
  ∃ m ops, 1 ≤ m ∧ m ≤ 64 ∧ t = run (initList m) ops

end Stashlist

namespace Skiplist

/-! Frame lemmas for the state mutators. -/

/-- Guard that a pointer write actually lands: the slot exists on the
target node (Go would panic otherwise; well-formed states only issue
in-range writes). -/
def slotOk (l : SkipList) (p : Option Nat) (i : Nat) : Prop :=
  match p with
  | none => i < l.headNext.length
  | some a => a < l.arena.length ∧ i < (node l a).next.length

theorem maxLevel_setNext (l : SkipList) (p : Option Nat) (i : Nat) (v : Option Nat) :
    (setNext l p i v).maxLevel = l.maxLevel := by
  cases p <;> rfl

theorem Length_setNext (l : SkipList) (p : Option Nat) (i : Nat) (v : Option Nat) :
    (setNext l p i v).Length = l.Length := by
  cases p <;> rfl

theorem arena_length_setNext (l : SkipList) (p : Option Nat) (i : Nat) (v : Option Nat) :
    (setNext l p i v).arena.length = l.arena.length := by
  cases p <;> simp [setNext]

theorem headNext_length_setNext (l : SkipList) (p : Option Nat) (i : Nat) (v : Option Nat) :
    (setNext l p i v).headNext.length = l.headNext.length := by
  cases p <;> simp [setNext]

theorem node_setNext_ne (l : SkipList) (b : Nat) (i : Nat) (v : Option Nat) (a : Nat)
    (h : a ≠ b) : node (setNext l (some b) i v) a = node l a := by
  simp [setNext, node, List.getD_eq_getElem?_getD, List.getElem?_set_ne (Ne.symm h)]

theorem keyOf_setNext (l : SkipList) (p : Option Nat) (i : Nat) (v : Option Nat) (a : Nat) :
    keyOf (setNext l p i v) a = keyOf l a := by
  match p with
  | none => rfl
  | some b =>
    by_cases hab : a = b
    · subst hab
      simp only [keyOf, setNext, node, List.getD_eq_getElem?_getD]
      by_cases hb : a < l.arena.length
      · simp [List.getElem?_set_self hb, node, List.getD_eq_getElem?_getD]
      · simp [List.set_eq_of_length_le (Nat.le_of_not_lt hb)]
    · rw [keyOf, node_setNext_ne l b i v a hab]; rfl

theorem valueOf_setNext (l : SkipList) (p : Option Nat) (i : Nat) (v : Option Nat) (a : Nat) :
    valueOf (setNext l p i v) a = valueOf l a := by
  match p with
  | none => rfl
  | some b =>
    by_cases hab : a = b
    · subst hab
      simp only [valueOf, setNext, node, List.getD_eq_getElem?_getD]
      by_cases hb : a < l.arena.length
      · simp [List.getElem?_set_self hb, node, List.getD_eq_getElem?_getD]
      · simp [List.set_eq_of_length_le (Nat.le_of_not_lt hb)]
    · rw [valueOf, node_setNext_ne l b i v a hab]; rfl

theorem lvlOf_setNext (l : SkipList) (p : Option Nat) (i : Nat) (v : Option Nat) (a : Nat) :
    lvlOf (setNext l p i v) a = lvlOf l a := by
  match p with
  | none => rfl
  | some b =>
    by_cases hab : a = b
    · subst hab
      simp only [lvlOf, setNext, node, List.getD_eq_getElem?_getD]
      by_cases hb : a < l.arena.length
      · simp [List.getElem?_set_self hb, node, List.getD_eq_getElem?_getD]
      · simp [List.set_eq_of_length_le (Nat.le_of_not_lt hb)]
    · rw [lvlOf, node_setNext_ne l b i v a hab]; rfl

theorem nextOf_setNext_same (l : SkipList) (p : Option Nat) (i : Nat) (v : Option Nat)
    (h : slotOk l p i) : nextOf (setNext l p i v) p i = v := by
  match p with
  | none =>
    simp only [slotOk] at h
    simp [setNext, nextOf, List.getD_eq_getElem?_getD, List.getElem?_set_self h]
  | some a =>
    obtain ⟨ha, hi⟩ := h
    have hi' : i < (l.arena[a]?.getD emptyElement).next.length := by
      simpa [node, List.getD_eq_getElem?_getD] using hi
    simp only [setNext, nextOf, node, List.getD_eq_getElem?_getD,
      List.getElem?_set_self ha]
    simp [List.getElem?_set_self hi']

theorem nextOf_setNext_ne (l : SkipList) (p q : Option Nat) (i j : Nat) (v : Option Nat)
    (h : q ≠ p ∨ j ≠ i) : nextOf (setNext l p i v) q j = nextOf l q j := by
  match p, q with
  | none, none =>
    have hj : j ≠ i := h.resolve_left (not_not_intro rfl)
    simp [setNext, nextOf, List.getD_eq_getElem?_getD, List.getElem?_set_ne (Ne.symm hj)]
  | none, some a => rfl
  | some b, none => rfl
  | some b, some a =>
    by_cases hab : a = b
    · subst hab
      have hj : j ≠ i := h.resolve_left (not_not_intro rfl)
      simp only [setNext, nextOf, node, List.getD_eq_getElem?_getD]
      by_cases hb : a < l.arena.length
      · simp [List.getElem?_set_self hb, List.getElem?_set_ne (Ne.symm hj), node,
          List.getD_eq_getElem?_getD]
      · simp [List.set_eq_of_length_le (Nat.le_of_not_lt hb)]
    · have hn := node_setNext_ne l b i v a hab
      simp only [nextOf, hn]

theorem maxLevel_setValue (l : SkipList) (j : Nat) (v : Bytes) :
    (setValue l j v).maxLevel = l.maxLevel := rfl

theorem Length_setValue (l : SkipList) (j : Nat) (v : Bytes) :
    (setValue l j v).Length = l.Length := rfl

theorem arena_length_setValue (l : SkipList) (j : Nat) (v : Bytes) :
    (setValue l j v).arena.length = l.arena.length := by simp [setValue]

theorem headNext_setValue (l : SkipList) (j : Nat) (v : Bytes) :
    (setValue l j v).headNext = l.headNext := rfl

theorem keyOf_setValue (l : SkipList) (j : Nat) (v : Bytes) (a : Nat) :
    keyOf (setValue l j v) a = keyOf l a := by
  by_cases hab : a = j
  · subst hab
    simp only [keyOf, setValue, node, List.getD_eq_getElem?_getD]
    by_cases hb : a < l.arena.length
    · simp [List.getElem?_set_self hb, node, List.getD_eq_getElem?_getD]
    · simp [List.set_eq_of_length_le (Nat.le_of_not_lt hb)]
  · simp only [keyOf, setValue, node, List.getD_eq_getElem?_getD,
      List.getElem?_set_ne (Ne.symm hab)]

theorem lvlOf_setValue (l : SkipList) (j : Nat) (v : Bytes) (a : Nat) :
    lvlOf (setValue l j v) a = lvlOf l a := by
  by_cases hab : a = j
  · subst hab
    simp only [lvlOf, setValue, node, List.getD_eq_getElem?_getD]
    by_cases hb : a < l.arena.length
    · simp [List.getElem?_set_self hb, node, List.getD_eq_getElem?_getD]
    · simp [List.set_eq_of_length_le (Nat.le_of_not_lt hb)]
  · simp only [lvlOf, setValue, node, List.getD_eq_getElem?_getD,
      List.getElem?_set_ne (Ne.symm hab)]

theorem nextOf_setValue (l : SkipList) (j : Nat) (v : Bytes) (q : Option Nat) (i : Nat) :
    nextOf (setValue l j v) q i = nextOf l q i := by
  match q with
  | none => rfl
  | some a =>
    by_cases hab : a = j
    · subst hab
      simp only [nextOf, setValue, node, List.getD_eq_getElem?_getD]
      by_cases hb : a < l.arena.length
      · simp [List.getElem?_set_self hb, node, List.getD_eq_getElem?_getD]
      · simp [List.set_eq_of_length_le (Nat.le_of_not_lt hb)]
    · simp only [nextOf, setValue, node, List.getD_eq_getElem?_getD,
        List.getElem?_set_ne (Ne.symm hab)]

theorem valueOf_setValue_same (l : SkipList) (j : Nat) (v : Bytes) (h : j < l.arena.length) :
    valueOf (setValue l j v) j = v := by
  simp [valueOf, setValue, node, List.getD_eq_getElem?_getD, List.getElem?_set_self h]

theorem valueOf_setValue_ne (l : SkipList) (j : Nat) (v : Bytes) (a : Nat) (h : a ≠ j) :
    valueOf (setValue l j v) a = valueOf l a := by
  simp only [valueOf, setValue, node, List.getD_eq_getElem?_getD,
    List.getElem?_set_ne (Ne.symm h)]

end Skiplist

namespace Skiplist

/-! Chain representation: a list of arena indices matching the
successive level-`i` forward pointers. -/

/-- The consecutive level-`i` links starting at `p` spell out exactly
the index list `c`. -/
def links (l : SkipList) (i : Nat) : Option Nat → List Nat → Prop
  | _, [] => True
  | p, j :: rest => nextOf l p i = some j ∧ links l i (some j) rest

/-- End point of a path: the last node of `c`, or the start `p` when
`c` is empty. -/
def endPt (p : Option Nat) (c : List Nat) : Option Nat :=
  match c.getLast? with
  | some a => some a
  | none => p

/-- The level-`i` chain starting at `p` is exactly `c` and terminates
(the last node's pointer is nil). -/
def isChain (l : SkipList) (i : Nat) (p : Option Nat) (c : List Nat) : Prop :=
  links l i p c ∧ nextOf l (endPt p c) i = none

theorem endPt_nil (p : Option Nat) : endPt p [] = p := rfl

theorem endPt_append (p : Option Nat) (xs ys : List Nat) :
    endPt p (xs ++ ys) = endPt (endPt p xs) ys := by
  cases hys : ys.getLast? with
  | some a => simp [endPt, List.getLast?_append, hys]
  | none =>
    rw [List.getLast?_eq_none_iff] at hys
    subst hys
    simp [endPt]

theorem endPt_cons (p : Option Nat) (j : Nat) (ys : List Nat) :
    endPt p (j :: ys) = endPt (some j) ys := by
  have : j :: ys = [j] ++ ys := rfl
  rw [this, endPt_append]
  rfl

theorem links_append (l : SkipList) (i : Nat) (p : Option Nat) (xs ys : List Nat) :
    links l i p (xs ++ ys) ↔ links l i p xs ∧ links l i (endPt p xs) ys := by
  induction xs generalizing p with
  | nil => simp [links, endPt_nil]
  | cons x xs ih =>
    simp only [List.cons_append, links, endPt_cons]
    constructor
    · rintro ⟨hx, hrest⟩
      have h2 := (ih (some x)).mp hrest
      exact ⟨⟨hx, h2.1⟩, h2.2⟩
    · rintro ⟨⟨hx, h1⟩, h2⟩
      exact ⟨hx, (ih (some x)).mpr ⟨h1, h2⟩⟩

/-- The indices appearing on a linked path are values of `nextOf`. -/
theorem links_mem (l : SkipList) (i : Nat) (p : Option Nat) (c : List Nat)
    (hc : links l i p c) (j : Nat) (hj : j ∈ c) :
    ∃ q, nextOf l q i = some j := by
  induction c generalizing p with
  | nil => cases hj
  | cons x xs ih =>
    obtain ⟨hx, hrest⟩ := hc
    rcases List.mem_cons.mp hj with rfl | hj
    · exact ⟨p, hx⟩
    · exact ih (some x) hrest hj

/-- Well-formed baseline state with live elements `ls` (the level-0
chain, in order).  Chains at level `i` are exactly the live elements
whose forward array extends past `i`. -/
def chainAt (l : SkipList) (ls : List Nat) (i : Nat) : List Nat :=
  ls.filter (fun j => decide (i < lvlOf l j))

structure WF (l : SkipList) (ls : List Nat) : Prop where
  head_len : l.headNext.length = l.maxLevel
  ml_pos : 1 ≤ l.maxLevel
  mem_lt : ∀ j ∈ ls, j < l.arena.length
  sorted : ls.Chain' (fun a b => keyOf l a < keyOf l b)
  lvl_pos : ∀ j ∈ ls, 1 ≤ lvlOf l j
  lvl_le : ∀ j ∈ ls, lvlOf l j ≤ l.maxLevel
  chains : ∀ i, i < l.maxLevel → isChain l i none (chainAt l ls i)
  len_eq : l.Length = (ls.length : Int)

theorem WF.pairwise {l : SkipList} {ls : List Nat} (h : WF l ls) :
    ls.Pairwise (fun a b => keyOf l a < keyOf l b) := by
  have : IsTrans Nat (fun a b => keyOf l a < keyOf l b) :=
    ⟨fun _ _ _ hab hbc => lt_trans hab hbc⟩
  exact List.chain'_iff_pairwise.mp h.sorted

theorem WF.nodup {l : SkipList} {ls : List Nat} (h : WF l ls) : ls.Nodup :=
  h.pairwise.imp fun hab => by
    intro hEq
    exact absurd (hEq ▸ hab) (lt_irrefl _)

/-- A duplicate-free list of arena indices cannot be longer than the
arena. -/
theorem length_le_arena (n : Nat) (c : List Nat) (hnd : c.Nodup)
    (hb : ∀ j ∈ c, j < n) : c.length ≤ n := by
  classical
  have h1 : c.length = c.toFinset.card := (List.toFinset_card_of_nodup hnd).symm
  have h2 : c.toFinset ⊆ Finset.range n := by
    intro x hx
    simp only [List.mem_toFinset] at hx
    simpa using hb x hx
  calc c.length = c.toFinset.card := h1
    _ ≤ (Finset.range n).card := Finset.card_le_card h2
    _ = n := Finset.card_range n

theorem chainAt_sublist (l : SkipList) (ls : List Nat) (i : Nat) :
    (chainAt l ls i).Sublist ls := List.filter_sublist ls

theorem chainAt_zero {l : SkipList} {ls : List Nat} (h : WF l ls) :
    chainAt l ls 0 = ls := by
  apply List.filter_eq_self.mpr
  intro a ha
  simpa using h.lvl_pos a ha

theorem chainAt_mono (l : SkipList) (ls : List Nat) (i k : Nat) (hik : i ≤ k) :
    (chainAt l ls k).Sublist (chainAt l ls i) := by
  have hsub : chainAt l ls k = List.filter (fun j => decide (k < lvlOf l j)) (chainAt l ls i) := by
    unfold chainAt
    rw [List.filter_filter]
    congr 1
    funext j
    by_cases hk : k < lvlOf l j
    · have hi : i < lvlOf l j := lt_of_le_of_lt hik hk
      simp [hk, hi]
    · simp [hk]
  rw [hsub]
  exact List.filter_sublist _

end Skiplist

namespace Skiplist

/-! Characterization of the descent on a well-formed state. -/

/-- Boolean advance test of the walk: the element's key is strictly
below the search key. -/
def belowK (l : SkipList) (k : Key) (j : Nat) : Bool := decide (keyOf l j < k)

theorem endPt_none (xs : List Nat) : endPt none xs = xs.getLast? := by
  unfold endPt
  cases xs.getLast? <;> rfl

theorem endPt_some_eq_getLast? (a : Nat) (xs : List Nat) :
    endPt (some a) xs = (a :: xs).getLast? := by
  have h : a :: xs = [a] ++ xs := rfl
  rw [h, List.getLast?_append]
  unfold endPt
  cases hx : xs.getLast? <;> simp [hx, Option.or]

/-- On a sorted list, the elements below the search key form a prefix:
`takeWhile` and `filter` agree. -/
theorem takeWhile_eq_filter_of_sorted (l : SkipList) (k : Key) (c : List Nat)
    (hs : c.Pairwise (fun a b => keyOf l a < keyOf l b)) :
    c.takeWhile (belowK l k) = c.filter (belowK l k) := by
  induction c with
  | nil => rfl
  | cons x xs ih =>
    rcases List.pairwise_cons.mp hs with ⟨hx, hxs⟩
    by_cases hpx : belowK l k x = true
    · simp [List.takeWhile_cons, List.filter_cons, hpx, ih hxs]
    · have hall : ∀ y ∈ xs, belowK l k y = false := by
        intro y hy
        have h1 : ¬ keyOf l x < k := by simpa [belowK] using hpx
        have h2 : keyOf l x < keyOf l y := hx y hy
        have : ¬ keyOf l y < k := fun hlt => h1 (lt_trans h2 hlt)
        simpa [belowK] using this
      have hfil : xs.filter (belowK l k) = [] := by
        apply List.filter_eq_nil_iff.mpr
        intro y hy
        simp [hall y hy]
      simp [List.takeWhile_cons, List.filter_cons, hpx, hfil]

theorem takeWhile_append_all (P : Nat → Bool) (pre rest : List Nat)
    (h : ∀ x ∈ pre, P x = true) :
    (pre ++ rest).takeWhile P = pre ++ rest.takeWhile P := by
  induction pre with
  | nil => rfl
  | cons x xs ih =>
    have hx : P x = true := h x (List.mem_cons_self x xs)
    simp only [List.cons_append, List.takeWhile_cons, hx, if_true]
    rw [ih (fun y hy => h y (List.mem_cons_of_mem x hy))]

/-- The advance loop started anywhere on a terminated linked path stops
at the last node below the search key. -/
theorem walk_eq (l : SkipList) (k : Key) (i : Nat) :
    ∀ (c : List Nat) (p : Option Nat) (f : Nat),
      links l i p c → nextOf l (endPt p c) i = none → c.length < f →
      walk l k i f p = endPt p (c.takeWhile (belowK l k)) := by
  intro c
  induction c with
  | nil =>
    intro p f _ hend hf
    match f, hf with
    | f + 1, _ =>
      rw [endPt_nil] at hend
      simp [walk, hend, endPt_nil, List.takeWhile_nil]
  | cons x xs ih =>
    intro p f hlk hend hf
    obtain ⟨hx, hrest⟩ := hlk
    match f, hf with
    | f + 1, hf =>
      rw [endPt_cons] at hend
      by_cases hb : belowK l k x = true
      · have hblt : keyOf l x < k := by simpa [belowK] using hb
        have hstep : walk l k i (f + 1) p = walk l k i f (some x) := by
          simp [walk, hx, hblt]
        rw [hstep, ih (some x) f hrest hend (by simpa using Nat.lt_of_succ_lt_succ hf)]
        simp [List.takeWhile_cons, hb, endPt_cons]
      · have hblt : ¬ keyOf l x < k := by simpa [belowK] using hb
        have hstop : walk l k i (f + 1) p = p := by
          simp [walk, hx, hblt]
        rw [hstop]
        simp [List.takeWhile_cons, hb, endPt_nil]

theorem chainAt_pairwise {l : SkipList} {ls : List Nat} (hwf : WF l ls) (i : Nat) :
    (chainAt l ls i).Pairwise (fun a b => keyOf l a < keyOf l b) :=
  List.Pairwise.sublist (chainAt_sublist l ls i) hwf.pairwise

theorem chainAt_nodup {l : SkipList} {ls : List Nat} (hwf : WF l ls) (i : Nat) :
    (chainAt l ls i).Nodup :=
  hwf.nodup.sublist (chainAt_sublist l ls i)

theorem chainAt_length_lt_fuel {l : SkipList} {ls : List Nat} (hwf : WF l ls) (i : Nat) :
    (chainAt l ls i).length < fuel l := by
  have hnd := chainAt_nodup hwf i
  have hb : ∀ j ∈ chainAt l ls i, j < l.arena.length := fun j hj =>
    hwf.mem_lt j ((chainAt_sublist l ls i).subset hj)
  have := length_le_arena l.arena.length _ hnd hb
  simp only [fuel]
  omega

theorem chainAt_of_maxLevel {l : SkipList} {ls : List Nat} (hwf : WF l ls) :
    chainAt l ls l.maxLevel = [] := by
  apply List.filter_eq_nil_iff.mpr
  intro j hj
  have := hwf.lvl_le j hj
  simp
  omega

/-- The descent, level by level: after processing the top `n` levels,
`prev` is the last element below the search key on the chain of the
lowest processed level. -/
theorem descend_eq {l : SkipList} {ls : List Nat} (hwf : WF l ls) (k : Key) :
    ∀ n, n ≤ l.maxLevel →
      descend l k n = ((chainAt l ls (l.maxLevel - n)).takeWhile (belowK l k)).getLast? := by
  intro n
  induction n with
  | zero =>
    intro _
    simp [descend, Nat.sub_zero, chainAt_of_maxLevel hwf]
  | succ n ih =>
    intro hn
    have hn' : n ≤ l.maxLevel := Nat.le_of_succ_le hn
    set i := l.maxLevel - (n + 1) with hi
    have hilt : i < l.maxLevel := by omega
    have hsucc : l.maxLevel - n = i + 1 := by omega
    obtain ⟨hlk, hend⟩ := hwf.chains i hilt
    have hprev := ih hn'
    rw [hsucc] at hprev
    show walk l k i (fuel l) (descend l k n) = _
    rw [hprev]
    set T1 := (chainAt l ls (i + 1)).takeWhile (belowK l k) with hT1
    cases hlast : T1.getLast? with
    | none =>
      rw [List.getLast?_eq_none_iff] at hlast
      rw [walk_eq l k i (chainAt l ls i) none (fuel l) hlk hend (chainAt_length_lt_fuel hwf i)]
      rw [endPt_none]
    | some a =>
      have haT1 : a ∈ T1 := List.mem_of_mem_getLast? hlast
      have haC1 : a ∈ chainAt l ls (i + 1) :=
        (List.takeWhile_sublist _).subset haT1
      have hbel : belowK l k a = true := List.mem_takeWhile_imp haT1
      have haCi : a ∈ chainAt l ls i :=
        (chainAt_mono l ls i (i + 1) (by omega)).subset haC1
      obtain ⟨pre, suf, hsplit⟩ := List.append_of_mem haCi
      have hlk' := hlk
      have hend' := hend
      rw [hsplit, links_append] at hlk'
      obtain ⟨hpre, hcons⟩ := hlk'
      obtain ⟨hsome, hsuf⟩ := hcons
      rw [hsplit, endPt_append, endPt_cons] at hend'
      have hlen : suf.length < fuel l := by
        have h1 := chainAt_length_lt_fuel hwf i
        rw [hsplit] at h1
        simp only [List.length_append, List.length_cons] at h1
        omega
      rw [walk_eq l k i suf (some a) (fuel l) hsuf hend' hlen]
      have hpw := chainAt_pairwise hwf i
      rw [hsplit] at hpw
      rcases List.pairwise_append.mp hpw with ⟨_, _, hcross⟩
      have hprebel : ∀ x ∈ pre, belowK l k x = true := by
        intro x hx
        have h1 : keyOf l x < keyOf l a := hcross x hx a (List.mem_cons_self a suf)
        have h2 : keyOf l a < k := by simpa [belowK] using hbel
        simp [belowK, lt_trans h1 h2]
      rw [hsplit, takeWhile_append_all _ pre _ hprebel, List.takeWhile_cons, hbel,
        if_pos rfl, List.getLast?_append, endPt_some_eq_getLast?]
      cases hx : (a :: suf.takeWhile (belowK l k)).getLast? with
      | none => simp at hx
      | some b => simp [hx, Option.or]

end Skiplist

namespace Skiplist

theorem prevAt_eq {l : SkipList} {ls : List Nat} (hwf : WF l ls) (k : Key) (i : Nat)
    (hi : i ≤ l.maxLevel) :
    prevAt l k i = ((chainAt l ls i).takeWhile (belowK l k)).getLast? := by
  unfold prevAt
  rw [descend_eq hwf k (l.maxLevel - i) (by omega)]
  have hii : l.maxLevel - (l.maxLevel - i) = i := by omega
  rw [hii]

/-- The candidate inspected after the descent is the first live element
whose key is not below the search key. -/
theorem candidate_eq {l : SkipList} {ls : List Nat} (hwf : WF l ls) (k : Key) :
    candidate l k = (ls.dropWhile (belowK l k)).head? := by
  unfold candidate
  rw [prevAt_eq hwf k 0 (by omega), chainAt_zero hwf]
  obtain ⟨hlk, hend⟩ := hwf.chains 0 hwf.ml_pos
  rw [chainAt_zero hwf] at hlk hend
  have hsplit : ls = ls.takeWhile (belowK l k) ++ ls.dropWhile (belowK l k) :=
    (List.takeWhile_append_dropWhile _ _).symm
  rw [hsplit, links_append] at hlk
  obtain ⟨htw, hdw⟩ := hlk
  rw [hsplit, endPt_append] at hend
  rw [← endPt_none (ls.takeWhile (belowK l k))]
  cases hd : ls.dropWhile (belowK l k) with
  | nil =>
    rw [hd] at hend
    rw [endPt_nil] at hend
    exact hend.trans rfl
  | cons d rest =>
    rw [hd] at hdw
    exact hdw.1

theorem dropWhile_head_false (P : Nat → Bool) (c : List Nat) (d : Nat) (rest : List Nat)
    (h : c.dropWhile P = d :: rest) : P d = false := by
  induction c with
  | nil => cases h
  | cons x xs ih =>
    rw [List.dropWhile_cons] at h
    by_cases hx : P x = true
    · rw [if_pos hx] at h
      exact ih h
    · rw [if_neg hx] at h
      cases h
      simpa using hx

/-- A candidate returned by the descent never has a key strictly below
the search key. -/
theorem candidate_key_not_lt {l : SkipList} {ls : List Nat} (hwf : WF l ls) (k : Key)
    (j : Nat) (hj : candidate l k = some j) : ¬ keyOf l j < k := by
  rw [candidate_eq hwf k] at hj
  cases hd : ls.dropWhile (belowK l k) with
  | nil => rw [hd] at hj; cases hj
  | cons d rest =>
    rw [hd] at hj
    have hdj : d = j := by simpa using hj
    subst hdj
    have hfalse := dropWhile_head_false (belowK l k) ls d rest hd
    intro hlt
    simp [belowK, hlt] at hfalse

theorem candidate_mem {l : SkipList} {ls : List Nat} (hwf : WF l ls) (k : Key)
    (j : Nat) (hj : candidate l k = some j) : j ∈ ls := by
  rw [candidate_eq hwf k] at hj
  have h1 : j ∈ ls.dropWhile (belowK l k) := by
    cases hd : ls.dropWhile (belowK l k) with
    | nil => rw [hd] at hj; cases hj
    | cons d rest =>
      rw [hd] at hj
      simp only [List.head?_cons, Option.some.injEq] at hj
      subst hj
      exact List.mem_cons_self _ _
  exact (List.dropWhile_sublist _).subset h1

/-- On a well-formed state the loose match test `key <= search key` is
exact equality: the candidate's key is never below the search key, so
a successful test pins it to the search key. -/
theorem candidate_match_iff_eq {l : SkipList} {ls : List Nat} (hwf : WF l ls) (k : Key)
    (j : Nat) (hj : candidate l k = some j) : keyOf l j ≤ k ↔ keyOf l j = k := by
  constructor
  · intro hle
    exact le_antisymm hle (le_of_not_lt (candidate_key_not_lt hwf k j hj))
  · intro h
    exact le_of_eq h

/-- A live element with the search key forces the candidate to be
exactly that element. -/
theorem candidate_of_mem {l : SkipList} {ls : List Nat} (hwf : WF l ls) (k : Key)
    (j0 : Nat) (hj0 : j0 ∈ ls) (hkey : keyOf l j0 = k) : candidate l k = some j0 := by
  rw [candidate_eq hwf k]
  obtain ⟨pre, suf, hsplit⟩ := List.append_of_mem hj0
  have hpw := hwf.pairwise
  rw [hsplit] at hpw
  rcases List.pairwise_append.mp hpw with ⟨_, hpost, hcross⟩
  have hpre : ∀ x ∈ pre, belowK l k x = true := by
    intro x hx
    have := hcross x hx j0 (List.mem_cons_self _ _)
    simp [belowK, hkey ▸ this]
  have hj0f : belowK l k j0 = false := by
    simp [belowK, hkey]
  rw [hsplit, List.dropWhile_append]
  have htake : pre.dropWhile (belowK l k) = [] := by
    apply List.dropWhile_eq_nil_iff.mpr
    intro x hx
    simp [hpre x hx]
  rw [htake]
  simp [List.dropWhile_cons, hj0f]

theorem Get_candidate_some (l : SkipList) (k : Key) (j : Nat)
    (hc : candidate l k = some j) :
    Get l k = if keyOf l j ≤ k then some (valueOf l j) else none := by
  unfold Get
  rw [hc]

theorem Get_candidate_none (l : SkipList) (k : Key) (hc : candidate l k = none) :
    Get l k = none := by
  unfold Get
  rw [hc]

/-- Baseline `Get` on a well-formed state returns exactly the value of
the live element with the searched key (and a miss when there is
none). -/
theorem Get_eq_some_iff {l : SkipList} {ls : List Nat} (hwf : WF l ls) (k : Key) (v : Bytes) :
    Get l k = some v ↔ ∃ j ∈ ls, keyOf l j = k ∧ valueOf l j = v := by
  constructor
  · intro hget
    cases hc : candidate l k with
    | none => rw [Get_candidate_none l k hc] at hget; cases hget
    | some j =>
      rw [Get_candidate_some l k j hc] at hget
      by_cases hle : keyOf l j ≤ k
      · rw [if_pos hle] at hget
        have hkey := (candidate_match_iff_eq hwf k j hc).mp hle
        exact ⟨j, candidate_mem hwf k j hc, hkey, by simpa using hget⟩
      · rw [if_neg hle] at hget; cases hget
  · rintro ⟨j, hj, hkey, hval⟩
    have hc := candidate_of_mem hwf k j hj hkey
    rw [Get_candidate_some l k j hc, if_pos (le_of_eq hkey), hval]

theorem Get_eq_none_iff {l : SkipList} {ls : List Nat} (hwf : WF l ls) (k : Key) :
    Get l k = none ↔ ∀ j ∈ ls, keyOf l j ≠ k := by
  constructor
  · intro hget j hj hkey
    have := (Get_eq_some_iff hwf k (valueOf l j)).mpr ⟨j, hj, hkey, rfl⟩
    rw [hget] at this
    cases this
  · intro habs
    cases hg : Get l k with
    | none => rfl
    | some v =>
      obtain ⟨j, hj, hkey, _⟩ := (Get_eq_some_iff hwf k v).mp hg
      exact absurd hkey (habs j hj)

end Skiplist

namespace Skiplist

/-! Effect of the splice and unlink loops on the link structure. -/

theorem slotOk_setNext (l : SkipList) (p : Option Nat) (i : Nat) (v : Option Nat)
    (q : Option Nat) (j : Nat) : slotOk (setNext l p i v) q j ↔ slotOk l q j := by
  cases q with
  | none => simp [slotOk, headNext_length_setNext]
  | some a =>
    have h1 := arena_length_setNext l p i v
    have h2 := lvlOf_setNext l p i v a
    simp only [slotOk, h1]
    rw [show (node (setNext l p i v) a).next.length = lvlOf (setNext l p i v) a from rfl,
      show (node l a).next.length = lvlOf l a from rfl, h2]

theorem maxLevel_addLinks (n : Nat) (prevs : Nat → Option Nat) (m : Nat) (l : SkipList) :
    (addLinks n prevs m l).maxLevel = l.maxLevel := by
  induction m generalizing l with
  | zero => rfl
  | succ m ih => simp [addLinks, maxLevel_setNext, ih]

theorem Length_addLinks (n : Nat) (prevs : Nat → Option Nat) (m : Nat) (l : SkipList) :
    (addLinks n prevs m l).Length = l.Length := by
  induction m generalizing l with
  | zero => rfl
  | succ m ih => simp [addLinks, Length_setNext, ih]

theorem arena_length_addLinks (n : Nat) (prevs : Nat → Option Nat) (m : Nat) (l : SkipList) :
    (addLinks n prevs m l).arena.length = l.arena.length := by
  induction m generalizing l with
  | zero => rfl
  | succ m ih => simp [addLinks, arena_length_setNext, ih]

theorem headNext_length_addLinks (n : Nat) (prevs : Nat → Option Nat) (m : Nat)
    (l : SkipList) : (addLinks n prevs m l).headNext.length = l.headNext.length := by
  induction m generalizing l with
  | zero => rfl
  | succ m ih => simp [addLinks, headNext_length_setNext, ih]

theorem keyOf_addLinks (n : Nat) (prevs : Nat → Option Nat) (m : Nat) (l : SkipList)
    (a : Nat) : keyOf (addLinks n prevs m l) a = keyOf l a := by
  induction m generalizing l with
  | zero => rfl
  | succ m ih => simp [addLinks, keyOf_setNext, ih]

theorem valueOf_addLinks (n : Nat) (prevs : Nat → Option Nat) (m : Nat) (l : SkipList)
    (a : Nat) : valueOf (addLinks n prevs m l) a = valueOf l a := by
  induction m generalizing l with
  | zero => rfl
  | succ m ih => simp [addLinks, valueOf_setNext, ih]

theorem lvlOf_addLinks (n : Nat) (prevs : Nat → Option Nat) (m : Nat) (l : SkipList)
    (a : Nat) : lvlOf (addLinks n prevs m l) a = lvlOf l a := by
  induction m generalizing l with
  | zero => rfl
  | succ m ih => simp [addLinks, lvlOf_setNext, ih]

theorem slotOk_addLinks (n : Nat) (prevs : Nat → Option Nat) (m : Nat) (l : SkipList)
    (q : Option Nat) (j : Nat) : slotOk (addLinks n prevs m l) q j ↔ slotOk l q j := by
  induction m generalizing l with
  | zero => exact Iff.rfl
  | succ m ih => simp [addLinks, slotOk_setNext, ih]

/-- Exact effect of the `Add` splice loop on every forward pointer:
each processed level `i < m` points the recorded predecessor at the
fresh element `n` and gives `n` the predecessor's old successor; all
other pointers are untouched. -/
theorem addLinks_nextOf (n : Nat) (prevs : Nat → Option Nat) :
    ∀ (m : Nat) (l : SkipList),
      (∀ i, i < m → prevs i ≠ some n) →
      (∀ i, i < m → slotOk l (prevs i) i) →
      n < l.arena.length →
      (∀ i, i < m → i < lvlOf l n) →
      ∀ (q : Option Nat) (i' : Nat),
        nextOf (addLinks n prevs m l) q i' =
          if i' < m then
            (if q = prevs i' then some n
             else if q = some n then nextOf l (prevs i') i'
             else nextOf l q i')
          else nextOf l q i' := by
  intro m
  induction m with
  | zero =>
    intro l _ _ _ _ q i'
    simp [addLinks]
  | succ m ih =>
    intro l hns hslot hn hnslot q i'
    have ihm := ih l (fun i hi => hns i (Nat.lt_succ_of_lt hi))
      (fun i hi => hslot i (Nat.lt_succ_of_lt hi)) hn
      (fun i hi => hnslot i (Nat.lt_succ_of_lt hi))
    set L := addLinks n prevs m l with hL
    have hread : nextOf L (prevs m) m = nextOf l (prevs m) m := by
      rw [ihm (prevs m) m]
      simp
    show nextOf (setNext (setNext L (some n) m (nextOf L (prevs m) m)) (prevs m) m (some n)) q i' = _
    by_cases hi'm : i' = m
    · subst hi'm
      by_cases hqp : q = prevs i'
      · subst hqp
        rw [nextOf_setNext_same]
        · simp [Nat.lt_succ_self]
        · rw [slotOk_setNext, slotOk_addLinks]
          exact hslot i' (Nat.lt_succ_self i')
      · by_cases hqn : q = some n
        · subst hqn
          rw [nextOf_setNext_ne _ _ _ _ _ _ (Or.inl hqp),
            nextOf_setNext_same, hread]
          · simp [Nat.lt_succ_self, if_neg hqp]
          · rw [slotOk_addLinks]
            exact ⟨hn, hnslot i' (Nat.lt_succ_self i')⟩
        · rw [nextOf_setNext_ne _ _ _ _ _ _ (Or.inl hqp),
            nextOf_setNext_ne _ _ _ _ _ _ (Or.inl hqn), ihm q i']
          simp [Nat.lt_succ_self, Nat.lt_irrefl, if_neg hqp, if_neg hqn]
    · rw [nextOf_setNext_ne _ _ _ _ _ _ (Or.inr hi'm),
        nextOf_setNext_ne _ _ _ _ _ _ (Or.inr hi'm), ihm q i']
      by_cases hlt : i' < m
      · have h2 : i' < m + 1 := Nat.lt_succ_of_lt hlt
        simp [hlt, h2]
      · have h2 : ¬ i' < m + 1 := by omega
        simp [hlt, h2]

end Skiplist

namespace Skiplist

theorem maxLevel_removeLinks (prevs : Nat → Option Nat) (j m : Nat) (l : SkipList) :
    (removeLinks prevs j m l).maxLevel = l.maxLevel := by
  induction m generalizing l with
  | zero => rfl
  | succ m ih => simp [removeLinks, maxLevel_setNext, ih]

theorem Length_removeLinks (prevs : Nat → Option Nat) (j m : Nat) (l : SkipList) :
    (removeLinks prevs j m l).Length = l.Length := by
  induction m generalizing l with
  | zero => rfl
  | succ m ih => simp [removeLinks, Length_setNext, ih]

theorem arena_length_removeLinks (prevs : Nat → Option Nat) (j m : Nat) (l : SkipList) :
    (removeLinks prevs j m l).arena.length = l.arena.length := by
  induction m generalizing l with
  | zero => rfl
  | succ m ih => simp [removeLinks, arena_length_setNext, ih]

theorem headNext_length_removeLinks (prevs : Nat → Option Nat) (j m : Nat) (l : SkipList) :
    (removeLinks prevs j m l).headNext.length = l.headNext.length := by
  induction m generalizing l with
  | zero => rfl
  | succ m ih => simp [removeLinks, headNext_length_setNext, ih]

theorem keyOf_removeLinks (prevs : Nat → Option Nat) (j m : Nat) (l : SkipList) (a : Nat) :
    keyOf (removeLinks prevs j m l) a = keyOf l a := by
  induction m generalizing l with
  | zero => rfl
  | succ m ih => simp [removeLinks, keyOf_setNext, ih]

theorem valueOf_removeLinks (prevs : Nat → Option Nat) (j m : Nat) (l : SkipList) (a : Nat) :
    valueOf (removeLinks prevs j m l) a = valueOf l a := by
  induction m generalizing l with
  | zero => rfl
  | succ m ih => simp [removeLinks, valueOf_setNext, ih]

theorem lvlOf_removeLinks (prevs : Nat → Option Nat) (j m : Nat) (l : SkipList) (a : Nat) :
    lvlOf (removeLinks prevs j m l) a = lvlOf l a := by
  induction m generalizing l with
  | zero => rfl
  | succ m ih => simp [removeLinks, lvlOf_setNext, ih]

theorem slotOk_removeLinks (prevs : Nat → Option Nat) (j m : Nat) (l : SkipList)
    (q : Option Nat) (i : Nat) : slotOk (removeLinks prevs j m l) q i ↔ slotOk l q i := by
  induction m generalizing l with
  | zero => exact Iff.rfl
  | succ m ih => simp [removeLinks, slotOk_setNext, ih]

/-- Exact effect of the `Remove` unlink loop: each processed level
`i < m` points the recorded predecessor at the removed element's own
successor; everything else is untouched.  The removed element `j` is
never one of the predecessors, so its own slots are read unmodified. -/
theorem removeLinks_nextOf (prevs : Nat → Option Nat) (j : Nat) :
    ∀ (m : Nat) (l : SkipList),
      (∀ i, i < m → prevs i ≠ some j) →
      (∀ i, i < m → slotOk l (prevs i) i) →
      ∀ (q : Option Nat) (i' : Nat),
        nextOf (removeLinks prevs j m l) q i' =
          if i' < m ∧ q = prevs i' then nextOf l (some j) i'
          else nextOf l q i' := by
  intro m
  induction m with
  | zero =>
    intro l _ _ q i'
    simp [removeLinks]
  | succ m ih =>
    intro l hpj hslot q i'
    have ihm := ih l (fun i hi => hpj i (Nat.lt_succ_of_lt hi))
      (fun i hi => hslot i (Nat.lt_succ_of_lt hi))
    set L := removeLinks prevs j m l with hL
    have hread : nextOf L (some j) m = nextOf l (some j) m := by
      rw [ihm (some j) m]
      have : ¬ (m < m ∧ some j = prevs m) := by
        rintro ⟨hmm, _⟩
        exact Nat.lt_irrefl m hmm
      rw [if_neg this]
    show nextOf (setNext L (prevs m) m (nextOf L (some j) m)) q i' = _
    by_cases hi'm : i' = m
    · subst hi'm
      by_cases hqp : q = prevs i'
      · subst hqp
        rw [nextOf_setNext_same, hread]
        · simp [Nat.lt_succ_self]
        · rw [slotOk_removeLinks]
          exact hslot i' (Nat.lt_succ_self i')
      · rw [nextOf_setNext_ne _ _ _ _ _ _ (Or.inl hqp), ihm q i']
        have h1 : ¬ (i' < i' ∧ q = prevs i') := by
          rintro ⟨hmm, _⟩
          exact Nat.lt_irrefl i' hmm
        have h2 : ¬ (i' < i' + 1 ∧ q = prevs i') := by
          rintro ⟨_, hq⟩
          exact hqp hq
        rw [if_neg h1, if_neg h2]
    · rw [nextOf_setNext_ne _ _ _ _ _ _ (Or.inr hi'm), ihm q i']
      by_cases hcase : i' < m ∧ q = prevs i'
      · have : i' < m + 1 ∧ q = prevs i' := ⟨Nat.lt_succ_of_lt hcase.1, hcase.2⟩
        rw [if_pos hcase, if_pos this]
      · have : ¬ (i' < m + 1 ∧ q = prevs i') := by
          rintro ⟨hlt, hq⟩
          exact hcase ⟨by omega, hq⟩
        rw [if_neg hcase, if_neg this]

end Skiplist

namespace Skiplist

/-- Link paths only read the pointers of the start node (when the path
is nonempty) and of every path node except the final one. -/
theorem links_congr (l l' : SkipList) (i : Nat) :
    ∀ (c : List Nat) (p : Option Nat),
      (c ≠ [] → nextOf l' p i = nextOf l p i) →
      (∀ x ∈ c.dropLast, nextOf l' (some x) i = nextOf l (some x) i) →
      links l i p c → links l' i p c := by
  intro c
  induction c with
  | nil => intro p _ _ _; trivial
  | cons x xs ih =>
    intro p hp0 hc hlk
    have hp := hp0 (by simp)
    obtain ⟨hx, hrest⟩ := hlk
    refine ⟨hp.trans hx, ?_⟩
    cases hxs : xs with
    | nil => trivial
    | cons y ys =>
      subst hxs
      apply ih (some x)
      · intro _
        exact hc x (by
          show x ∈ x :: (y :: ys).dropLast
          exact List.mem_cons_self _ _)
      · intro z hz
        exact hc z (by
          show z ∈ x :: (y :: ys).dropLast
          exact List.mem_cons_of_mem _ hz)
      · exact hrest

/-! Effect of extending the arena with a fresh element. -/

theorem keyOf_append (l : SkipList) (e : Element) (a : Nat) (ha : a < l.arena.length) :
    keyOf { l with arena := l.arena ++ [e] } a = keyOf l a := by
  simp [keyOf, node, List.getD_eq_getElem?_getD, List.getElem?_append, ha]

theorem valueOf_append (l : SkipList) (e : Element) (a : Nat) (ha : a < l.arena.length) :
    valueOf { l with arena := l.arena ++ [e] } a = valueOf l a := by
  simp [valueOf, node, List.getD_eq_getElem?_getD, List.getElem?_append, ha]

theorem lvlOf_append (l : SkipList) (e : Element) (a : Nat) (ha : a < l.arena.length) :
    lvlOf { l with arena := l.arena ++ [e] } a = lvlOf l a := by
  simp [lvlOf, node, List.getD_eq_getElem?_getD, List.getElem?_append, ha]

theorem node_append_new (l : SkipList) (e : Element) :
    node { l with arena := l.arena ++ [e] } l.arena.length = e := by
  simp [node, List.getD_eq_getElem?_getD, List.getElem?_append_right (Nat.le_refl _)]

theorem nextOf_append (l : SkipList) (e : Element) (p : Option Nat) (i : Nat)
    (hp : ∀ a, p = some a → a < l.arena.length) :
    nextOf { l with arena := l.arena ++ [e] } p i = nextOf l p i := by
  cases p with
  | none => rfl
  | some a =>
    have ha := hp a rfl
    simp [nextOf, node, List.getD_eq_getElem?_getD, List.getElem?_append, ha]

theorem nextOf_append_new (l : SkipList) (e : Element) (i : Nat) :
    nextOf { l with arena := l.arena ++ [e] } (some l.arena.length) i = e.next.getD i none := by
  simp [nextOf, node_append_new]

end Skiplist

namespace Skiplist

theorem randLevel_pos (l : SkipList) (r : Nat) (hml : 1 ≤ l.maxLevel) :
    1 ≤ randLevel l r := by
  unfold randLevel
  omega

theorem randLevel_le (l : SkipList) (r : Nat) : randLevel l r ≤ l.maxLevel := by
  unfold randLevel
  omega

/-- On a well-formed state, restricting a level chain to the elements
below the search key is the same as filtering the below-key prefix of
the live list by level. -/
theorem takeWhile_chainAt_eq {l : SkipList} {ls : List Nat} (hwf : WF l ls) (k : Key)
    (i : Nat) :
    (chainAt l ls i).takeWhile (belowK l k) =
      (ls.takeWhile (belowK l k)).filter (fun j => decide (i < lvlOf l j)) := by
  rw [takeWhile_eq_filter_of_sorted l k _ (chainAt_pairwise hwf i),
    takeWhile_eq_filter_of_sorted l k ls hwf.pairwise]
  unfold chainAt
  rw [List.filter_filter, List.filter_filter]
  apply List.filter_congr
  intro x _
  rw [Bool.and_comm]

/-- All elements at or past the drop point have keys strictly above an
absent search key. -/
theorem dropWhile_key_gt {l : SkipList} {ls : List Nat} (hwf : WF l ls) (k : Key)
    (habs : ∀ j ∈ ls, keyOf l j ≠ k) :
    ∀ x ∈ ls.dropWhile (belowK l k), k < keyOf l x := by
  intro x hx
  have hxls : x ∈ ls := (List.dropWhile_sublist _).subset hx
  have hne := habs x hxls
  cases hd : ls.dropWhile (belowK l k) with
  | nil => rw [hd] at hx; cases hx
  | cons d rest =>
    rw [hd] at hx
    have hdf := dropWhile_head_false (belowK l k) ls d rest hd
    have hdge : ¬ keyOf l d < k := by
      intro hlt
      simp [belowK, hlt] at hdf
    have hpw : (d :: rest).Pairwise (fun a b => keyOf l a < keyOf l b) := by
      rw [← hd]
      exact List.Pairwise.sublist (List.dropWhile_sublist _) hwf.pairwise
    rcases List.mem_cons.mp hx with rfl | hxr
    · exact lt_of_le_of_ne (le_of_not_lt hdge) (Ne.symm hne)
    · have := (List.pairwise_cons.mp hpw).1 x hxr
      calc k ≤ keyOf l d := le_of_not_lt hdge
        _ < keyOf l x := this

theorem nodup_dropLast_ne_getLast? (c : List Nat) (hnd : c.Nodup) (x : Nat)
    (hx : x ∈ c.dropLast) : ¬ c.getLast? = some x := by
  intro hlast
  have hne : c ≠ [] := by
    rintro rfl
    cases hlast
  have hsplit := List.dropLast_append_getLast hne
  rw [List.getLast?_eq_getLast c hne] at hlast
  have hxl : x = c.getLast hne := by simpa using hlast.symm
  rw [← hsplit] at hnd
  rcases List.nodup_append.mp hnd with ⟨_, _, hdisj⟩
  exact hdisj hx (by simp [hxl])

end Skiplist

namespace Skiplist

/-- Filter a candidate live list down to the elements participating in
level `i`. -/
def lvlFilter (l : SkipList) (i : Nat) (c : List Nat) : List Nat :=
  c.filter (fun j => decide (i < lvlOf l j))

theorem chainAt_eq_lvlFilter (l : SkipList) (ls : List Nat) (i : Nat) :
    chainAt l ls i = lvlFilter l i ls := rfl

theorem lvlFilter_append (l : SkipList) (i : Nat) (c d : List Nat) :
    lvlFilter l i (c ++ d) = lvlFilter l i c ++ lvlFilter l i d := by
  simp [lvlFilter]

theorem mem_lvlFilter {l : SkipList} {i : Nat} {c : List Nat} {x : Nat} :
    x ∈ lvlFilter l i c ↔ x ∈ c ∧ i < lvlOf l x := by
  simp [lvlFilter]

theorem endPt_cases (p : Option Nat) (c : List Nat) :
    endPt p c = p ∨ ∃ x, endPt p c = some x ∧ x ∈ c := by
  unfold endPt
  cases hx : c.getLast? with
  | none => left; rfl
  | some a => right; exact ⟨a, rfl, List.mem_of_mem_getLast? hx⟩

theorem nextOf_withLength (l : SkipList) (d : Int) (p : Option Nat) (i : Nat) :
    nextOf { l with Length := d } p i = nextOf l p i := by
  cases p <;> rfl

theorem isChain_withLength (l : SkipList) (d : Int) (i : Nat) (p : Option Nat)
    (c : List Nat) (h : isChain l i p c) : isChain { l with Length := d } i p c := by
  obtain ⟨hlk, hend⟩ := h
  refine ⟨links_congr l _ i c p (fun _ => nextOf_withLength l d p i)
    (fun x _ => nextOf_withLength l d (some x) i) hlk, ?_⟩
  rw [nextOf_withLength]
  exact hend

theorem chainAt_withLength (l : SkipList) (d : Int) (c : List Nat) (i : Nat) :
    chainAt { l with Length := d } c i = chainAt l c i := rfl

/-- Fresh insertion (`Add`, no-match branch) preserves well-formedness:
the new element lands between the elements below and above its key and
is linked at levels `0..rl-1`. -/
theorem addFresh_WF {l : SkipList} {ls : List Nat} (hwf : WF l ls) (k : Key) (v : Bytes)
    (r : Nat) (habs : ∀ j ∈ ls, keyOf l j ≠ k) :
    WF (addFresh l k v r)
      (ls.takeWhile (belowK l k) ++ l.arena.length :: ls.dropWhile (belowK l k)) := by
  set rl := randLevel l r with hrl
  set n := l.arena.length with hn
  set tw := ls.takeWhile (belowK l k) with htw
  set dw := ls.dropWhile (belowK l k) with hdw
  set elem : Element := ⟨List.replicate rl none, k, v⟩ with helem
  set l1 : SkipList := { l with arena := l.arena ++ [elem] } with hl1
  set prevs : Nat → Option Nat := prevAt l k with hprevs
  set l2 := addLinks n prevs rl l1 with hl2
  have hml := hwf.ml_pos
  have hrl_pos : 1 ≤ rl := randLevel_pos l r hml
  have hrl_le : rl ≤ l.maxLevel := randLevel_le l r
  have hls_split : tw ++ dw = ls := List.takeWhile_append_dropWhile _ _
  have htw_sub : ∀ x ∈ tw, x ∈ ls := fun x hx => by
    rw [← hls_split]; exact List.mem_append_left _ hx
  have hdw_sub : ∀ x ∈ dw, x ∈ ls := fun x hx => by
    rw [← hls_split]; exact List.mem_append_right _ hx
  have htw_below : ∀ x ∈ tw, keyOf l x < k := fun x hx => by
    have := List.mem_takeWhile_imp hx
    simpa [belowK] using this
  have hdw_gt : ∀ x ∈ dw, k < keyOf l x := dropWhile_key_gt hwf k habs
  have hmem_n : ∀ x ∈ ls, x < n := hwf.mem_lt
  -- primitives of the arena-extended state
  have hl1_arena : l1.arena.length = n + 1 := by simp [hl1]
  have hl1_head : l1.headNext = l.headNext := rfl
  have hl1_max : l1.maxLevel = l.maxLevel := rfl
  have hkey1_old : ∀ a, a < n → keyOf l1 a = keyOf l a := fun a ha =>
    keyOf_append l elem a ha
  have hkey1_new : keyOf l1 n = k := by
    show (node l1 n).key = k
    rw [hl1, node_append_new]
  have hval1_new : valueOf l1 n = v := by
    show (node l1 n).value = v
    rw [hl1, node_append_new]
  have hlvl1_old : ∀ a, a < n → lvlOf l1 a = lvlOf l a := fun a ha =>
    lvlOf_append l elem a ha
  have hlvl1_new : lvlOf l1 n = rl := by
    show (node l1 n).next.length = rl
    rw [hl1, node_append_new, helem]
    simp
  have hnext1_old : ∀ (p : Option Nat), (∀ a, p = some a → a < n) →
      ∀ i, nextOf l1 p i = nextOf l p i := fun p hp i => nextOf_append l elem p i hp
  have hnext1_new : ∀ i, nextOf l1 (some n) i = none := fun i => by
    rw [hl1, nextOf_append_new, helem]
    show (List.replicate rl none).getD i none = none
    rw [List.getD_eq_getElem?_getD, List.getElem?_replicate]
    split <;> rfl
  -- the recorded predecessors
  have hprev_eq : ∀ i, i ≤ l.maxLevel → prevs i = (lvlFilter l i tw).getLast? := by
    intro i hi
    rw [hprevs, prevAt_eq hwf k i hi, takeWhile_chainAt_eq hwf k i]
    rfl
  have hprev_mem : ∀ i, i ≤ l.maxLevel → ∀ a, prevs i = some a → a ∈ lvlFilter l i tw := by
    intro i hi a ha
    rw [hprev_eq i hi] at ha
    exact List.mem_of_mem_getLast? ha
  have hprev_old : ∀ i, i ≤ l.maxLevel → ∀ a, prevs i = some a → a < n := by
    intro i hi a ha
    exact hmem_n a (htw_sub a (mem_lvlFilter.mp (hprev_mem i hi a ha)).1)
  have hns : ∀ i, i < rl → prevs i ≠ some n := by
    intro i hi ha
    have := hprev_old i (le_trans (Nat.le_of_lt hi) hrl_le) n ha
    omega
  have hslot : ∀ i, i < rl → slotOk l1 (prevs i) i := by
    intro i hi
    cases hp : prevs i with
    | none =>
      show i < l1.headNext.length
      rw [hl1_head, hwf.head_len]
      omega
    | some a =>
      have hilm : i ≤ l.maxLevel := le_trans (Nat.le_of_lt hi) hrl_le
      have ham := hprev_mem i hilm a hp
      have haold := hprev_old i hilm a hp
      refine ⟨by omega, ?_⟩
      show i < lvlOf l1 a
      rw [hlvl1_old a haold]
      exact (mem_lvlFilter.mp ham).2
  have hnslot : ∀ i, i < rl → i < lvlOf l1 n := by
    intro i hi
    rw [hlvl1_new]
    exact hi
  have hALN := addLinks_nextOf n prevs rl l1 hns hslot (by omega) hnslot
  -- accessors of the final state
  have hkey2_old : ∀ a, a < n → keyOf l2 a = keyOf l a := fun a ha => by
    rw [hl2, keyOf_addLinks, hkey1_old a ha]
  have hkey2_new : keyOf l2 n = k := by rw [hl2, keyOf_addLinks, hkey1_new]
  have hlvl2_old : ∀ a, a < n → lvlOf l2 a = lvlOf l a := fun a ha => by
    rw [hl2, lvlOf_addLinks, hlvl1_old a ha]
  have hlvl2_new : lvlOf l2 n = rl := by rw [hl2, lvlOf_addLinks, hlvl1_new]
  show WF { l2 with Length := l2.Length + 1 } (tw ++ n :: dw)
  have hacc_next : ∀ q i, nextOf { l2 with Length := l2.Length + 1 } q i = nextOf l2 q i :=
    fun q i => rfl
  have hacc_key : ∀ a, keyOf { l2 with Length := l2.Length + 1 } a = keyOf l2 a :=
    fun a => rfl
  have hacc_lvl : ∀ a, lvlOf { l2 with Length := l2.Length + 1 } a = lvlOf l2 a :=
    fun a => rfl
  have htw_old : ∀ x ∈ tw, x < n := fun x hx => hmem_n x (htw_sub x hx)
  have hdw_old : ∀ x ∈ dw, x < n := fun x hx => hmem_n x (hdw_sub x hx)
  have hnodup := hwf.nodup
  have hdisj : ∀ x ∈ tw, x ∉ dw := by
    intro x hx hxd
    rw [← hls_split] at hnodup
    exact (List.disjoint_of_nodup_append hnodup) hx hxd
  constructor
  case head_len =>
    show ({ l2 with Length := l2.Length + 1 }).headNext.length = _
    have h1 : ({ l2 with Length := l2.Length + 1 }).headNext = l2.headNext := rfl
    have h2 : ({ l2 with Length := l2.Length + 1 }).maxLevel = l2.maxLevel := rfl
    rw [h1, h2, hl2]
    rw [show (addLinks n prevs rl l1).headNext.length = l1.headNext.length from
      headNext_length_addLinks n prevs rl l1]
    rw [maxLevel_addLinks, hl1_max, hl1_head, hwf.head_len]
  case ml_pos =>
    show 1 ≤ ({ l2 with Length := l2.Length + 1 }).maxLevel
    have h2 : ({ l2 with Length := l2.Length + 1 }).maxLevel = l2.maxLevel := rfl
    rw [h2, hl2, maxLevel_addLinks, hl1_max]
    exact hml
  case mem_lt =>
    intro j hj
    have harena : ({ l2 with Length := l2.Length + 1 }).arena.length = n + 1 := by
      show l2.arena.length = n + 1
      rw [hl2, arena_length_addLinks, hl1_arena]
    rw [harena]
    rcases List.mem_append.mp hj with hjt | hjnd
    · have := htw_old j hjt
      omega
    · rcases List.mem_cons.mp hjnd with rfl | hjd
      · omega
      · have := hdw_old j hjd
        omega
  case sorted =>
    apply List.Pairwise.chain'
    apply List.pairwise_append.mpr
    refine ⟨?_, ?_, ?_⟩
    · have hpw : tw.Pairwise (fun a b => keyOf l a < keyOf l b) :=
        List.Pairwise.sublist (List.takeWhile_sublist _) hwf.pairwise
      apply hpw.imp_of_mem
      intro a b ha hb hab
      rw [hacc_key, hacc_key, hkey2_old a (htw_old a ha), hkey2_old b (htw_old b hb)]
      exact hab
    · apply List.pairwise_cons.mpr
      refine ⟨?_, ?_⟩
      · intro b hb
        rw [hacc_key, hacc_key, hkey2_new, hkey2_old b (hdw_old b hb)]
        exact hdw_gt b hb
      · have hpw : dw.Pairwise (fun a b => keyOf l a < keyOf l b) :=
          List.Pairwise.sublist (List.dropWhile_sublist _) hwf.pairwise
        apply hpw.imp_of_mem
        intro a b ha hb hab
        rw [hacc_key, hacc_key, hkey2_old a (hdw_old a ha), hkey2_old b (hdw_old b hb)]
        exact hab
    · intro a ha b hb
      rcases List.mem_cons.mp hb with rfl | hbd
      · rw [hacc_key, hacc_key, hkey2_new, hkey2_old a (htw_old a ha)]
        exact htw_below a ha
      · rw [hacc_key, hacc_key, hkey2_old a (htw_old a ha), hkey2_old b (hdw_old b hbd)]
        exact lt_trans (htw_below a ha) (hdw_gt b hbd)
  case lvl_pos =>
    intro j hj
    rw [hacc_lvl]
    rcases List.mem_append.mp hj with hjt | hjnd
    · rw [hlvl2_old j (htw_old j hjt)]
      exact hwf.lvl_pos j (htw_sub j hjt)
    · rcases List.mem_cons.mp hjnd with rfl | hjd
      · rw [hlvl2_new]
        exact hrl_pos
      · rw [hlvl2_old j (hdw_old j hjd)]
        exact hwf.lvl_pos j (hdw_sub j hjd)
  case lvl_le =>
    intro j hj
    have h2 : ({ l2 with Length := l2.Length + 1 }).maxLevel = l.maxLevel := by
      show l2.maxLevel = l.maxLevel
      rw [hl2, maxLevel_addLinks, hl1_max]
    rw [hacc_lvl, h2]
    rcases List.mem_append.mp hj with hjt | hjnd
    · rw [hlvl2_old j (htw_old j hjt)]
      exact hwf.lvl_le j (htw_sub j hjt)
    · rcases List.mem_cons.mp hjnd with rfl | hjd
      · rw [hlvl2_new]
        exact hrl_le
      · rw [hlvl2_old j (hdw_old j hjd)]
        exact hwf.lvl_le j (hdw_sub j hjd)
  case len_eq =>
    show l2.Length + 1 = _
    rw [hl2, Length_addLinks, show l1.Length = l.Length from rfl, hwf.len_eq]
    have hlen : (tw ++ n :: dw).length = ls.length + 1 := by
      rw [← hls_split]
      simp
      omega
    rw [hlen]
    push_cast
    ring
  case chains =>
    intro i hilt
    have h2 : ({ l2 with Length := l2.Length + 1 }).maxLevel = l.maxLevel := by
      show l2.maxLevel = l.maxLevel
      rw [hl2, maxLevel_addLinks, hl1_max]
    rw [h2] at hilt
    rw [chainAt_withLength]
    apply isChain_withLength
    have hchain2 : chainAt l2 (tw ++ n :: dw) i =
        lvlFilter l i tw ++ (if i < rl then n :: lvlFilter l i dw else lvlFilter l i dw) := by
      rw [chainAt_eq_lvlFilter, lvlFilter_append]
      congr 1
      · apply List.filter_congr
        intro x hx
        rw [hlvl2_old x (htw_old x hx)]
      · show List.filter (fun j => decide (i < lvlOf l2 j)) (n :: dw) = _
        rw [List.filter_cons]
        have hdwf : List.filter (fun j => decide (i < lvlOf l2 j)) dw = lvlFilter l i dw := by
          apply List.filter_congr
          intro x hx
          rw [hlvl2_old x (hdw_old x hx)]
        rw [hdwf, hlvl2_new]
        by_cases hc : i < rl <;> simp [hc]
    rw [hchain2]
    have hold := hwf.chains i hilt
    rw [chainAt_eq_lvlFilter, ← hls_split, lvlFilter_append] at hold
    obtain ⟨holdlk, holdend⟩ := hold
    have holdlk2 := holdlk
    rw [links_append] at holdlk2
    obtain ⟨hlkFtw, hlkFdw⟩ := holdlk2
    have hFtw_old : ∀ x ∈ lvlFilter l i tw, x < n := fun x hx =>
      htw_old x (mem_lvlFilter.mp hx).1
    have hFdw_old : ∀ x ∈ lvlFilter l i dw, x < n := fun x hx =>
      hdw_old x (mem_lvlFilter.mp hx).1
    have hFdisj : ∀ x ∈ lvlFilter l i dw, x ∉ lvlFilter l i tw := by
      intro x hx hxF
      exact hdisj x (mem_lvlFilter.mp hxF).1 (mem_lvlFilter.mp hx).1
    have hprevsi : prevs i = (lvlFilter l i tw).getLast? := hprev_eq i (le_of_lt hilt)
    have hFtw_nodup : (lvlFilter l i tw).Nodup := by
      have h1 : (lvlFilter l i tw).Sublist tw := List.filter_sublist tw
      have h2 : tw.Sublist ls := List.takeWhile_sublist _
      exact hwf.nodup.sublist (h1.trans h2)
    have hprev_ne_of_mem : ∀ x ∈ lvlFilter l i dw, ¬ (some x : Option Nat) = prevs i := by
      intro x hx hcon
      rw [hprevsi] at hcon
      have := List.mem_of_mem_getLast? hcon.symm
      exact hFdisj x hx this
    have hNoldA : i < rl → ∀ (q : Option Nat), (∀ a, q = some a → a < n) →
        ¬ q = prevs i → nextOf l2 q i = nextOf l q i := by
      intro hir q hq hqp
      have hqn : q ≠ some n := by
        rintro rfl
        have := hq n rfl
        omega
      rw [hl2, hALN q i, if_pos hir, if_neg hqp, if_neg hqn, hnext1_old q hq]
    have hNoldB : ¬ i < rl → ∀ (q : Option Nat), (∀ a, q = some a → a < n) →
        nextOf l2 q i = nextOf l q i := by
      intro hir q hq
      rw [hl2, hALN q i, if_neg hir, hnext1_old q hq]
    have hNprev : i < rl → nextOf l2 (prevs i) i = some n := by
      intro hir
      rw [hl2, hALN (prevs i) i, if_pos hir, if_pos rfl]
    have hNn : i < rl → nextOf l2 (some n) i = nextOf l (prevs i) i := by
      intro hir
      rw [hl2, hALN (some n) i, if_pos hir, if_neg (fun h => hns i hir h.symm), if_pos rfl,
        hnext1_old (prevs i) (hprev_old i (le_of_lt hilt))]
    have hpE : prevs i = endPt none (lvlFilter l i tw) := by rw [endPt_none, hprevsi]
    by_cases hir : i < rl
    · rw [if_pos hir]
      constructor
      · rw [links_append]
        constructor
        · apply links_congr l l2 i (lvlFilter l i tw) none ?_ ?_ hlkFtw
          · intro hne
            apply hNoldA hir none (by rintro a h; cases h)
            rw [hprevsi]
            intro hcon
            exact hne (List.getLast?_eq_none_iff.mp hcon.symm)
          · intro x hx
            apply hNoldA hir (some x) (by
              rintro a h
              cases h
              exact hFtw_old x ((List.dropLast_sublist _).subset hx))
            rw [hprevsi]
            intro hcon
            exact nodup_dropLast_ne_getLast? _ hFtw_nodup x hx hcon.symm
        · refine ⟨?_, ?_⟩
          · rw [← hpE]
            exact hNprev hir
          · cases hFdwe : lvlFilter l i dw with
            | nil => trivial
            | cons d rest =>
              have hdmem : d ∈ lvlFilter l i dw := by rw [hFdwe]; simp
              rw [hFdwe] at hlkFdw
              refine ⟨?_, ?_⟩
              · rw [hNn hir, hpE]
                exact hlkFdw.1
              · apply links_congr l l2 i rest (some d) ?_ ?_ hlkFdw.2
                · intro _
                  apply hNoldA hir (some d)
                    (by rintro a h; cases h; exact hFdw_old d hdmem)
                  exact hprev_ne_of_mem d hdmem
                · intro x hx
                  have hxFdw : x ∈ lvlFilter l i dw := by
                    rw [hFdwe]
                    exact List.mem_cons_of_mem _ ((List.dropLast_sublist _).subset hx)
                  apply hNoldA hir (some x)
                    (by rintro a h; cases h; exact hFdw_old x hxFdw)
                  exact hprev_ne_of_mem x hxFdw
      · rw [endPt_append, endPt_cons]
        cases hFdwe : lvlFilter l i dw with
        | nil =>
          rw [endPt_nil]
          show nextOf l2 (some n) i = none
          rw [hNn hir, hpE]
          rw [hFdwe, List.append_nil] at holdend
          exact holdend
        | cons d rest =>
          rw [hFdwe, endPt_append, endPt_cons] at holdend
          rw [endPt_cons]
          rcases endPt_cases (some d) rest with hq | hq2
          · rw [hq]
            rw [hq] at holdend
            have hdmem : d ∈ lvlFilter l i dw := by rw [hFdwe]; simp
            rw [hNoldA hir (some d)
              (by rintro a h; cases h; exact hFdw_old d hdmem)
              (hprev_ne_of_mem d hdmem)]
            exact holdend
          · obtain ⟨x, hq, hxr⟩ := hq2
            rw [hq]
            rw [hq] at holdend
            have hxFdw : x ∈ lvlFilter l i dw := by
              rw [hFdwe]
              exact List.mem_cons_of_mem _ hxr
            rw [hNoldA hir (some x)
              (by rintro a h; cases h; exact hFdw_old x hxFdw)
              (hprev_ne_of_mem x hxFdw)]
            exact holdend
    · rw [if_neg hir]
      constructor
      · apply links_congr l l2 i (lvlFilter l i tw ++ lvlFilter l i dw) none ?_ ?_ holdlk
        · intro _
          exact hNoldB hir none (by rintro a h; cases h)
        · intro x hx
          have hxm : x ∈ lvlFilter l i tw ++ lvlFilter l i dw :=
            (List.dropLast_sublist _).subset hx
          apply hNoldB hir (some x)
          rintro a h
          cases h
          rcases List.mem_append.mp hxm with h1 | h1
          · exact hFtw_old x h1
          · exact hFdw_old x h1
      · rcases endPt_cases none (lvlFilter l i tw ++ lvlFilter l i dw) with hq | hq2
        · rw [hq] at holdend ⊢
          rw [hNoldB hir none (by rintro a h; cases h)]
          exact holdend
        · obtain ⟨x, hq, hxm⟩ := hq2
          rw [hq] at holdend ⊢
          have hxn : x < n := by
            rcases List.mem_append.mp hxm with h1 | h1
            · exact hFtw_old x h1
            · exact hFdw_old x h1
          rw [hNoldB hir (some x) (by rintro a h; cases h; exact hxn)]
          exact holdend

end Skiplist

namespace Skiplist

theorem Add_candidate_some (l : SkipList) (k : Key) (v : Bytes) (r : Nat) (j : Nat)
    (hc : candidate l k = some j) :
    Add l k v r = if keyOf l j ≤ k then setValue l j v else addFresh l k v r := by
  unfold Add
  rw [hc]

theorem Add_candidate_none (l : SkipList) (k : Key) (v : Bytes) (r : Nat)
    (hc : candidate l k = none) : Add l k v r = addFresh l k v r := by
  unfold Add
  rw [hc]

theorem Remove_candidate_some (l : SkipList) (k : Key) (j : Nat)
    (hc : candidate l k = some j) :
    Remove l k =
      if keyOf l j ≤ k then
        ({ removeLinks (prevAt l k) j (lvlOf l j) l with Length :=
            (removeLinks (prevAt l k) j (lvlOf l j) l).Length - 1 }, some j)
      else (l, none) := by
  unfold Remove
  rw [hc]

theorem Remove_candidate_none (l : SkipList) (k : Key) (hc : candidate l k = none) :
    Remove l k = (l, none) := by
  unfold Remove
  rw [hc]

/-- `Add` of a key with no live occurrence takes the fresh-insert
branch. -/
theorem Add_of_absent {l : SkipList} {ls : List Nat} (hwf : WF l ls) (k : Key) (v : Bytes)
    (r : Nat) (habs : ∀ j ∈ ls, keyOf l j ≠ k) : Add l k v r = addFresh l k v r := by
  cases hc : candidate l k with
  | none => exact Add_candidate_none l k v r hc
  | some j =>
    rw [Add_candidate_some l k v r j hc, if_neg]
    intro hle
    exact habs j (candidate_mem hwf k j hc) ((candidate_match_iff_eq hwf k j hc).mp hle)

/-- `Add` of a live key updates that element's value in place. -/
theorem Add_of_mem {l : SkipList} {ls : List Nat} (hwf : WF l ls) (k : Key) (v : Bytes)
    (r : Nat) (j0 : Nat) (hj0 : j0 ∈ ls) (hkey : keyOf l j0 = k) :
    Add l k v r = setValue l j0 v := by
  rw [Add_candidate_some l k v r j0 (candidate_of_mem hwf k j0 hj0 hkey),
    if_pos (le_of_eq hkey)]

/-- `Remove` of a key with no live occurrence is a complete no-op. -/
theorem Remove_of_absent {l : SkipList} {ls : List Nat} (hwf : WF l ls) (k : Key)
    (habs : ∀ j ∈ ls, keyOf l j ≠ k) : Remove l k = (l, none) := by
  cases hc : candidate l k with
  | none => exact Remove_candidate_none l k hc
  | some j =>
    rw [Remove_candidate_some l k j hc, if_neg]
    intro hle
    exact habs j (candidate_mem hwf k j hc) ((candidate_match_iff_eq hwf k j hc).mp hle)

/-- `Remove` of a live key unlinks exactly that element and decrements
the count. -/
theorem Remove_of_mem {l : SkipList} {ls : List Nat} (hwf : WF l ls) (k : Key)
    (j0 : Nat) (hj0 : j0 ∈ ls) (hkey : keyOf l j0 = k) :
    Remove l k =
      ({ removeLinks (prevAt l k) j0 (lvlOf l j0) l with Length := l.Length - 1 }, some j0) := by
  rw [Remove_candidate_some l k j0 (candidate_of_mem hwf k j0 hj0 hkey),
    if_pos (le_of_eq hkey), Length_removeLinks]

/-- The live element with the searched key heads the drop-suffix. -/
theorem dropWhile_eq_cons_of_mem {l : SkipList} {ls : List Nat} (hwf : WF l ls) (k : Key)
    (j0 : Nat) (hj0 : j0 ∈ ls) (hkey : keyOf l j0 = k) :
    ls.dropWhile (belowK l k) = j0 :: (ls.dropWhile (belowK l k)).tail := by
  have hc := candidate_of_mem hwf k j0 hj0 hkey
  rw [candidate_eq hwf k] at hc
  cases hd : ls.dropWhile (belowK l k) with
  | nil => rw [hd] at hc; cases hc
  | cons d rest =>
    rw [hd] at hc
    simp only [List.head?_cons, Option.some.injEq] at hc
    rw [hc]
    rfl

/-- `setValue` on a live element preserves well-formedness with the
same live list. -/
theorem setValue_WF {l : SkipList} {ls : List Nat} (hwf : WF l ls) (j0 : Nat) (v : Bytes) :
    WF (setValue l j0 v) ls := by
  constructor
  case head_len =>
    rw [show (setValue l j0 v).headNext = l.headNext from rfl,
      show (setValue l j0 v).maxLevel = l.maxLevel from rfl]
    exact hwf.head_len
  case ml_pos =>
    exact hwf.ml_pos
  case mem_lt =>
    intro j hj
    rw [arena_length_setValue]
    exact hwf.mem_lt j hj
  case sorted =>
    apply List.Pairwise.chain'
    apply hwf.pairwise.imp_of_mem
    intro a b _ _ hab
    rw [keyOf_setValue, keyOf_setValue]
    exact hab
  case lvl_pos =>
    intro j hj
    rw [lvlOf_setValue]
    exact hwf.lvl_pos j hj
  case lvl_le =>
    intro j hj
    rw [lvlOf_setValue]
    exact hwf.lvl_le j hj
  case chains =>
    intro i hilt
    have hchain : chainAt (setValue l j0 v) ls i = chainAt l ls i := by
      apply List.filter_congr
      intro x _
      rw [lvlOf_setValue]
    rw [hchain]
    obtain ⟨hlk, hend⟩ := hwf.chains i hilt
    refine ⟨links_congr l _ i _ none (fun _ => nextOf_setValue l j0 v none i)
      (fun x _ => nextOf_setValue l j0 v (some x) i) hlk, ?_⟩
    rw [nextOf_setValue]
    exact hend
  case len_eq =>
    exact hwf.len_eq

end Skiplist

namespace Skiplist

/-- Removal of a live element preserves well-formedness, with that
element dropped from the live list. -/
theorem Remove_present_WF {l : SkipList} {ls : List Nat} (hwf : WF l ls) (k : Key)
    (j0 : Nat) (hj0 : j0 ∈ ls) (hkey : keyOf l j0 = k) :
    WF (Remove l k).1
      (ls.takeWhile (belowK l k) ++ (ls.dropWhile (belowK l k)).tail) := by
  set tw := ls.takeWhile (belowK l k) with htw
  set dw := ls.dropWhile (belowK l k) with hdw
  set suf := dw.tail with hsuf
  set m := lvlOf l j0 with hm
  set prevs : Nat → Option Nat := prevAt l k with hprevs
  have hdw_cons : dw = j0 :: suf := dropWhile_eq_cons_of_mem hwf k j0 hj0 hkey
  have hml := hwf.ml_pos
  have hls_split : tw ++ dw = ls := List.takeWhile_append_dropWhile _ _
  have hls_split2 : tw ++ j0 :: suf = ls := by rw [← hdw_cons]; exact hls_split
  have htw_sub : ∀ x ∈ tw, x ∈ ls := fun x hx => by
    rw [← hls_split]; exact List.mem_append_left _ hx
  have hsuf_sub : ∀ x ∈ suf, x ∈ ls := fun x hx => by
    rw [← hls_split2]
    exact List.mem_append_right _ (List.mem_cons_of_mem _ hx)
  have htw_below : ∀ x ∈ tw, keyOf l x < k := fun x hx => by
    have := List.mem_takeWhile_imp hx
    simpa [belowK] using this
  have hj0_notin_tw : j0 ∉ tw := fun hmem => absurd hkey (ne_of_lt (htw_below j0 hmem))
  have hnodup := hwf.nodup
  have hnodup2 : (tw ++ j0 :: suf).Nodup := by rw [hls_split2]; exact hnodup
  have hdisj : ∀ x ∈ tw, x ∉ j0 :: suf := by
    intro x hx hxd
    exact (List.disjoint_of_nodup_append hnodup2) hx hxd
  have hm_le : m ≤ l.maxLevel := hwf.lvl_le j0 hj0
  -- the recorded predecessors
  have hprev_eq : ∀ i, i ≤ l.maxLevel → prevs i = (lvlFilter l i tw).getLast? := by
    intro i hi
    rw [hprevs, prevAt_eq hwf k i hi, takeWhile_chainAt_eq hwf k i]
    rfl
  have hprev_mem : ∀ i, i ≤ l.maxLevel → ∀ a, prevs i = some a → a ∈ lvlFilter l i tw := by
    intro i hi a ha
    rw [hprev_eq i hi] at ha
    exact List.mem_of_mem_getLast? ha
  have hpj : ∀ i, i < m → prevs i ≠ some j0 := by
    intro i hi hcon
    have := hprev_mem i (le_trans (Nat.le_of_lt hi) hm_le) j0 hcon
    exact hj0_notin_tw (mem_lvlFilter.mp this).1
  have hslot : ∀ i, i < m → slotOk l (prevs i) i := by
    intro i hi
    cases hp : prevs i with
    | none =>
      show i < l.headNext.length
      rw [hwf.head_len]
      omega
    | some a =>
      have hilm : i ≤ l.maxLevel := le_trans (Nat.le_of_lt hi) hm_le
      have ham := hprev_mem i hilm a hp
      refine ⟨hwf.mem_lt a (htw_sub a (mem_lvlFilter.mp ham).1), ?_⟩
      show i < lvlOf l a
      exact (mem_lvlFilter.mp ham).2
  have hRLN := removeLinks_nextOf prevs j0 m l hpj hslot
  set l2 := removeLinks prevs j0 m l with hl2
  have hrm := Remove_of_mem hwf k j0 hj0 hkey
  rw [hrm]
  show WF { l2 with Length := l.Length - 1 } (tw ++ suf)
  have hkey2 : ∀ a, keyOf l2 a = keyOf l a := fun a => keyOf_removeLinks prevs j0 m l a
  have hlvl2 : ∀ a, lvlOf l2 a = lvlOf l a := fun a => lvlOf_removeLinks prevs j0 m l a
  constructor
  case head_len =>
    show l2.headNext.length = l2.maxLevel
    rw [hl2]
    rw [headNext_length_removeLinks, maxLevel_removeLinks, hwf.head_len]
  case ml_pos =>
    show 1 ≤ l2.maxLevel
    rw [hl2, maxLevel_removeLinks]
    exact hml
  case mem_lt =>
    intro j hj
    show j < l2.arena.length
    rw [hl2, arena_length_removeLinks]
    rcases List.mem_append.mp hj with h1 | h1
    · exact hwf.mem_lt j (htw_sub j h1)
    · exact hwf.mem_lt j (hsuf_sub j h1)
  case sorted =>
    apply List.Pairwise.chain'
    have hsub : (tw ++ suf).Sublist ls := by
      rw [← hls_split2]
      exact List.Sublist.append (List.Sublist.refl tw) (List.sublist_cons_self j0 suf)
    have hpw := List.Pairwise.sublist hsub hwf.pairwise
    apply hpw.imp_of_mem
    intro a b _ _ hab
    show keyOf { l2 with Length := l.Length - 1 } a < keyOf { l2 with Length := l.Length - 1 } b
    rw [show keyOf { l2 with Length := l.Length - 1 } a = keyOf l2 a from rfl,
      show keyOf { l2 with Length := l.Length - 1 } b = keyOf l2 b from rfl, hkey2, hkey2]
    exact hab
  case lvl_pos =>
    intro j hj
    show 1 ≤ lvlOf l2 j
    rw [hlvl2]
    rcases List.mem_append.mp hj with h1 | h1
    · exact hwf.lvl_pos j (htw_sub j h1)
    · exact hwf.lvl_pos j (hsuf_sub j h1)
  case lvl_le =>
    intro j hj
    show lvlOf l2 j ≤ l2.maxLevel
    rw [hlvl2, hl2, maxLevel_removeLinks]
    rcases List.mem_append.mp hj with h1 | h1
    · exact hwf.lvl_le j (htw_sub j h1)
    · exact hwf.lvl_le j (hsuf_sub j h1)
  case len_eq =>
    show l.Length - 1 = _
    rw [hwf.len_eq, ← hls_split2]
    simp only [List.length_append, List.length_cons]
    push_cast
    ring
  case chains =>
    intro i hilt
    have hmlconv : ({ l2 with Length := l.Length - 1 }).maxLevel = l.maxLevel := by
      show l2.maxLevel = l.maxLevel
      rw [hl2, maxLevel_removeLinks]
    rw [hmlconv] at hilt
    rw [chainAt_withLength]
    apply isChain_withLength
    have hchain2 : chainAt l2 (tw ++ suf) i = lvlFilter l i tw ++ lvlFilter l i suf := by
      rw [chainAt_eq_lvlFilter, lvlFilter_append]
      congr 1 <;> (apply List.filter_congr; intro x _; rw [hlvl2])
    rw [hchain2]
    have hold := hwf.chains i hilt
    rw [chainAt_eq_lvlFilter, ← hls_split2, lvlFilter_append] at hold
    obtain ⟨holdlk, holdend⟩ := hold
    have hFtw_lt : ∀ x ∈ lvlFilter l i tw, x < l.arena.length := fun x hx =>
      hwf.mem_lt x (htw_sub x (mem_lvlFilter.mp hx).1)
    have hFsuf_mem : ∀ x ∈ lvlFilter l i suf, x ∈ suf := fun x hx => (mem_lvlFilter.mp hx).1
    have hprevsi : prevs i = (lvlFilter l i tw).getLast? := hprev_eq i (le_of_lt hilt)
    have hFtw_nodup : (lvlFilter l i tw).Nodup := by
      have h1 : (lvlFilter l i tw).Sublist tw := List.filter_sublist tw
      have h2 : tw.Sublist ls := List.takeWhile_sublist _
      exact hwf.nodup.sublist (h1.trans h2)
    have hprev_ne_suf : ∀ x ∈ lvlFilter l i suf, ¬ (some x : Option Nat) = prevs i := by
      intro x hx hcon
      rw [hprevsi] at hcon
      have h1 := List.mem_of_mem_getLast? hcon.symm
      exact hdisj x (mem_lvlFilter.mp h1).1 (List.mem_cons_of_mem _ (hFsuf_mem x hx))
    have hNold : ∀ (q : Option Nat), ¬ (i < m ∧ q = prevs i) →
        nextOf l2 q i = nextOf l q i := by
      intro q hq
      rw [hl2, hRLN q i, if_neg hq]
    have hNprev : i < m → nextOf l2 (prevs i) i = nextOf l (some j0) i := by
      intro hi
      rw [hl2, hRLN (prevs i) i, if_pos ⟨hi, rfl⟩]
    by_cases him : i < m
    · -- the removed element participated in level i
      have hsplit_old : lvlFilter l i (j0 :: suf) = j0 :: lvlFilter l i suf := by
        show List.filter _ (j0 :: suf) = _
        rw [List.filter_cons]
        have hd : decide (i < lvlOf l j0) = true := by
          simp only [decide_eq_true_eq]
          exact him
        rw [hd]
        simp only [if_true]
        rfl
      rw [hsplit_old] at holdlk holdend
      have holdlk2 := holdlk
      rw [links_append] at holdlk2
      obtain ⟨hlkFtw, hlkRest⟩ := holdlk2
      obtain ⟨hj0link, hlkFsuf⟩ := hlkRest
      have hpE : prevs i = endPt none (lvlFilter l i tw) := by rw [endPt_none, hprevsi]
      constructor
      · rw [links_append]
        constructor
        · apply links_congr l l2 i (lvlFilter l i tw) none ?_ ?_ hlkFtw
          · intro hne
            apply hNold none
            rintro ⟨_, hcon⟩
            rw [hprevsi] at hcon
            exact hne (List.getLast?_eq_none_iff.mp hcon.symm)
          · intro x hx
            apply hNold (some x)
            rintro ⟨_, hcon⟩
            rw [hprevsi] at hcon
            exact nodup_dropLast_ne_getLast? _ hFtw_nodup x hx hcon.symm
        · cases hFse : lvlFilter l i suf with
          | nil => trivial
          | cons s rest =>
            have hsmem : s ∈ lvlFilter l i suf := by rw [hFse]; simp
            rw [hFse] at hlkFsuf
            refine ⟨?_, ?_⟩
            · rw [← hpE, hNprev him]
              exact hlkFsuf.1
            · apply links_congr l l2 i rest (some s) ?_ ?_ hlkFsuf.2
              · intro _
                apply hNold (some s)
                rintro ⟨_, hcon⟩
                exact hprev_ne_suf s hsmem hcon
              · intro x hx
                have hxm : x ∈ lvlFilter l i suf := by
                  rw [hFse]
                  exact List.mem_cons_of_mem _ ((List.dropLast_sublist _).subset hx)
                apply hNold (some x)
                rintro ⟨_, hcon⟩
                exact hprev_ne_suf x hxm hcon
      · rw [endPt_append]
        rw [endPt_append, endPt_cons] at holdend
        cases hFse : lvlFilter l i suf with
        | nil =>
          rw [endPt_nil, ← hpE]
          rw [hFse, endPt_nil] at holdend
          rw [hNprev him]
          exact holdend
        | cons s rest =>
          rw [hFse, endPt_cons] at holdend
          rw [endPt_cons]
          rcases endPt_cases (some s) rest with hq | hq2
          · rw [hq]
            rw [hq] at holdend
            have hsmem : s ∈ lvlFilter l i suf := by rw [hFse]; simp
            rw [hNold (some s) (by rintro ⟨_, hcon⟩; exact hprev_ne_suf s hsmem hcon)]
            exact holdend
          · obtain ⟨x, hq, hxr⟩ := hq2
            rw [hq]
            rw [hq] at holdend
            have hxm : x ∈ lvlFilter l i suf := by
              rw [hFse]
              exact List.mem_cons_of_mem _ hxr
            rw [hNold (some x) (by rintro ⟨_, hcon⟩; exact hprev_ne_suf x hxm hcon)]
            exact holdend
    · -- the removed element was not on level i
      have hsplit_old : lvlFilter l i (j0 :: suf) = lvlFilter l i suf := by
        show List.filter _ (j0 :: suf) = _
        rw [List.filter_cons]
        have hd : decide (i < lvlOf l j0) = false := by
          simp only [decide_eq_false_iff_not]
          exact him
        rw [hd]
        simp only [Bool.false_eq_true, if_false]
        rfl
      rw [hsplit_old] at holdlk holdend
      have hnotouch : ∀ (q : Option Nat), nextOf l2 q i = nextOf l q i := by
        intro q
        apply hNold q
        rintro ⟨hcon, _⟩
        exact him hcon
      constructor
      · apply links_congr l l2 i _ none (fun _ => hnotouch none)
          (fun x _ => hnotouch (some x)) holdlk
      · rw [hnotouch]
        exact holdend

end Skiplist

namespace Skiplist

/-! Accessor corollaries for the operations, and preservation along
runs. -/

theorem addFresh_keyOf_old (l : SkipList) (k : Key) (v : Bytes) (r : Nat) (a : Nat)
    (ha : a < l.arena.length) : keyOf (addFresh l k v r) a = keyOf l a := by
  show keyOf (addLinks l.arena.length (prevAt l k) (randLevel l r)
    { l with arena := l.arena ++ [⟨List.replicate (randLevel l r) none, k, v⟩] }) a = _
  rw [keyOf_addLinks, keyOf_append l _ a ha]

theorem addFresh_keyOf_new (l : SkipList) (k : Key) (v : Bytes) (r : Nat) :
    keyOf (addFresh l k v r) l.arena.length = k := by
  show keyOf (addLinks l.arena.length (prevAt l k) (randLevel l r)
    { l with arena := l.arena ++ [⟨List.replicate (randLevel l r) none, k, v⟩] })
      l.arena.length = _
  rw [keyOf_addLinks]
  show (node _ l.arena.length).key = k
  rw [node_append_new]

theorem addFresh_valueOf_old (l : SkipList) (k : Key) (v : Bytes) (r : Nat) (a : Nat)
    (ha : a < l.arena.length) : valueOf (addFresh l k v r) a = valueOf l a := by
  show valueOf (addLinks l.arena.length (prevAt l k) (randLevel l r)
    { l with arena := l.arena ++ [⟨List.replicate (randLevel l r) none, k, v⟩] }) a = _
  rw [valueOf_addLinks, valueOf_append l _ a ha]

theorem addFresh_valueOf_new (l : SkipList) (k : Key) (v : Bytes) (r : Nat) :
    valueOf (addFresh l k v r) l.arena.length = v := by
  show valueOf (addLinks l.arena.length (prevAt l k) (randLevel l r)
    { l with arena := l.arena ++ [⟨List.replicate (randLevel l r) none, k, v⟩] })
      l.arena.length = _
  rw [valueOf_addLinks]
  show (node _ l.arena.length).value = v
  rw [node_append_new]

theorem addFresh_Length (l : SkipList) (k : Key) (v : Bytes) (r : Nat) :
    (addFresh l k v r).Length = l.Length + 1 := by
  show (addLinks _ _ _ _).Length + 1 = _
  rw [Length_addLinks]

theorem addFresh_arena_length (l : SkipList) (k : Key) (v : Bytes) (r : Nat) :
    (addFresh l k v r).arena.length = l.arena.length + 1 := by
  show (addLinks _ _ _ _).arena.length = _
  rw [arena_length_addLinks]
  simp

/-- Well-formedness of a freshly constructed list. -/
theorem initList_WF (m : Nat) (hm : 1 ≤ m) : WF (initList m) [] := by
  constructor
  case head_len => simp [initList]
  case ml_pos => exact hm
  case mem_lt => intro j hj; cases hj
  case sorted => exact List.chain'_nil
  case lvl_pos => intro j hj; cases hj
  case lvl_le => intro j hj; cases hj
  case chains =>
    intro i hi
    refine ⟨trivial, ?_⟩
    show nextOf (initList m) (endPt none (chainAt (initList m) [] i)) i = none
    show nextOf (initList m) none i = none
    show (List.replicate m (none : Option Nat)).getD i none = none
    rw [List.getD_eq_getElem?_getD, List.getElem?_replicate]
    split <;> rfl
  case len_eq => rfl

/-- Which keys an operation may rebind or unbind. -/
def Op.touches : Op → Key → Prop
  | .add k _ _, k' => k = k'
  | .get _, _ => False
  | .remove k, k' => k = k'

/-- One step preserves well-formedness and, for keys the operation does
not touch, the set of key-value bindings. -/
theorem step_transport {l : SkipList} {ls : List Nat} (hwf : WF l ls) (op : Op) :
    ∃ ls', WF (step l op) ls' ∧
      ∀ k v, ¬ Op.touches op k →
        ((∃ j ∈ ls, keyOf l j = k ∧ valueOf l j = v) ↔
         (∃ j ∈ ls', keyOf (step l op) j = k ∧ valueOf (step l op) j = v)) := by
  cases op with
  | get k0 => exact ⟨ls, hwf, fun k v _ => Iff.rfl⟩
  | add k0 v0 r0 =>
    by_cases hex : ∃ j0 ∈ ls, keyOf l j0 = k0
    · obtain ⟨j0, hj0, hkey0⟩ := hex
      have hstep : step l (Op.add k0 v0 r0) = setValue l j0 v0 :=
        Add_of_mem hwf k0 v0 r0 j0 hj0 hkey0
      refine ⟨ls, by rw [hstep]; exact setValue_WF hwf j0 v0, ?_⟩
      intro k v htouch
      have hk0k : k0 ≠ k := htouch
      rw [hstep]
      constructor
      · rintro ⟨j, hj, hkey, hval⟩
        have hjj0 : j ≠ j0 := by
          intro h
          subst h
          exact hk0k (hkey0.symm.trans hkey)
        exact ⟨j, hj, by rw [keyOf_setValue]; exact hkey,
          by rw [valueOf_setValue_ne l j0 v0 j hjj0]; exact hval⟩
      · rintro ⟨j, hj, hkey, hval⟩
        rw [keyOf_setValue] at hkey
        have hjj0 : j ≠ j0 := by
          intro h
          subst h
          exact hk0k (hkey0.symm.trans hkey)
        rw [valueOf_setValue_ne l j0 v0 j hjj0] at hval
        exact ⟨j, hj, hkey, hval⟩
    · push_neg at hex
      have hstep : step l (Op.add k0 v0 r0) = addFresh l k0 v0 r0 :=
        Add_of_absent hwf k0 v0 r0 hex
      refine ⟨ls.takeWhile (belowK l k0) ++ l.arena.length :: ls.dropWhile (belowK l k0),
        by rw [hstep]; exact addFresh_WF hwf k0 v0 r0 hex, ?_⟩
      intro k v htouch
      have hk0k : k0 ≠ k := htouch
      rw [hstep]
      have hmem_fwd : ∀ j ∈ ls, j ∈ ls.takeWhile (belowK l k0) ++
          l.arena.length :: ls.dropWhile (belowK l k0) := by
        intro j hj
        rw [← List.takeWhile_append_dropWhile (belowK l k0) ls] at hj
        rcases List.mem_append.mp hj with h1 | h1
        · exact List.mem_append_left _ h1
        · exact List.mem_append_right _ (List.mem_cons_of_mem _ h1)
      constructor
      · rintro ⟨j, hj, hkey, hval⟩
        have hjlt := hwf.mem_lt j hj
        exact ⟨j, hmem_fwd j hj,
          by rw [addFresh_keyOf_old l k0 v0 r0 j hjlt]; exact hkey,
          by rw [addFresh_valueOf_old l k0 v0 r0 j hjlt]; exact hval⟩
      · rintro ⟨j, hj, hkey, hval⟩
        have hjcase : j ∈ ls ∨ j = l.arena.length := by
          rcases List.mem_append.mp hj with h1 | h1
          · exact Or.inl ((List.takeWhile_sublist _).subset h1)
          · rcases List.mem_cons.mp h1 with h2 | h2
            · exact Or.inr h2
            · exact Or.inl ((List.dropWhile_sublist _).subset h2)
        rcases hjcase with hjls | hjn
        · have hjlt := hwf.mem_lt j hjls
          rw [addFresh_keyOf_old l k0 v0 r0 j hjlt] at hkey
          rw [addFresh_valueOf_old l k0 v0 r0 j hjlt] at hval
          exact ⟨j, hjls, hkey, hval⟩
        · subst hjn
          rw [addFresh_keyOf_new] at hkey
          exact absurd hkey hk0k
  | remove k0 =>
    by_cases hex : ∃ j0 ∈ ls, keyOf l j0 = k0
    · obtain ⟨j0, hj0, hkey0⟩ := hex
      have hwf' := Remove_present_WF hwf k0 j0 hj0 hkey0
      refine ⟨_, hwf', ?_⟩
      intro k v htouch
      have hk0k : k0 ≠ k := htouch
      have hrm := Remove_of_mem hwf k0 j0 hj0 hkey0
      have hkeyR : ∀ a, keyOf (step l (Op.remove k0)) a = keyOf l a := by
        intro a
        show keyOf (Remove l k0).1 a = keyOf l a
        rw [hrm]
        show keyOf (removeLinks (prevAt l k0) j0 (lvlOf l j0) l) a = keyOf l a
        rw [keyOf_removeLinks]
      have hvalR : ∀ a, valueOf (step l (Op.remove k0)) a = valueOf l a := by
        intro a
        show valueOf (Remove l k0).1 a = valueOf l a
        rw [hrm]
        show valueOf (removeLinks (prevAt l k0) j0 (lvlOf l j0) l) a = valueOf l a
        rw [valueOf_removeLinks]
      have hls2 : ls.takeWhile (belowK l k0) ++ j0 :: (ls.dropWhile (belowK l k0)).tail = ls := by
        rw [← dropWhile_eq_cons_of_mem hwf k0 j0 hj0 hkey0]
        exact List.takeWhile_append_dropWhile _ _
      constructor
      · rintro ⟨j, hj, hkey, hval⟩
        have hjj0 : j ≠ j0 := by
          intro h
          subst h
          exact hk0k (hkey0.symm.trans hkey)
        have hjmem : j ∈ ls.takeWhile (belowK l k0) ++ (ls.dropWhile (belowK l k0)).tail := by
          rw [← hls2] at hj
          rcases List.mem_append.mp hj with h1 | h1
          · exact List.mem_append_left _ h1
          · rcases List.mem_cons.mp h1 with h2 | h2
            · exact absurd h2 hjj0
            · exact List.mem_append_right _ h2
        exact ⟨j, hjmem, by rw [hkeyR]; exact hkey, by rw [hvalR]; exact hval⟩
      · rintro ⟨j, hj, hkey, hval⟩
        rw [hkeyR] at hkey
        rw [hvalR] at hval
        have hjls : j ∈ ls := by
          rw [← hls2]
          rcases List.mem_append.mp hj with h1 | h1
          · exact List.mem_append_left _ h1
          · exact List.mem_append_right _ (List.mem_cons_of_mem _ h1)
        exact ⟨j, hjls, hkey, hval⟩
    · push_neg at hex
      have hstep : step l (Op.remove k0) = l := by
        show (Remove l k0).1 = l
        rw [Remove_of_absent hwf k0 hex]
      rw [hstep]
      exact ⟨ls, hwf, fun k v _ => Iff.rfl⟩

/-- Well-formedness and untouched bindings survive any run. -/
theorem run_transport {l : SkipList} {ls : List Nat} (hwf : WF l ls) :
    ∀ ops : List Op, ∃ ls', WF (run l ops) ls' ∧
      ∀ k v, (∀ op ∈ ops, ¬ Op.touches op k) →
        ((∃ j ∈ ls, keyOf l j = k ∧ valueOf l j = v) →
         (∃ j ∈ ls', keyOf (run l ops) j = k ∧ valueOf (run l ops) j = v)) := by
  intro ops
  induction ops generalizing l ls with
  | nil => exact ⟨ls, hwf, fun k v _ h => h⟩
  | cons op rest ih =>
    obtain ⟨ls1, hwf1, htr1⟩ := step_transport hwf op
    obtain ⟨ls2, hwf2, htr2⟩ := ih hwf1
    refine ⟨ls2, hwf2, ?_⟩
    intro k v hops hin
    have h1 := (htr1 k v (hops op (List.mem_cons_self _ _))).mp hin
    exact htr2 k v (fun o ho => hops o (List.mem_cons_of_mem _ ho)) h1

/-- Every reachable baseline state is well-formed. -/
theorem Reach_WF {l : SkipList} (hr : Reach l) : ∃ ls, WF l ls := by
  obtain ⟨m, ops, hm1, _, rfl⟩ := hr
  obtain ⟨ls, hwf, _⟩ := run_transport (initList_WF m hm1) ops
  exact ⟨ls, hwf⟩

end Skiplist

namespace Stashlist

/-! Frame lemmas for the adaptive state mutators. -/

theorem maxLevel_setNextS (t : StashList) (p : Option Nat) (i : Nat) (v : Option Nat) :
    (setNext t p i v).maxLevel = t.maxLevel := by
  cases p <;> rfl

theorem Length_setNextS (t : StashList) (p : Option Nat) (i : Nat) (v : Option Nat) :
    (setNext t p i v).Length = t.Length := by
  cases p <;> rfl

theorem arena_length_setNextS (t : StashList) (p : Option Nat) (i : Nat) (v : Option Nat) :
    (setNext t p i v).arena.length = t.arena.length := by
  cases p <;> simp [setNext]

theorem headNext_length_setNextS (t : StashList) (p : Option Nat) (i : Nat) (v : Option Nat) :
    (setNext t p i v).headNext.length = t.headNext.length := by
  cases p <;> simp [setNext]

theorem node_setNext_neS (t : StashList) (b : Nat) (i : Nat) (v : Option Nat) (a : Nat)
    (h : a ≠ b) : node (setNext t (some b) i v) a = node t a := by
  simp [setNext, node, List.getD_eq_getElem?_getD, List.getElem?_set_ne (Ne.symm h)]

theorem keyOf_setNextS (t : StashList) (p : Option Nat) (i : Nat) (v : Option Nat) (a : Nat) :
    keyOf (setNext t p i v) a = keyOf t a := by
  match p with
  | none => rfl
  | some b =>
    by_cases hab : a = b
    · subst hab
      simp only [keyOf, setNext, node, List.getD_eq_getElem?_getD]
      by_cases hb : a < t.arena.length
      · simp [List.getElem?_set_self hb, node, List.getD_eq_getElem?_getD]
      · simp [List.set_eq_of_length_le (Nat.le_of_not_lt hb)]
    · rw [keyOf, node_setNext_neS t b i v a hab]; rfl

theorem valueOf_setNextS (t : StashList) (p : Option Nat) (i : Nat) (v : Option Nat) (a : Nat) :
    valueOf (setNext t p i v) a = valueOf t a := by
  match p with
  | none => rfl
  | some b =>
    by_cases hab : a = b
    · subst hab
      simp only [valueOf, setNext, node, List.getD_eq_getElem?_getD]
      by_cases hb : a < t.arena.length
      · simp [List.getElem?_set_self hb, node, List.getD_eq_getElem?_getD]
      · simp [List.set_eq_of_length_le (Nat.le_of_not_lt hb)]
    · rw [valueOf, node_setNext_neS t b i v a hab]; rfl

theorem levelOf_setNext (t : StashList) (p : Option Nat) (i : Nat) (v : Option Nat) (a : Nat) :
    levelOf (setNext t p i v) a = levelOf t a := by
  match p with
  | none => rfl
  | some b =>
    by_cases hab : a = b
    · subst hab
      simp only [levelOf, setNext, node, List.getD_eq_getElem?_getD]
      by_cases hb : a < t.arena.length
      · simp [List.getElem?_set_self hb, node, List.getD_eq_getElem?_getD]
      · simp [List.set_eq_of_length_le (Nat.le_of_not_lt hb)]
    · rw [levelOf, node_setNext_neS t b i v a hab]; rfl

theorem visitedOf_setNext (t : StashList) (p : Option Nat) (i : Nat) (v : Option Nat) (a : Nat) :
    visitedOf (setNext t p i v) a = visitedOf t a := by
  match p with
  | none => rfl
  | some b =>
    by_cases hab : a = b
    · subst hab
      simp only [visitedOf, setNext, node, List.getD_eq_getElem?_getD]
      by_cases hb : a < t.arena.length
      · simp [List.getElem?_set_self hb, node, List.getD_eq_getElem?_getD]
      · simp [List.set_eq_of_length_le (Nat.le_of_not_lt hb)]
    · rw [visitedOf, node_setNext_neS t b i v a hab]; rfl

theorem maxLevel_setLevel (t : StashList) (j : Nat) (lv : Nat) :
    (setLevel t j lv).maxLevel = t.maxLevel := rfl

theorem Length_setLevel (t : StashList) (j : Nat) (lv : Nat) :
    (setLevel t j lv).Length = t.Length := rfl

theorem arena_length_setLevel (t : StashList) (j : Nat) (lv : Nat) :
    (setLevel t j lv).arena.length = t.arena.length := by simp [setLevel]

theorem headNext_setLevel (t : StashList) (j : Nat) (lv : Nat) :
    (setLevel t j lv).headNext = t.headNext := rfl

theorem keyOf_setLevel (t : StashList) (j : Nat) (lv : Nat) (a : Nat) :
    keyOf (setLevel t j lv) a = keyOf t a := by
  by_cases hab : a = j
  · subst hab
    simp only [keyOf, setLevel, node, List.getD_eq_getElem?_getD]
    by_cases hb : a < t.arena.length
    · simp [List.getElem?_set_self hb, node, List.getD_eq_getElem?_getD]
    · simp [List.set_eq_of_length_le (Nat.le_of_not_lt hb)]
  · simp only [keyOf, setLevel, node, List.getD_eq_getElem?_getD,
      List.getElem?_set_ne (Ne.symm hab)]

theorem valueOf_setLevel (t : StashList) (j : Nat) (lv : Nat) (a : Nat) :
    valueOf (setLevel t j lv) a = valueOf t a := by
  by_cases hab : a = j
  · subst hab
    simp only [valueOf, setLevel, node, List.getD_eq_getElem?_getD]
    by_cases hb : a < t.arena.length
    · simp [List.getElem?_set_self hb, node, List.getD_eq_getElem?_getD]
    · simp [List.set_eq_of_length_le (Nat.le_of_not_lt hb)]
  · simp only [valueOf, setLevel, node, List.getD_eq_getElem?_getD,
      List.getElem?_set_ne (Ne.symm hab)]

theorem visitedOf_setLevel (t : StashList) (j : Nat) (lv : Nat) (a : Nat) :
    visitedOf (setLevel t j lv) a = visitedOf t a := by
  by_cases hab : a = j
  · subst hab
    simp only [visitedOf, setLevel, node, List.getD_eq_getElem?_getD]
    by_cases hb : a < t.arena.length
    · simp [List.getElem?_set_self hb, node, List.getD_eq_getElem?_getD]
    · simp [List.set_eq_of_length_le (Nat.le_of_not_lt hb)]
  · simp only [visitedOf, setLevel, node, List.getD_eq_getElem?_getD,
      List.getElem?_set_ne (Ne.symm hab)]

theorem nextOf_setLevel (t : StashList) (j : Nat) (lv : Nat) (q : Option Nat) (i : Nat) :
    nextOf (setLevel t j lv) q i = nextOf t q i := by
  match q with
  | none => rfl
  | some a =>
    by_cases hab : a = j
    · subst hab
      simp only [nextOf, setLevel, node, List.getD_eq_getElem?_getD]
      by_cases hb : a < t.arena.length
      · simp [List.getElem?_set_self hb, node, List.getD_eq_getElem?_getD]
      · simp [List.set_eq_of_length_le (Nat.le_of_not_lt hb)]
    · simp only [nextOf, setLevel, node, List.getD_eq_getElem?_getD,
        List.getElem?_set_ne (Ne.symm hab)]

theorem levelOf_setLevel_same (t : StashList) (j : Nat) (lv : Nat)
    (h : j < t.arena.length) : levelOf (setLevel t j lv) j = lv := by
  simp [levelOf, setLevel, node, List.getD_eq_getElem?_getD, List.getElem?_set_self h]

theorem levelOf_setLevel_ne (t : StashList) (j : Nat) (lv : Nat) (a : Nat) (h : a ≠ j) :
    levelOf (setLevel t j lv) a = levelOf t a := by
  simp only [levelOf, setLevel, node, List.getD_eq_getElem?_getD,
    List.getElem?_set_ne (Ne.symm h)]

theorem maxLevel_setVisited (t : StashList) (j : Nat) (b : Bool) :
    (setVisited t j b).maxLevel = t.maxLevel := rfl

theorem Length_setVisited (t : StashList) (j : Nat) (b : Bool) :
    (setVisited t j b).Length = t.Length := rfl

theorem arena_length_setVisited (t : StashList) (j : Nat) (b : Bool) :
    (setVisited t j b).arena.length = t.arena.length := by simp [setVisited]

theorem headNext_setVisited (t : StashList) (j : Nat) (b : Bool) :
    (setVisited t j b).headNext = t.headNext := rfl

theorem keyOf_setVisited (t : StashList) (j : Nat) (b : Bool) (a : Nat) :
    keyOf (setVisited t j b) a = keyOf t a := by
  by_cases hab : a = j
  · subst hab
    simp only [keyOf, setVisited, node, List.getD_eq_getElem?_getD]
    by_cases hb : a < t.arena.length
    · simp [List.getElem?_set_self hb, node, List.getD_eq_getElem?_getD]
    · simp [List.set_eq_of_length_le (Nat.le_of_not_lt hb)]
  · simp only [keyOf, setVisited, node, List.getD_eq_getElem?_getD,
      List.getElem?_set_ne (Ne.symm hab)]

theorem valueOf_setVisited (t : StashList) (j : Nat) (b : Bool) (a : Nat) :
    valueOf (setVisited t j b) a = valueOf t a := by
  by_cases hab : a = j
  · subst hab
    simp only [valueOf, setVisited, node, List.getD_eq_getElem?_getD]
    by_cases hb : a < t.arena.length
    · simp [List.getElem?_set_self hb, node, List.getD_eq_getElem?_getD]
    · simp [List.set_eq_of_length_le (Nat.le_of_not_lt hb)]
  · simp only [valueOf, setVisited, node, List.getD_eq_getElem?_getD,
      List.getElem?_set_ne (Ne.symm hab)]

theorem levelOf_setVisited (t : StashList) (j : Nat) (b : Bool) (a : Nat) :
    levelOf (setVisited t j b) a = levelOf t a := by
  by_cases hab : a = j
  · subst hab
    simp only [levelOf, setVisited, node, List.getD_eq_getElem?_getD]
    by_cases hb : a < t.arena.length
    · simp [List.getElem?_set_self hb, node, List.getD_eq_getElem?_getD]
    · simp [List.set_eq_of_length_le (Nat.le_of_not_lt hb)]
  · simp only [levelOf, setVisited, node, List.getD_eq_getElem?_getD,
      List.getElem?_set_ne (Ne.symm hab)]

theorem nextOf_setVisited (t : StashList) (j : Nat) (b : Bool) (q : Option Nat) (i : Nat) :
    nextOf (setVisited t j b) q i = nextOf t q i := by
  match q with
  | none => rfl
  | some a =>
    by_cases hab : a = j
    · subst hab
      simp only [nextOf, setVisited, node, List.getD_eq_getElem?_getD]
      by_cases hb : a < t.arena.length
      · simp [List.getElem?_set_self hb, node, List.getD_eq_getElem?_getD]
      · simp [List.set_eq_of_length_le (Nat.le_of_not_lt hb)]
    · simp only [nextOf, setVisited, node, List.getD_eq_getElem?_getD,
        List.getElem?_set_ne (Ne.symm hab)]

theorem maxLevel_setValueS (t : StashList) (j : Nat) (v : Bytes) :
    (setValue t j v).maxLevel = t.maxLevel := rfl

theorem Length_setValueS (t : StashList) (j : Nat) (v : Bytes) :
    (setValue t j v).Length = t.Length := rfl

theorem arena_length_setValueS (t : StashList) (j : Nat) (v : Bytes) :
    (setValue t j v).arena.length = t.arena.length := by simp [setValue]

theorem keyOf_setValueS (t : StashList) (j : Nat) (v : Bytes) (a : Nat) :
    keyOf (setValue t j v) a = keyOf t a := by
  by_cases hab : a = j
  · subst hab
    simp only [keyOf, setValue, node, List.getD_eq_getElem?_getD]
    by_cases hb : a < t.arena.length
    · simp [List.getElem?_set_self hb, node, List.getD_eq_getElem?_getD]
    · simp [List.set_eq_of_length_le (Nat.le_of_not_lt hb)]
  · simp only [keyOf, setValue, node, List.getD_eq_getElem?_getD,
      List.getElem?_set_ne (Ne.symm hab)]

theorem levelOf_setValue (t : StashList) (j : Nat) (v : Bytes) (a : Nat) :
    levelOf (setValue t j v) a = levelOf t a := by
  by_cases hab : a = j
  · subst hab
    simp only [levelOf, setValue, node, List.getD_eq_getElem?_getD]
    by_cases hb : a < t.arena.length
    · simp [List.getElem?_set_self hb, node, List.getD_eq_getElem?_getD]
    · simp [List.set_eq_of_length_le (Nat.le_of_not_lt hb)]
  · simp only [levelOf, setValue, node, List.getD_eq_getElem?_getD,
      List.getElem?_set_ne (Ne.symm hab)]

theorem visitedOf_setValue (t : StashList) (j : Nat) (v : Bytes) (a : Nat) :
    visitedOf (setValue t j v) a = visitedOf t a := by
  by_cases hab : a = j
  · subst hab
    simp only [visitedOf, setValue, node, List.getD_eq_getElem?_getD]
    by_cases hb : a < t.arena.length
    · simp [List.getElem?_set_self hb, node, List.getD_eq_getElem?_getD]
    · simp [List.set_eq_of_length_le (Nat.le_of_not_lt hb)]
  · simp only [visitedOf, setValue, node, List.getD_eq_getElem?_getD,
      List.getElem?_set_ne (Ne.symm hab)]

theorem nextOf_setValueS (t : StashList) (j : Nat) (v : Bytes) (q : Option Nat) (i : Nat) :
    nextOf (setValue t j v) q i = nextOf t q i := by
  match q with
  | none => rfl
  | some a =>
    by_cases hab : a = j
    · subst hab
      simp only [nextOf, setValue, node, List.getD_eq_getElem?_getD]
      by_cases hb : a < t.arena.length
      · simp [List.getElem?_set_self hb, node, List.getD_eq_getElem?_getD]
      · simp [List.set_eq_of_length_le (Nat.le_of_not_lt hb)]
    · simp only [nextOf, setValue, node, List.getD_eq_getElem?_getD,
        List.getElem?_set_ne (Ne.symm hab)]

theorem valueOf_setValue_sameS (t : StashList) (j : Nat) (v : Bytes)
    (h : j < t.arena.length) : valueOf (setValue t j v) j = v := by
  simp [valueOf, setValue, node, List.getD_eq_getElem?_getD, List.getElem?_set_self h]

theorem visitedOf_setVisited_same (t : StashList) (j : Nat) (b : Bool)
    (h : j < t.arena.length) : visitedOf (setVisited t j b) j = b := by
  simp [visitedOf, setVisited, node, List.getD_eq_getElem?_getD, List.getElem?_set_self h]

end Stashlist

namespace Stashlist

/-! Shape of the mutating descent: each per-level walk either leaves
the state unchanged or performs exactly one demotion. -/

theorem levelOf_setLevel (t : StashList) (j : Nat) (lv : Nat) (a : Nat) :
    levelOf (setLevel t j lv) a =
      if a = j ∧ j < t.arena.length then lv else levelOf t a := by
  by_cases hab : a = j
  · subst hab
    by_cases hb : a < t.arena.length
    · rw [if_pos ⟨rfl, hb⟩]
      exact levelOf_setLevel_same t a lv hb
    · rw [if_neg (fun h => hb h.2)]
      simp [levelOf, setLevel, node, List.set_eq_of_length_le (Nat.le_of_not_lt hb)]
  · rw [if_neg (fun h => hab h.1)]
    exact levelOf_setLevel_ne t j lv a hab

theorem visitedOf_setVisited (t : StashList) (j : Nat) (b : Bool) (a : Nat) :
    visitedOf (setVisited t j b) a =
      if a = j ∧ j < t.arena.length then b else visitedOf t a := by
  by_cases hab : a = j
  · subst hab
    by_cases hb : a < t.arena.length
    · rw [if_pos ⟨rfl, hb⟩]
      exact visitedOf_setVisited_same t a b hb
    · rw [if_neg (fun h => hb h.2)]
      simp [visitedOf, setVisited, node, List.set_eq_of_length_le (Nat.le_of_not_lt hb)]
  · rw [if_neg (fun h => hab h.1)]
    by_cases hb : j < t.arena.length
    · simp only [visitedOf, setVisited, node, List.getD_eq_getElem?_getD,
        List.getElem?_set_ne (Ne.symm hab)]
    · simp [visitedOf, setVisited, node, List.set_eq_of_length_le (Nat.le_of_not_lt hb)]

/-- The single-demotion state update performed inside the descent. -/
def demoteOne (t : StashList) (before : Option Nat) (j m i : Nat) : StashList :=
  let t1 := setNext t before i (some m)
  let t2 := setNext t1 (some j) i none
  setLevel t2 j (levelOf t2 j - 1)

theorem walkDem_shape (key : Key) (i : Nat) :
    ∀ (f : Nat) (t : StashList) (p : Option Nat),
      (walkDem key i f t p).1 = t ∨
      ∃ before j m, (walkDem key i f t p).1 = demoteOne t before j m i := by
  intro f
  induction f with
  | zero => intro t p; left; rfl
  | succ f ih =>
    intro t p
    cases hn : nextOf t p i with
    | none =>
      left
      simp only [walkDem, hn]
    | some j =>
      by_cases h1 : keyOf t j < key
      · cases hm : nextOf t (some j) i with
        | some m =>
          by_cases h2 : 0 < i ∧ keyOf t m = key ∧ visitedOf t j = false
          · right
            refine ⟨p, j, m, ?_⟩
            simp only [walkDem, hn, hm]
            rw [if_pos h1, if_pos h2]
            rfl
          · have hstep : walkDem key i (f + 1) t p = walkDem key i f t (some j) := by
              simp only [walkDem, hn, hm]
              rw [if_pos h1, if_neg h2]
            rw [hstep]
            exact ih t (some j)
        | none =>
          have hstep : walkDem key i (f + 1) t p = walkDem key i f t (some j) := by
            simp only [walkDem, hn, hm]
            rw [if_pos h1]
          rw [hstep]
          exact ih t (some j)
      · left
        simp only [walkDem, hn]
        rw [if_neg h1]

theorem demoteOne_maxLevel (t : StashList) (b : Option Nat) (j m i : Nat) :
    (demoteOne t b j m i).maxLevel = t.maxLevel := by
  simp [demoteOne, maxLevel_setLevel, maxLevel_setNextS]

theorem demoteOne_Length (t : StashList) (b : Option Nat) (j m i : Nat) :
    (demoteOne t b j m i).Length = t.Length := by
  simp [demoteOne, Length_setLevel, Length_setNextS]

theorem demoteOne_arena_length (t : StashList) (b : Option Nat) (j m i : Nat) :
    (demoteOne t b j m i).arena.length = t.arena.length := by
  simp [demoteOne, arena_length_setLevel, arena_length_setNextS]

theorem demoteOne_keyOf (t : StashList) (b : Option Nat) (j m i : Nat) (a : Nat) :
    keyOf (demoteOne t b j m i) a = keyOf t a := by
  simp [demoteOne, keyOf_setLevel, keyOf_setNextS]

theorem demoteOne_valueOf (t : StashList) (b : Option Nat) (j m i : Nat) (a : Nat) :
    valueOf (demoteOne t b j m i) a = valueOf t a := by
  simp [demoteOne, valueOf_setLevel, valueOf_setNextS]

theorem demoteOne_visitedOf (t : StashList) (b : Option Nat) (j m i : Nat) (a : Nat) :
    visitedOf (demoteOne t b j m i) a = visitedOf t a := by
  simp [demoteOne, visitedOf_setLevel, visitedOf_setNext]

theorem demoteOne_levelOf_le (t : StashList) (b : Option Nat) (j m i : Nat) (a : Nat) :
    levelOf (demoteOne t b j m i) a ≤ levelOf t a := by
  show levelOf (setLevel _ j _) a ≤ _
  rw [levelOf_setLevel]
  by_cases hc : a = j ∧ j < (setNext (setNext t b i (some m)) (some j) i none).arena.length
  · rw [if_pos hc]
    have h1 : levelOf (setNext (setNext t b i (some m)) (some j) i none) j = levelOf t j := by
      rw [levelOf_setNext, levelOf_setNext]
    rw [h1]
    obtain ⟨rfl, _⟩ := hc
    omega
  · rw [if_neg hc, levelOf_setNext, levelOf_setNext]

theorem walkDem_maxLevel (key : Key) (i f : Nat) (t : StashList) (p : Option Nat) :
    (walkDem key i f t p).1.maxLevel = t.maxLevel := by
  rcases walkDem_shape key i f t p with h | ⟨b, j, m, h⟩
  · rw [h]
  · rw [h, demoteOne_maxLevel]

theorem walkDem_Length (key : Key) (i f : Nat) (t : StashList) (p : Option Nat) :
    (walkDem key i f t p).1.Length = t.Length := by
  rcases walkDem_shape key i f t p with h | ⟨b, j, m, h⟩
  · rw [h]
  · rw [h, demoteOne_Length]

theorem walkDem_arena_length (key : Key) (i f : Nat) (t : StashList) (p : Option Nat) :
    (walkDem key i f t p).1.arena.length = t.arena.length := by
  rcases walkDem_shape key i f t p with h | ⟨b, j, m, h⟩
  · rw [h]
  · rw [h, demoteOne_arena_length]

theorem walkDem_keyOf (key : Key) (i f : Nat) (t : StashList) (p : Option Nat) (a : Nat) :
    keyOf (walkDem key i f t p).1 a = keyOf t a := by
  rcases walkDem_shape key i f t p with h | ⟨b, j, m, h⟩
  · rw [h]
  · rw [h, demoteOne_keyOf]

theorem walkDem_valueOf (key : Key) (i f : Nat) (t : StashList) (p : Option Nat) (a : Nat) :
    valueOf (walkDem key i f t p).1 a = valueOf t a := by
  rcases walkDem_shape key i f t p with h | ⟨b, j, m, h⟩
  · rw [h]
  · rw [h, demoteOne_valueOf]

theorem walkDem_visitedOf (key : Key) (i f : Nat) (t : StashList) (p : Option Nat) (a : Nat) :
    visitedOf (walkDem key i f t p).1 a = visitedOf t a := by
  rcases walkDem_shape key i f t p with h | ⟨b, j, m, h⟩
  · rw [h]
  · rw [h, demoteOne_visitedOf]

theorem walkDem_levelOf_le (key : Key) (i f : Nat) (t : StashList) (p : Option Nat) (a : Nat) :
    levelOf (walkDem key i f t p).1 a ≤ levelOf t a := by
  rcases walkDem_shape key i f t p with h | ⟨b, j, m, h⟩
  · rw [h]
  · rw [h]
    exact demoteOne_levelOf_le t b j m i a

theorem gpenAux_maxLevel (key : Key) :
    ∀ (n : Nat) (t : StashList) (p : Option Nat),
      (gpenAux key n t p).1.maxLevel = t.maxLevel := by
  intro n
  induction n with
  | zero => intro t p; rfl
  | succ n ih =>
    intro t p
    show (gpenAux key n (walkDem key n (fuel t) t p).1 (walkDem key n (fuel t) t p).2).1.maxLevel = _
    rw [ih, walkDem_maxLevel]

theorem gpenAux_Length (key : Key) :
    ∀ (n : Nat) (t : StashList) (p : Option Nat),
      (gpenAux key n t p).1.Length = t.Length := by
  intro n
  induction n with
  | zero => intro t p; rfl
  | succ n ih =>
    intro t p
    show (gpenAux key n (walkDem key n (fuel t) t p).1 (walkDem key n (fuel t) t p).2).1.Length = _
    rw [ih, walkDem_Length]

theorem gpenAux_arena_length (key : Key) :
    ∀ (n : Nat) (t : StashList) (p : Option Nat),
      (gpenAux key n t p).1.arena.length = t.arena.length := by
  intro n
  induction n with
  | zero => intro t p; rfl
  | succ n ih =>
    intro t p
    show (gpenAux key n (walkDem key n (fuel t) t p).1 (walkDem key n (fuel t) t p).2).1.arena.length = _
    rw [ih, walkDem_arena_length]

theorem gpenAux_keyOf (key : Key) :
    ∀ (n : Nat) (t : StashList) (p : Option Nat) (a : Nat),
      keyOf (gpenAux key n t p).1 a = keyOf t a := by
  intro n
  induction n with
  | zero => intro t p a; rfl
  | succ n ih =>
    intro t p a
    show keyOf (gpenAux key n (walkDem key n (fuel t) t p).1 (walkDem key n (fuel t) t p).2).1 a = _
    rw [ih, walkDem_keyOf]

theorem gpenAux_valueOf (key : Key) :
    ∀ (n : Nat) (t : StashList) (p : Option Nat) (a : Nat),
      valueOf (gpenAux key n t p).1 a = valueOf t a := by
  intro n
  induction n with
  | zero => intro t p a; rfl
  | succ n ih =>
    intro t p a
    show valueOf (gpenAux key n (walkDem key n (fuel t) t p).1 (walkDem key n (fuel t) t p).2).1 a = _
    rw [ih, walkDem_valueOf]

theorem gpenAux_visitedOf (key : Key) :
    ∀ (n : Nat) (t : StashList) (p : Option Nat) (a : Nat),
      visitedOf (gpenAux key n t p).1 a = visitedOf t a := by
  intro n
  induction n with
  | zero => intro t p a; rfl
  | succ n ih =>
    intro t p a
    show visitedOf (gpenAux key n (walkDem key n (fuel t) t p).1 (walkDem key n (fuel t) t p).2).1 a = _
    rw [ih, walkDem_visitedOf]

theorem gpenAux_levelOf_le (key : Key) :
    ∀ (n : Nat) (t : StashList) (p : Option Nat) (a : Nat),
      levelOf (gpenAux key n t p).1 a ≤ levelOf t a := by
  intro n
  induction n with
  | zero => intro t p a; exact Nat.le_refl _
  | succ n ih =>
    intro t p a
    show levelOf (gpenAux key n (walkDem key n (fuel t) t p).1 (walkDem key n (fuel t) t p).2).1 a ≤ _
    exact le_trans (ih _ _ a) (walkDem_levelOf_le key n (fuel t) t p a)

theorem gpen_maxLevel (t : StashList) (key : Key) : (gpen t key).1.maxLevel = t.maxLevel :=
  gpenAux_maxLevel key t.maxLevel t none

theorem gpen_Length (t : StashList) (key : Key) : (gpen t key).1.Length = t.Length :=
  gpenAux_Length key t.maxLevel t none

theorem gpen_arena_length (t : StashList) (key : Key) :
    (gpen t key).1.arena.length = t.arena.length :=
  gpenAux_arena_length key t.maxLevel t none

theorem gpen_keyOf (t : StashList) (key : Key) (a : Nat) :
    keyOf (gpen t key).1 a = keyOf t a :=
  gpenAux_keyOf key t.maxLevel t none a

theorem gpen_valueOf (t : StashList) (key : Key) (a : Nat) :
    valueOf (gpen t key).1 a = valueOf t a :=
  gpenAux_valueOf key t.maxLevel t none a

theorem gpen_visitedOf (t : StashList) (key : Key) (a : Nat) :
    visitedOf (gpen t key).1 a = visitedOf t a :=
  gpenAux_visitedOf key t.maxLevel t none a

theorem gpen_levelOf_le (t : StashList) (key : Key) (a : Nat) :
    levelOf (gpen t key).1 a ≤ levelOf t a :=
  gpenAux_levelOf_le key t.maxLevel t none a

end Stashlist

namespace Skiplist

/-- Collect the level-`i` chain by repeatedly following forward
pointers, up to the fuel bound. -/
def chainFrom (l : SkipList) (i : Nat) : Nat → Option Nat → List Nat
  | 0, _ => []
  | f + 1, p =>
    match nextOf l p i with
    | none => []
    | some j => j :: chainFrom l i f (some j)

/-- The level-`i` chain of the whole baseline structure, read from the
head sentinel. -/
def levelChain (l : SkipList) (i : Nat) : List Nat := chainFrom l i (fuel l) none

/-- With enough fuel, reading the pointers reproduces a terminated
chain exactly. -/
theorem chainFrom_eq (l : SkipList) (i : Nat) :
    ∀ (f : Nat) (p : Option Nat) (c : List Nat), links l i p c →
      nextOf l (endPt p c) i = none → c.length < f → chainFrom l i f p = c := by
  intro f
  induction f with
  | zero => intro p c _ _ hlen; omega
  | succ f ih =>
    intro p c hlk hend hlen
    cases c with
    | nil =>
      rw [endPt_nil] at hend
      show chainFrom l i (f + 1) p = []
      unfold chainFrom
      rw [hend]
    | cons j rest =>
      obtain ⟨hj, hrest⟩ := hlk
      rw [endPt_cons] at hend
      show chainFrom l i (f + 1) p = j :: rest
      unfold chainFrom
      rw [hj]
      have := ih (some j) rest hrest hend (by simpa using Nat.lt_of_succ_lt_succ hlen)
      show j :: chainFrom l i f (some j) = j :: rest
      rw [this]

/-- On a well-formed state the fuel-read chain at a real level is the
live-element filter `chainAt`. -/
theorem levelChain_eq {l : SkipList} {ls : List Nat} (hwf : WF l ls) (i : Nat)
    (hi : i < l.maxLevel) : levelChain l i = chainAt l ls i := by
  obtain ⟨hlk, hend⟩ := hwf.chains i hi
  exact chainFrom_eq l i (fuel l) none (chainAt l ls i) hlk hend
    (chainAt_length_lt_fuel hwf i)

/-- Above `maxLevel` the head has no pointer slot, so the chain is
empty. -/
theorem levelChain_of_maxLevel {l : SkipList} {ls : List Nat} (hwf : WF l ls) (i : Nat)
    (hi : l.maxLevel ≤ i) : levelChain l i = [] := by
  show chainFrom l i (fuel l) none = []
  unfold fuel chainFrom
  have hnone : nextOf l none i = none := by
    show l.headNext.getD i none = none
    rw [List.getD_eq_getElem?_getD, List.getElem?_eq_none]
    · rfl
    · rw [hwf.head_len]; omega
  rw [hnone]

end Skiplist

namespace Stashlist

/-- Collect the level-`i` chain by repeatedly following forward
pointers, up to the fuel bound. -/
def chainFrom (t : StashList) (i : Nat) : Nat → Option Nat → List Nat
  | 0, _ => []
  | f + 1, p =>
    match nextOf t p i with
    | none => []
    | some j => j :: chainFrom t i f (some j)

/-- The level-`i` chain of the whole adaptive structure, read from the
head sentinel. -/
def levelChain (t : StashList) (i : Nat) : List Nat := chainFrom t i (fuel t) none

end Stashlist

namespace Stashlist

theorem randLevel_leS (t : StashList) (r : Nat) : randLevel t r ≤ t.maxLevel :=
  min_le_right _ _

theorem randLevel_posS (t : StashList) (r : Nat) (hml : 1 ≤ t.maxLevel) :
    1 ≤ randLevel t r :=
  le_min (le_max_right r 1) hml

/-- The promotion step is the identity or the explicit splice-and-bump
write sequence. -/
theorem promote_shape (t : StashList) (j : Nat) (prevs : Nat → Option Nat) :
    promote t j prevs = t ∨
    ∃ p, levelOf t j < t.maxLevel ∧ prevs (levelOf t j) = some p ∧
      promote t j prevs =
        setLevel
          (if visitedOf (setNext (setNext t (some j) (levelOf t j)
                (nextOf t (some p) (levelOf t j))) (some p) (levelOf t j) (some j)) p = true
           then setVisited (setNext (setNext t (some j) (levelOf t j)
                (nextOf t (some p) (levelOf t j))) (some p) (levelOf t j) (some j)) p false
           else setNext (setNext t (some j) (levelOf t j)
                (nextOf t (some p) (levelOf t j))) (some p) (levelOf t j) (some j))
          j (levelOf t j + 1) := by
  unfold promote
  by_cases hlv : levelOf t j < t.maxLevel
  · rw [if_pos hlv]
    cases hp : prevs (levelOf t j) with
    | none => exact Or.inl rfl
    | some p => exact Or.inr ⟨p, hlv, rfl, rfl⟩
  · rw [if_neg hlv]
    exact Or.inl rfl

theorem promote_maxLevel (t : StashList) (j : Nat) (prevs : Nat → Option Nat) :
    (promote t j prevs).maxLevel = t.maxLevel := by
  rcases promote_shape t j prevs with h | ⟨p, _, _, h⟩
  · rw [h]
  · rw [h, maxLevel_setLevel]
    split
    · rw [maxLevel_setVisited, maxLevel_setNextS, maxLevel_setNextS]
    · rw [maxLevel_setNextS, maxLevel_setNextS]

theorem promote_arena_length (t : StashList) (j : Nat) (prevs : Nat → Option Nat) :
    (promote t j prevs).arena.length = t.arena.length := by
  rcases promote_shape t j prevs with h | ⟨p, _, _, h⟩
  · rw [h]
  · rw [h, arena_length_setLevel]
    split
    · rw [arena_length_setVisited, arena_length_setNextS, arena_length_setNextS]
    · rw [arena_length_setNextS, arena_length_setNextS]

theorem promote_LB (t : StashList) (j : Nat) (prevs : Nat → Option Nat)
    (h : ∀ a, levelOf t a ≤ t.maxLevel) (a : Nat) :
    levelOf (promote t j prevs) a ≤ t.maxLevel := by
  rcases promote_shape t j prevs with hs | ⟨p, hlv, _, hs⟩
  · rw [hs]; exact h a
  · rw [hs, levelOf_setLevel]
    split
    · split
      · omega
      · rw [levelOf_setVisited, levelOf_setNext, levelOf_setNext]; exact h a
    · split
      · omega
      · rw [levelOf_setNext, levelOf_setNext]; exact h a

theorem addLinks_maxLevel (n : Nat) (prevs : Nat → Option Nat) :
    ∀ (m : Nat) (t : StashList), (addLinks n prevs m t).maxLevel = t.maxLevel := by
  intro m
  induction m with
  | zero => intro t; rfl
  | succ i ih =>
    intro t
    show (setNext (setNext (addLinks n prevs i t) (some n) i
      (nextOf (addLinks n prevs i t) (prevs i) i)) (prevs i) i (some n)).maxLevel = t.maxLevel
    rw [maxLevel_setNextS, maxLevel_setNextS, ih]

theorem addLinks_arena_length (n : Nat) (prevs : Nat → Option Nat) :
    ∀ (m : Nat) (t : StashList), (addLinks n prevs m t).arena.length = t.arena.length := by
  intro m
  induction m with
  | zero => intro t; rfl
  | succ i ih =>
    intro t
    show (setNext (setNext (addLinks n prevs i t) (some n) i
      (nextOf (addLinks n prevs i t) (prevs i) i)) (prevs i) i (some n)).arena.length = t.arena.length
    rw [arena_length_setNextS, arena_length_setNextS, ih]

theorem addLinks_levelOf (n : Nat) (prevs : Nat → Option Nat) :
    ∀ (m : Nat) (t : StashList) (a : Nat), levelOf (addLinks n prevs m t) a = levelOf t a := by
  intro m
  induction m with
  | zero => intro t a; rfl
  | succ i ih =>
    intro t a
    show levelOf (setNext (setNext (addLinks n prevs i t) (some n) i
      (nextOf (addLinks n prevs i t) (prevs i) i)) (prevs i) i (some n)) a = levelOf t a
    rw [levelOf_setNext, levelOf_setNext, ih]

theorem addLinks_visitedOf (n : Nat) (prevs : Nat → Option Nat) :
    ∀ (m : Nat) (t : StashList) (a : Nat), visitedOf (addLinks n prevs m t) a = visitedOf t a := by
  intro m
  induction m with
  | zero => intro t a; rfl
  | succ i ih =>
    intro t a
    show visitedOf (setNext (setNext (addLinks n prevs i t) (some n) i
      (nextOf (addLinks n prevs i t) (prevs i) i)) (prevs i) i (some n)) a = visitedOf t a
    rw [visitedOf_setNext, visitedOf_setNext, ih]

theorem removeLinks_maxLevel (prevs : Nat → Option Nat) (j : Nat) :
    ∀ (m : Nat) (t : StashList), (removeLinks prevs j m t).maxLevel = t.maxLevel := by
  intro m
  induction m with
  | zero => intro t; rfl
  | succ k ih =>
    intro t
    show (setNext (removeLinks prevs j k t) (prevs k) k
      (nextOf (removeLinks prevs j k t) (some j) k)).maxLevel = t.maxLevel
    rw [maxLevel_setNextS, ih]

theorem removeLinks_levelOf (prevs : Nat → Option Nat) (j : Nat) :
    ∀ (m : Nat) (t : StashList) (a : Nat), levelOf (removeLinks prevs j m t) a = levelOf t a := by
  intro m
  induction m with
  | zero => intro t a; rfl
  | succ k ih =>
    intro t a
    show levelOf (setNext (removeLinks prevs j k t) (prevs k) k
      (nextOf (removeLinks prevs j k t) (some j) k)) a = levelOf t a
    rw [levelOf_setNext, ih]

end Stashlist

namespace Stashlist

theorem levelOf_append_ne (t : StashList) (e : Element) (a : Nat)
    (ha : a ≠ t.arena.length) :
    levelOf { t with arena := t.arena ++ [e] } a = levelOf t a := by
  unfold levelOf node
  by_cases h1 : a < t.arena.length
  · simp [List.getD_eq_getElem?_getD, List.getElem?_append, h1]
  · have h2 : t.arena.length + 1 ≤ a := by omega
    rw [List.getD_eq_getElem?_getD, List.getD_eq_getElem?_getD]
    rw [List.getElem?_eq_none (by simpa using h2), List.getElem?_eq_none (by omega)]

theorem node_append_newS (t : StashList) (e : Element) :
    node { t with arena := t.arena ++ [e] } t.arena.length = e := by
  simp [node, List.getD_eq_getElem?_getD, List.getElem?_append_right (Nat.le_refl _)]

theorem levelOf_append_new (t : StashList) (e : Element) :
    levelOf { t with arena := t.arena ++ [e] } t.arena.length = e.level := by
  unfold levelOf
  rw [node_append_newS]

theorem visitedOf_append_new (t : StashList) (e : Element) :
    visitedOf { t with arena := t.arena ++ [e] } t.arena.length = e.visited := by
  unfold visitedOf
  rw [node_append_newS]

theorem addFresh_maxLevel (t : StashList) (k : Key) (v : Bytes) (r : Nat)
    (prevs : Nat → Option Nat) : (addFresh t k v r prevs).maxLevel = t.maxLevel := by
  show (addLinks t.arena.length prevs (randLevel t r)
    { t with arena := t.arena ++ [⟨List.replicate t.maxLevel none, randLevel t r,
      decide (randLevel t r = 1), k, v⟩] }).maxLevel = t.maxLevel
  rw [addLinks_maxLevel]

theorem addFresh_levelOf_new (t : StashList) (k : Key) (v : Bytes) (r : Nat)
    (prevs : Nat → Option Nat) :
    levelOf (addFresh t k v r prevs) t.arena.length = randLevel t r := by
  show levelOf (addLinks t.arena.length prevs (randLevel t r)
    { t with arena := t.arena ++ [⟨List.replicate t.maxLevel none, randLevel t r,
      decide (randLevel t r = 1), k, v⟩] }) t.arena.length = randLevel t r
  rw [addLinks_levelOf]
  exact levelOf_append_new t _

theorem addFresh_visitedOf_new (t : StashList) (k : Key) (v : Bytes) (r : Nat)
    (prevs : Nat → Option Nat) :
    visitedOf (addFresh t k v r prevs) t.arena.length = decide (randLevel t r = 1) := by
  show visitedOf (addLinks t.arena.length prevs (randLevel t r)
    { t with arena := t.arena ++ [⟨List.replicate t.maxLevel none, randLevel t r,
      decide (randLevel t r = 1), k, v⟩] }) t.arena.length = decide (randLevel t r = 1)
  rw [addLinks_visitedOf]
  exact visitedOf_append_new t _

theorem addFresh_LB (t : StashList) (k : Key) (v : Bytes) (r : Nat)
    (prevs : Nat → Option Nat) (h : ∀ a, levelOf t a ≤ t.maxLevel) (a : Nat) :
    levelOf (addFresh t k v r prevs) a ≤ t.maxLevel := by
  by_cases hn : a = t.arena.length
  · subst hn
    rw [addFresh_levelOf_new]
    exact randLevel_leS t r
  · show levelOf (addLinks t.arena.length prevs (randLevel t r)
      { t with arena := t.arena ++ [⟨List.replicate t.maxLevel none, randLevel t r,
        decide (randLevel t r = 1), k, v⟩] }) a ≤ t.maxLevel
    rw [addLinks_levelOf, levelOf_append_ne t _ a hn]
    exact h a

theorem Get_candidate_someS (t : StashList) (k : Key) (j : Nat)
    (hc : candidate t k = some j) :
    Get t k = (if keyOf t j ≤ k then
        (if visitedOf t j = false then setVisited t j true else t, some (valueOf t j))
      else (t, none)) := by
  unfold Get
  rw [hc]

theorem Get_candidate_noneS (t : StashList) (k : Key) (hc : candidate t k = none) :
    Get t k = (t, none) := by
  unfold Get
  rw [hc]

/-- The adaptive `Get` either leaves the state alone or only sets the
matched element's visited flag. -/
theorem Get_shape (t : StashList) (k : Key) :
    (Get t k).1 = t ∨
    ∃ j, candidate t k = some j ∧ keyOf t j ≤ k ∧ visitedOf t j = false ∧
      (Get t k).1 = setVisited t j true ∧ (Get t k).2 = some (valueOf t j) := by
  cases hc : candidate t k with
  | none =>
    rw [Get_candidate_noneS t k hc]
    exact Or.inl rfl
  | some j =>
    rw [Get_candidate_someS t k j hc]
    by_cases hle : keyOf t j ≤ k
    · rw [if_pos hle]
      by_cases hv : visitedOf t j = false
      · rw [if_pos hv]
        exact Or.inr ⟨j, rfl, hle, hv, rfl, rfl⟩
      · rw [if_neg hv]
        exact Or.inl rfl
    · rw [if_neg hle]
      exact Or.inl rfl

theorem Add_fresh_none (t : StashList) (k : Key) (v : Bytes) (r : Nat)
    (hj : nextOf (gpen t k).1 ((gpen t k).2 0) 0 = none) :
    Add t k v r = addFresh (gpen t k).1 k v r (gpen t k).2 := by
  simp only [Add]
  rw [hj]

theorem Add_next_someS (t : StashList) (k : Key) (v : Bytes) (r : Nat) (j : Nat)
    (hj : nextOf (gpen t k).1 ((gpen t k).2 0) 0 = some j) :
    Add t k v r = (if keyOf (gpen t k).1 j ≤ k then
        (if visitedOf (gpen t k).1 j = false then setValue (setVisited (gpen t k).1 j true) j v
         else setValue (promote (gpen t k).1 j (gpen t k).2) j v)
      else addFresh (gpen t k).1 k v r (gpen t k).2) := by
  simp only [Add]
  rw [hj]

theorem Add_fresh_nomatch (t : StashList) (k : Key) (v : Bytes) (r : Nat) (j : Nat)
    (hj : nextOf (gpen t k).1 ((gpen t k).2 0) 0 = some j)
    (hgt : ¬ keyOf (gpen t k).1 j ≤ k) :
    Add t k v r = addFresh (gpen t k).1 k v r (gpen t k).2 := by
  rw [Add_next_someS t k v r j hj, if_neg hgt]

theorem Add_first_hit (t : StashList) (k : Key) (v : Bytes) (r : Nat) (j : Nat)
    (hj : nextOf (gpen t k).1 ((gpen t k).2 0) 0 = some j)
    (hle : keyOf (gpen t k).1 j ≤ k) (hv : visitedOf (gpen t k).1 j = false) :
    Add t k v r = setValue (setVisited (gpen t k).1 j true) j v := by
  rw [Add_next_someS t k v r j hj, if_pos hle, if_pos hv]

theorem Add_promote_hit (t : StashList) (k : Key) (v : Bytes) (r : Nat) (j : Nat)
    (hj : nextOf (gpen t k).1 ((gpen t k).2 0) 0 = some j)
    (hle : keyOf (gpen t k).1 j ≤ k) (hv : ¬ visitedOf (gpen t k).1 j = false) :
    Add t k v r = setValue (promote (gpen t k).1 j (gpen t k).2) j v := by
  rw [Add_next_someS t k v r j hj, if_pos hle, if_neg hv]

theorem Remove_miss (t : StashList) (k : Key)
    (hj : nextOf (gpen t k).1 ((gpen t k).2 0) 0 = none) :
    Remove t k = ((gpen t k).1, none) := by
  simp only [Remove]
  rw [hj]

theorem Remove_next_someS (t : StashList) (k : Key) (j : Nat)
    (hj : nextOf (gpen t k).1 ((gpen t k).2 0) 0 = some j) :
    Remove t k = (if keyOf (gpen t k).1 j ≤ k then
        ({ removeLinks (gpen t k).2 j (node (gpen t k).1 j).next.length (gpen t k).1 with
            Length := (removeLinks (gpen t k).2 j (node (gpen t k).1 j).next.length
              (gpen t k).1).Length - 1 }, some j)
      else ((gpen t k).1, none)) := by
  simp only [Remove]
  rw [hj]

theorem Remove_nomatch (t : StashList) (k : Key) (j : Nat)
    (hj : nextOf (gpen t k).1 ((gpen t k).2 0) 0 = some j)
    (hgt : ¬ keyOf (gpen t k).1 j ≤ k) :
    Remove t k = ((gpen t k).1, none) := by
  rw [Remove_next_someS t k j hj, if_neg hgt]

theorem Remove_found (t : StashList) (k : Key) (j : Nat)
    (hj : nextOf (gpen t k).1 ((gpen t k).2 0) 0 = some j)
    (hle : keyOf (gpen t k).1 j ≤ k) :
    Remove t k =
      ({ removeLinks (gpen t k).2 j (node (gpen t k).1 j).next.length (gpen t k).1 with
          Length := (removeLinks (gpen t k).2 j (node (gpen t k).1 j).next.length
            (gpen t k).1).Length - 1 }, some j) := by
  rw [Remove_next_someS t k j hj, if_pos hle]

end Stashlist

namespace Stashlist

/-- Level-bound invariant: no element's recorded participation level
exceeds `maxLevel`. -/
def LB (t : StashList) : Prop := ∀ a, levelOf t a ≤ t.maxLevel

theorem gpen_LB (t : StashList) (k : Key) (h : LB t) : LB (gpen t k).1 := by
  intro a
  rw [gpen_maxLevel]
  exact le_trans (gpen_levelOf_le t k a) (h a)

theorem Add_LB (t : StashList) (k : Key) (v : Bytes) (r : Nat) (h : LB t) :
    LB (Add t k v r) := by
  have hg : LB (gpen t k).1 := gpen_LB t k h
  cases hj : nextOf (gpen t k).1 ((gpen t k).2 0) 0 with
  | none =>
    rw [Add_fresh_none t k v r hj]
    intro a
    rw [addFresh_maxLevel]
    exact addFresh_LB _ k v r _ (fun a => hg a) a
  | some j =>
    by_cases hle : keyOf (gpen t k).1 j ≤ k
    · by_cases hv : visitedOf (gpen t k).1 j = false
      · rw [Add_first_hit t k v r j hj hle hv]
        intro a
        rw [levelOf_setValue, levelOf_setVisited, maxLevel_setValueS, maxLevel_setVisited]
        exact hg a
      · rw [Add_promote_hit t k v r j hj hle hv]
        intro a
        rw [levelOf_setValue, maxLevel_setValueS, promote_maxLevel]
        exact promote_LB _ j _ (fun a => hg a) a
    · rw [Add_fresh_nomatch t k v r j hj hle]
      intro a
      rw [addFresh_maxLevel]
      exact addFresh_LB _ k v r _ (fun a => hg a) a

theorem Get_LB (t : StashList) (k : Key) (h : LB t) : LB (Get t k).1 := by
  rcases Get_shape t k with hs | ⟨j, _, _, _, hs, _⟩
  · rw [hs]; exact h
  · rw [hs]
    intro a
    rw [levelOf_setVisited, maxLevel_setVisited]
    exact h a

theorem Remove_LB (t : StashList) (k : Key) (h : LB t) : LB (Remove t k).1 := by
  have hg : LB (gpen t k).1 := gpen_LB t k h
  cases hj : nextOf (gpen t k).1 ((gpen t k).2 0) 0 with
  | none =>
    rw [Remove_miss t k hj]
    exact hg
  | some j =>
    by_cases hle : keyOf (gpen t k).1 j ≤ k
    · rw [Remove_found t k j hj hle]
      intro a
      show levelOf (removeLinks (gpen t k).2 j (node (gpen t k).1 j).next.length
          (gpen t k).1) a ≤
        (removeLinks (gpen t k).2 j (node (gpen t k).1 j).next.length (gpen t k).1).maxLevel
      rw [removeLinks_levelOf, removeLinks_maxLevel]
      exact hg a
    · rw [Remove_nomatch t k j hj hle]
      exact hg

theorem step_LB (t : StashList) (op : Op) (h : LB t) : LB (step t op) := by
  cases op with
  | add k v r => exact Add_LB t k v r h
  | get k => exact Get_LB t k h
  | remove k => exact Remove_LB t k h

theorem run_LB (t : StashList) (ops : List Op) (h : LB t) : LB (run t ops) := by
  induction ops generalizing t with
  | nil => exact h
  | cons op rest ih => exact ih (step t op) (step_LB t op h)

theorem initList_LB (m : Nat) : LB (initList m) := by
  intro a
  show (List.getD ([] : List Element) a emptyElement).level ≤ m
  cases a <;> exact Nat.zero_le m

/-- Every reachable adaptive state satisfies the level bound. -/
theorem Reach_LB (t : StashList) (hr : Reach t) : LB t := by
  obtain ⟨m, ops, _, _, rfl⟩ := hr
  exact run_LB _ ops (initList_LB m)

end Stashlist

namespace Stashlist

theorem walk_succ_none (t : StashList) (key : Key) (i f : Nat) (p : Option Nat)
    (hn : nextOf t p i = none) : walk t key i (f + 1) p = p := by
  show (match nextOf t p i with
    | none => p
    | some j => if keyOf t j < key then walk t key i f (some j) else p) = p
  rw [hn]

theorem walk_succ_some (t : StashList) (key : Key) (i f : Nat) (p : Option Nat) (j : Nat)
    (hn : nextOf t p i = some j) :
    walk t key i (f + 1) p = if keyOf t j < key then walk t key i f (some j) else p := by
  show (match nextOf t p i with
    | none => p
    | some j => if keyOf t j < key then walk t key i f (some j) else p) =
    if keyOf t j < key then walk t key i f (some j) else p
  rw [hn]

/-- One forward pointer is sound: it stays inside the arena and
strictly increases the key. -/
def linkOk (t : StashList) (i : Nat) (p : Option Nat) : Bool :=
  match nextOf t p i with
  | none => true
  | some j =>
    decide (j < t.arena.length) &&
    (match p with
     | none => true
     | some a => decide (keyOf t a < keyOf t j))

/-- Every level-`i` pointer of the head and of the arena elements is
sound. -/
def goodLevel (t : StashList) (i : Nat) : Bool :=
  linkOk t i none && (List.range t.arena.length).all (fun a => linkOk t i (some a))

/-- Every pointer of every level is sound. -/
def goodAll (t : StashList) : Bool :=
  (List.range t.maxLevel).all (fun i => goodLevel t i)

theorem linkOk_next (t : StashList) (i : Nat) (p : Option Nat) (j : Nat)
    (hok : linkOk t i p = true) (hj : nextOf t p i = some j) :
    j < t.arena.length ∧ ∀ a, p = some a → keyOf t a < keyOf t j := by
  unfold linkOk at hok
  rw [hj] at hok
  cases p with
  | none =>
    simp only [Bool.and_eq_true, decide_eq_true_eq] at hok
    exact ⟨hok.1, fun a ha => by cases ha⟩
  | some a =>
    simp only [Bool.and_eq_true, decide_eq_true_eq] at hok
    exact ⟨hok.1, fun b hb => by cases hb; exact hok.2⟩

theorem goodLevel_head (t : StashList) (i : Nat) (hg : goodLevel t i = true) :
    linkOk t i none = true := by
  unfold goodLevel at hg
  rw [Bool.and_eq_true] at hg
  exact hg.1

theorem goodLevel_at (t : StashList) (i a : Nat) (hg : goodLevel t i = true)
    (ha : a < t.arena.length) : linkOk t i (some a) = true := by
  unfold goodLevel at hg
  rw [Bool.and_eq_true] at hg
  exact List.all_eq_true.mp hg.2 a (List.mem_range.mpr ha)

theorem goodAll_level (t : StashList) (i : Nat) (hg : goodAll t = true)
    (hi : i < t.maxLevel) : goodLevel t i = true := by
  unfold goodAll at hg
  exact List.all_eq_true.mp hg i (List.mem_range.mpr hi)

/-- A position is either the head or an in-arena index. -/
def posOk (t : StashList) (p : Option Nat) : Prop :=
  ∀ a, p = some a → a < t.arena.length

theorem linkOk_of_posOk (t : StashList) (i : Nat) (p : Option Nat)
    (hg : goodLevel t i = true) (hp : posOk t p) : linkOk t i p = true := by
  cases hq : p with
  | none => exact goodLevel_head t i hg
  | some a => exact goodLevel_at t i a hg (hp a hq)

theorem walk_posOk (t : StashList) (key : Key) (i : Nat) (hg : goodLevel t i = true) :
    ∀ (f : Nat) (p : Option Nat), posOk t p → posOk t (walk t key i f p) := by
  intro f
  induction f with
  | zero => intro p hp; exact hp
  | succ f ih =>
    intro p hp
    cases hn : nextOf t p i with
    | none => rw [walk_succ_none t key i f p hn]; exact hp
    | some j =>
      rw [walk_succ_some t key i f p j hn]
      have hok := linkOk_of_posOk t i p hg hp
      have hj := (linkOk_next t i p j hok hn).1
      by_cases hlt : keyOf t j < key
      · rw [if_pos hlt]
        exact ih (some j) (fun b hb => by cases hb; exact hj)
      · rw [if_neg hlt]
        exact hp

theorem walk_below (t : StashList) (key : Key) (i : Nat) :
    ∀ (f : Nat) (p : Option Nat), (∀ a, p = some a → keyOf t a < key) →
      ∀ b, walk t key i f p = some b → keyOf t b < key := by
  intro f
  induction f with
  | zero => intro p hp b hb; exact hp b hb
  | succ f ih =>
    intro p hp b hb
    cases hn : nextOf t p i with
    | none =>
      rw [walk_succ_none t key i f p hn] at hb
      exact hp b hb
    | some j =>
      rw [walk_succ_some t key i f p j hn] at hb
      by_cases hlt : keyOf t j < key
      · rw [if_pos hlt] at hb
        exact ih (some j) (fun a ha => by cases ha; exact hlt) b hb
      · rw [if_neg hlt] at hb
        exact hp b hb

theorem descend_posOk (t : StashList) (key : Key) (hg : goodAll t = true) :
    ∀ n, n ≤ t.maxLevel →
      posOk t (descend t key n) ∧ (∀ b, descend t key n = some b → keyOf t b < key) := by
  intro n
  induction n with
  | zero =>
    intro _
    exact ⟨fun a ha => Option.noConfusion ha, fun b hb => Option.noConfusion hb⟩
  | succ n ih =>
    intro hn
    have hlev : t.maxLevel - (n + 1) < t.maxLevel := by omega
    have hg' := goodAll_level t _ hg hlev
    obtain ⟨h1, h2⟩ := ih (by omega)
    exact ⟨walk_posOk t key _ hg' (fuel t) _ h1, walk_below t key _ (fuel t) _ h2⟩

end Stashlist

namespace Stashlist

/-- `true` when `a`'s key lies strictly above the key at position `p`
(the head counts as below everything). -/
def keyLtB (t : StashList) (p : Option Nat) (a : Nat) : Bool :=
  match p with
  | none => true
  | some b => decide (keyOf t b < keyOf t a)

/-- Number of arena indices whose key is strictly above the current
position: the walk's termination measure. -/
def aboveCnt (t : StashList) (p : Option Nat) : Nat :=
  ((Finset.range t.arena.length).filter (fun a => keyLtB t p a = true)).card

theorem aboveCnt_le (t : StashList) (p : Option Nat) : aboveCnt t p ≤ t.arena.length := by
  calc ((Finset.range t.arena.length).filter (fun a => keyLtB t p a = true)).card
      ≤ (Finset.range t.arena.length).card := Finset.card_filter_le _ _
    _ = t.arena.length := Finset.card_range _

theorem keyLtB_some (t : StashList) (b a : Nat) :
    keyLtB t (some b) a = true ↔ keyOf t b < keyOf t a := by
  unfold keyLtB
  exact decide_eq_true_iff

theorem aboveCnt_step (t : StashList) (i : Nat) (hg : goodLevel t i = true)
    (p : Option Nat) (hp : posOk t p) (j : Nat) (hn : nextOf t p i = some j) :
    aboveCnt t (some j) < aboveCnt t p := by
  have hok := linkOk_of_posOk t i p hg hp
  obtain ⟨hjlen, hkey⟩ := linkOk_next t i p j hok hn
  apply Finset.card_lt_card
  rw [Finset.ssubset_iff_of_subset]
  · refine ⟨j, ?_, ?_⟩
    · rw [Finset.mem_filter]
      refine ⟨Finset.mem_range.mpr hjlen, ?_⟩
      cases hq : p with
      | none => rfl
      | some b => exact (keyLtB_some t b j).mpr (hkey b hq)
    · rw [Finset.mem_filter]
      rintro ⟨-, hlt⟩
      rw [keyLtB_some] at hlt
      exact lt_irrefl _ hlt
  · intro a ha
    rw [Finset.mem_filter] at ha ⊢
    obtain ⟨hrange, hlt⟩ := ha
    rw [keyLtB_some] at hlt
    refine ⟨hrange, ?_⟩
    cases hq : p with
    | none => rfl
    | some b => exact (keyLtB_some t b a).mpr (lt_trans (hkey b hq) hlt)

/-- With the fuel bound exceeding the measure, the walk ends at a
position whose successor is nil or at/above the search key. -/
theorem walk_stops (t : StashList) (key : Key) (i : Nat) (hg : goodLevel t i = true) :
    ∀ (f : Nat) (p : Option Nat), posOk t p → aboveCnt t p < f →
      nextOf t (walk t key i f p) i = none ∨
      ∃ j, nextOf t (walk t key i f p) i = some j ∧ ¬ keyOf t j < key := by
  intro f
  induction f with
  | zero => intro p _ h; omega
  | succ f ih =>
    intro p hp hcnt
    cases hn : nextOf t p i with
    | none =>
      rw [walk_succ_none t key i f p hn]
      exact Or.inl hn
    | some j =>
      rw [walk_succ_some t key i f p j hn]
      by_cases hlt : keyOf t j < key
      · rw [if_pos hlt]
        have hdec := aboveCnt_step t i hg p hp j hn
        have hok := linkOk_of_posOk t i p hg hp
        have hjlen := (linkOk_next t i p j hok hn).1
        exact ih (some j) (fun b hb => by cases hb; exact hjlen) (by omega)
      · rw [if_neg hlt]
        exact Or.inr ⟨j, hn, hlt⟩

/-- With sound links the adaptive descent never undershoots: the
level-0 candidate's key is at or above the search key. -/
theorem stash_candidate_not_lt (t : StashList) (key : Key) (hml : 0 < t.maxLevel)
    (hg : goodAll t = true) (j : Nat) (hj : candidate t key = some j) :
    ¬ keyOf t j < key := by
  obtain ⟨n, hn⟩ : ∃ n, t.maxLevel = n + 1 := ⟨t.maxLevel - 1, by omega⟩
  have h0 : goodLevel t 0 = true := goodAll_level t 0 hg hml
  have hstart := (descend_posOk t key hg n (by omega)).1
  have hclt : t.maxLevel - (n + 1) = 0 := by omega
  have hcand : candidate t key = nextOf t (walk t key 0 (fuel t) (descend t key n)) 0 := by
    show nextOf t (descend t key t.maxLevel) 0 = _
    rw [hn]
    show nextOf t (walk t key (t.maxLevel - (n + 1)) (fuel t) (descend t key n)) 0 = _
    rw [hclt]
  have hf : aboveCnt t (descend t key n) < fuel t := by
    have := aboveCnt_le t (descend t key n)
    show aboveCnt t (descend t key n) < t.arena.length + 1
    omega
  have hstop := walk_stops t key 0 h0 (fuel t) (descend t key n) hstart hf
  rcases hstop with hnone | ⟨j', hsome, hge⟩
  · rw [hcand, hnone] at hj
    cases hj
  · rw [hcand, hsome] at hj
    cases hj
    exact hge

/-- With sound links the adaptive loose match test is exact
equality. -/
theorem stash_match_iff (t : StashList) (key : Key) (hml : 0 < t.maxLevel)
    (hg : goodAll t = true) (j : Nat) (hj : candidate t key = some j) :
    (keyOf t j ≤ key ↔ keyOf t j = key) :=
  ⟨fun hle => le_antisymm hle (le_of_not_lt (stash_candidate_not_lt t key hml hg j hj)),
   fun he => le_of_eq he⟩

end Stashlist

namespace Skiplist

/-- After an `Add`, the key is live and bound to the added value. -/
theorem Add_live {l : SkipList} {ls : List Nat} (hwf : WF l ls) (k : Key) (v : Bytes)
    (r : Nat) :
    ∃ ls', WF (Add l k v r) ls' ∧
      ∃ j0 ∈ ls', keyOf (Add l k v r) j0 = k ∧ valueOf (Add l k v r) j0 = v := by
  by_cases hex : ∃ j0 ∈ ls, keyOf l j0 = k
  · obtain ⟨j0, hj0, hkey⟩ := hex
    rw [Add_of_mem hwf k v r j0 hj0 hkey]
    refine ⟨ls, setValue_WF hwf j0 v, j0, hj0, ?_, ?_⟩
    · rw [keyOf_setValue]
      exact hkey
    · exact valueOf_setValue_same l j0 v (hwf.mem_lt j0 hj0)
  · push_neg at hex
    rw [Add_of_absent hwf k v r hex]
    exact ⟨_, addFresh_WF hwf k v r hex, l.arena.length,
      List.mem_append_right _ (List.mem_cons_self _ _),
      addFresh_keyOf_new l k v r, addFresh_valueOf_new l k v r⟩

/-- Live keys are pairwise distinct, so a key pins its element. -/
theorem live_key_unique {l : SkipList} {ls : List Nat} (hwf : WF l ls)
    (j1 j2 : Nat) (h1 : j1 ∈ ls) (h2 : j2 ∈ ls) (hk : keyOf l j1 = keyOf l j2) :
    j1 = j2 := by
  have hmap : (ls.map (keyOf l)).Pairwise (· < ·) :=
    List.Pairwise.map _ (fun a b hab => hab) hwf.pairwise
  have hnd : (ls.map (keyOf l)).Nodup := hmap.imp ne_of_lt
  exact List.inj_on_of_nodup_map hnd h1 h2 hk

/-- `DefaultMaxLevel` of the baseline package. -/
def DefaultMaxLevel : Int := 18

/-- `DefaultProbability = 1 / math.E` of the baseline package. -/
noncomputable def DefaultProbability : ℝ := 1 / Real.exp 1

/-- `NewWithMaxLevel` (`skiplist` lines 170-184): the out-of-range
panic is modelled as `none`; a successful construction returns the
empty operational state. -/
def NewWithMaxLevel (maxLevel : Int) : Option SkipList :=
  if maxLevel < 1 ∨ maxLevel > 64 then none
  else some (initList maxLevel.toNat)

/-- `NewSkipList` (`skiplist` lines 186-188). -/
def NewSkipList : Option SkipList := NewWithMaxLevel DefaultMaxLevel

end Skiplist

namespace Stashlist

/-- `DefaultMaxLevel` of the adaptive package. -/
def DefaultMaxLevel : Int := 18

/-- `DefaultProbability = 1 / math.E` of the adaptive package. -/
noncomputable def DefaultProbability : ℝ := 1 / Real.exp 1

/-- Adaptive `NewWithMaxLevel` (`stashlist` lines 396-409): the
out-of-range panic is modelled as `none`. -/
def NewWithMaxLevel (maxLevel : Int) : Option StashList :=
  if maxLevel < 1 ∨ maxLevel > 64 then none
  else some (initList maxLevel.toNat)

/-- `NewStashList` (`stashlist` lines 411-414). -/
def NewStashList : Option StashList := NewWithMaxLevel DefaultMaxLevel

end Stashlist

namespace Skiplist

theorem filter_notj (p : Nat → Bool) (j0 : Nat) (C : List Nat) (hC : j0 ∉ C) :
    (C.filter p).filter (fun a => decide (a ≠ j0)) = C.filter p := by
  apply List.filter_eq_self.mpr
  intro a ha
  have haC : a ∈ C := (List.filter_sublist C).subset ha
  have hne : a ≠ j0 := fun h => hC (h ▸ haC)
  simp [hne]

/-- Dropping the middle element of a filtered split. -/
theorem filter_drop_mid (p : Nat → Bool) (j0 : Nat) (A B : List Nat)
    (hA : j0 ∉ A) (hB : j0 ∉ B) :
    ((A ++ j0 :: B).filter p).filter (fun a => decide (a ≠ j0)) = (A ++ B).filter p := by
  rw [List.filter_append A (j0 :: B), List.filter_append A B,
    List.filter_append (A.filter p) ((j0 :: B).filter p), filter_notj p j0 A hA]
  congr 1
  by_cases hp : p j0 = true
  · rw [List.filter_cons_of_pos hp, List.filter_cons_of_neg (by simp)]
    exact filter_notj p j0 B hB
  · rw [List.filter_cons_of_neg (by simpa using hp)]
    exact filter_notj p j0 B hB

/-- Per-level effect of removing a live element: its index is dropped
from every level chain and nothing else changes. -/
theorem Remove_levelChain {l : SkipList} {ls : List Nat} (hwf : WF l ls) (k : Key)
    (j0 : Nat) (hj0 : j0 ∈ ls) (hkey : keyOf l j0 = k) (i : Nat) (hi : i < l.maxLevel) :
    levelChain (Remove l k).1 i = (levelChain l i).filter (fun a => decide (a ≠ j0)) := by
  have hrm := Remove_of_mem hwf k j0 hj0 hkey
  have hwf' := Remove_present_WF hwf k j0 hj0 hkey
  have hml' : (Remove l k).1.maxLevel = l.maxLevel := by
    rw [hrm]
    exact maxLevel_removeLinks _ _ _ _
  have hlvl : ∀ a, lvlOf (Remove l k).1 a = lvlOf l a := by
    intro a
    rw [hrm]
    exact lvlOf_removeLinks _ _ _ _ _
  have hdw := dropWhile_eq_cons_of_mem hwf k j0 hj0 hkey
  set tw := ls.takeWhile (belowK l k) with htw
  set suf := (ls.dropWhile (belowK l k)).tail with hsuf
  have hls : tw ++ j0 :: suf = ls := by
    rw [← hdw]
    exact List.takeWhile_append_dropWhile _ _
  have hnd : (tw ++ j0 :: suf).Nodup := by rw [hls]; exact hwf.nodup
  have hj0tw : j0 ∉ tw := by
    intro hmem
    have := List.mem_takeWhile_imp hmem
    simp only [belowK, decide_eq_true_eq] at this
    exact absurd hkey (ne_of_lt this)
  have hj0suf : j0 ∉ suf := by
    rcases List.nodup_append.mp hnd with ⟨-, hnd2, -⟩
    exact (List.nodup_cons.mp hnd2).1
  rw [levelChain_eq hwf' i (by rw [hml']; exact hi), levelChain_eq hwf i hi]
  show List.filter (fun j => decide (i < lvlOf (Remove l k).1 j)) (tw ++ suf) =
    ((chainAt l ls i).filter (fun a => decide (a ≠ j0)))
  rw [List.filter_congr (fun x _ => by rw [hlvl x])]
  show (tw ++ suf).filter (fun j => decide (i < lvlOf l j)) = _
  rw [show chainAt l ls i = ls.filter (fun j => decide (i < lvlOf l j)) from rfl, ← hls]
  exact (filter_drop_mid _ j0 tw suf hj0tw hj0suf).symm

end Skiplist

/-- C1: for the baseline variant, on every reachable state, `Remove`
of an absent key returns not-found and leaves the state unchanged,
and `Remove` of a present key reports exactly the live element with
that key, decrements `Length` by one, and drops that element from the
chain of every level while leaving all other links intact.  (The
adaptive variant violates this; see the counterexample.) -/
theorem C1_remove_semantics (l : Skiplist.SkipList) (hr : Skiplist.Reach l) (k : Key) :
    ∃ ls, Skiplist.WF l ls ∧
      ((∀ j ∈ ls, Skiplist.keyOf l j ≠ k) → Skiplist.Remove l k = (l, none)) ∧
      (∀ j0 ∈ ls, Skiplist.keyOf l j0 = k →
        (Skiplist.Remove l k).2 = some j0 ∧
        (Skiplist.Remove l k).1.Length = l.Length - 1 ∧
        ∀ i, i < l.maxLevel →
          Skiplist.levelChain (Skiplist.Remove l k).1 i =
            (Skiplist.levelChain l i).filter (fun a => decide (a ≠ j0))) := by
  obtain ⟨ls, hwf⟩ := Skiplist.Reach_WF hr
  refine ⟨ls, hwf, fun habs => Skiplist.Remove_of_absent hwf k habs, ?_⟩
  intro j0 hj0 hkey
  have hrm := Skiplist.Remove_of_mem hwf k j0 hj0 hkey
  refine ⟨by rw [hrm], by rw [hrm], ?_⟩
  intro i hi
  exact Skiplist.Remove_levelChain hwf k j0 hj0 hkey i hi

def c1T : Skiplist.SkipList :=
  Skiplist.run (Skiplist.initList 2) [Skiplist.Op.add [0] [5] 1]

theorem C1_remove_semantics_witness :
    Skiplist.Reach c1T ∧
    ∃ ls, Skiplist.WF c1T ls ∧
      ((∀ j ∈ ls, Skiplist.keyOf c1T j ≠ [0]) → Skiplist.Remove c1T [0] = (c1T, none)) ∧
      (∀ j0 ∈ ls, Skiplist.keyOf c1T j0 = [0] →
        (Skiplist.Remove c1T [0]).2 = some j0 ∧
        (Skiplist.Remove c1T [0]).1.Length = c1T.Length - 1 ∧
        ∀ i, i < c1T.maxLevel →
          Skiplist.levelChain (Skiplist.Remove c1T [0]).1 i =
            (Skiplist.levelChain c1T i).filter (fun a => decide (a ≠ j0))) :=
  ⟨⟨2, [Skiplist.Op.add [0] [5] 1], by omega, by omega, rfl⟩,
   C1_remove_semantics c1T ⟨2, [Skiplist.Op.add [0] [5] 1], by omega, by omega, rfl⟩ [0]⟩

/-- Adaptive state used by the C1 counterexample: three inserts at
drawn level 2 followed by one removal, leaving a stale recorded
predecessor behind. -/
def c1Bad : Stashlist.StashList :=
  Stashlist.run (Stashlist.initList 2)
    [.add [1] [10] 2, .add [0] [11] 2, .add [2] [12] 2, .remove [1]]

/-- C1 counterexample (adaptive variant): after the four recorded
operations, key `[2]` is live (its element, arena index 2, sits on the
level-0 chain), yet `Remove [2]` — though it reports the element and
decrements the length — leaves index 2 still linked on the level-0
chain: the element is not unlinked from every level it occupied. -/
theorem C1_remove_semantics_cex :
    Stashlist.keyOf c1Bad 2 = [2] ∧
    2 ∈ Stashlist.levelChain c1Bad 0 ∧
    (Stashlist.Remove c1Bad [2]).2 = some 2 ∧
    2 ∈ Stashlist.levelChain (Stashlist.Remove c1Bad [2]).1 0 := by decide

/-- C2: for the baseline variant, after any operation sequence every
level chain is sorted (adjacent keys in non-decreasing — in fact
strictly increasing — order), and every element on the chain of level
`i+1` also lies on the chain of level `i`.  (The adaptive variant
violates the subsequence half; see the counterexample.) -/
theorem C2_sorted_subsequence (l : Skiplist.SkipList) (hr : Skiplist.Reach l) (i : Nat) :
    (Skiplist.levelChain l i).Chain' (fun a b => Skiplist.keyOf l a ≤ Skiplist.keyOf l b) ∧
    ∀ j ∈ Skiplist.levelChain l (i + 1), j ∈ Skiplist.levelChain l i := by
  obtain ⟨ls, hwf⟩ := Skiplist.Reach_WF hr
  by_cases hi : i < l.maxLevel
  · constructor
    · rw [Skiplist.levelChain_eq hwf i hi]
      apply List.Pairwise.chain'
      exact (Skiplist.chainAt_pairwise hwf i).imp (fun hab => le_of_lt hab)
    · intro j hj
      by_cases hi1 : i + 1 < l.maxLevel
      · rw [Skiplist.levelChain_eq hwf (i + 1) hi1] at hj
        rw [Skiplist.levelChain_eq hwf i hi]
        exact (Skiplist.chainAt_mono l ls i (i + 1) (by omega)).subset hj
      · rw [Skiplist.levelChain_of_maxLevel hwf (i + 1) (by omega)] at hj
        cases hj
  · constructor
    · rw [Skiplist.levelChain_of_maxLevel hwf i (by omega)]
      exact List.chain'_nil
    · intro j hj
      rw [Skiplist.levelChain_of_maxLevel hwf (i + 1) (by omega)] at hj
      cases hj

theorem C2_sorted_subsequence_witness :
    Skiplist.Reach (Skiplist.run (Skiplist.initList 2) [Skiplist.Op.add [0] [5] 2]) ∧
    ((Skiplist.levelChain (Skiplist.run (Skiplist.initList 2) [Skiplist.Op.add [0] [5] 2]) 1).Chain'
        (fun a b =>
          Skiplist.keyOf (Skiplist.run (Skiplist.initList 2) [Skiplist.Op.add [0] [5] 2]) a ≤
          Skiplist.keyOf (Skiplist.run (Skiplist.initList 2) [Skiplist.Op.add [0] [5] 2]) b) ∧
      ∀ j ∈ Skiplist.levelChain (Skiplist.run (Skiplist.initList 2) [Skiplist.Op.add [0] [5] 2]) 2,
        j ∈ Skiplist.levelChain (Skiplist.run (Skiplist.initList 2) [Skiplist.Op.add [0] [5] 2]) 1) :=
  ⟨⟨2, [Skiplist.Op.add [0] [5] 2], by omega, by omega, rfl⟩,
   C2_sorted_subsequence _ ⟨2, [Skiplist.Op.add [0] [5] 2], by omega, by omega, rfl⟩ 1⟩

/-- Adaptive state used by the C2 counterexample. -/
def c2Bad : Stashlist.StashList :=
  Stashlist.run (Stashlist.initList 2) [.add [0] [10] 2, .add [1] [11] 2, .remove [1]]

/-- C2 counterexample (adaptive): after adding keys `[0]`, `[1]` at
level 2 and removing `[1]`, the element at arena index 1 still lies on
the level-1 chain but not on the level-0 chain: level 1 is not a
subsequence of level 0. -/
theorem C2_sorted_subsequence_cex :
    1 ∈ Stashlist.levelChain c2Bad 1 ∧ 1 ∉ Stashlist.levelChain c2Bad 0 := by decide

/-- C3: for the adaptive variant, on every reachable state no
element's participation level exceeds `maxLevel`, and a freshly
inserted element is marked visited exactly when its drawn initial
level is 1.  (The claim's remaining half — promotion never happens on
a single hit — is refuted by the counterexample: an element born at
drawn level 1 starts visited, so its first-ever re-`Add` already
promotes it.) -/
theorem C3_level_rules (t : Stashlist.StashList) (hr : Stashlist.Reach t)
    (k : Key) (v : Bytes) (r : Nat) (prevs : Nat → Option Nat) :
    (∀ j, Stashlist.levelOf t j ≤ t.maxLevel) ∧
    Stashlist.visitedOf (Stashlist.addFresh t k v r prevs) t.arena.length =
      decide (Stashlist.randLevel t r = 1) :=
  ⟨Stashlist.Reach_LB t hr, Stashlist.addFresh_visitedOf_new t k v r prevs⟩

theorem C3_level_rules_witness :
    Stashlist.Reach (Stashlist.run (Stashlist.initList 2) [Stashlist.Op.add [0] [3] 2]) ∧
    ((∀ j, Stashlist.levelOf (Stashlist.run (Stashlist.initList 2) [Stashlist.Op.add [0] [3] 2]) j ≤
        (Stashlist.run (Stashlist.initList 2) [Stashlist.Op.add [0] [3] 2]).maxLevel) ∧
      Stashlist.visitedOf
        (Stashlist.addFresh (Stashlist.run (Stashlist.initList 2) [Stashlist.Op.add [0] [3] 2])
          [1] [4] 1 (fun _ => none))
        (Stashlist.run (Stashlist.initList 2) [Stashlist.Op.add [0] [3] 2]).arena.length =
      decide (Stashlist.randLevel
        (Stashlist.run (Stashlist.initList 2) [Stashlist.Op.add [0] [3] 2]) 1 = 1)) :=
  ⟨⟨2, [Stashlist.Op.add [0] [3] 2], by omega, by omega, rfl⟩,
   C3_level_rules _ ⟨2, [Stashlist.Op.add [0] [3] 2], by omega, by omega, rfl⟩
     [1] [4] 1 (fun _ => none)⟩

/-- Adaptive state used by the C3 counterexample: key `[0]` at level
2, then key `[1]` freshly inserted at drawn level 1 (born visited). -/
def c3Bad : Stashlist.StashList :=
  Stashlist.run (Stashlist.initList 2) [.add [0] [10] 2, .add [1] [11] 1]

/-- C3 counterexample (adaptive): the element for key `[1]` was
created at drawn level 1 and is born visited; the very next
`Add [1]` — the first hit ever on this element — already promotes it
to level 2.  Promotion does occur on a single hit, with no previous
hit having set the visited flag. -/
theorem C3_level_rules_cex :
    Stashlist.levelOf c3Bad 1 = 1 ∧
    Stashlist.visitedOf c3Bad 1 = true ∧
    Stashlist.levelOf (Stashlist.Add c3Bad [1] [12] 1) 1 = 2 := by decide

/-- C4: the adaptive `Get` on a match returns the element's value and
sets its visited flag, but — contrary to the claim — its descent
never applies the demotion rule: the result state is the input state
or differs from it in exactly one visited flag, with every forward
pointer and every participation level unchanged. -/
theorem C4_get_frame (t : Stashlist.StashList) (k : Key) :
    ((Stashlist.Get t k).1 = t ∨
      ∃ j, Stashlist.candidate t k = some j ∧ Stashlist.keyOf t j ≤ k ∧
        (Stashlist.Get t k).1 = Stashlist.setVisited t j true ∧
        (Stashlist.Get t k).2 = some (Stashlist.valueOf t j)) ∧
    (∀ p i, Stashlist.nextOf (Stashlist.Get t k).1 p i = Stashlist.nextOf t p i) ∧
    (∀ a, Stashlist.levelOf (Stashlist.Get t k).1 a = Stashlist.levelOf t a) := by
  rcases Stashlist.Get_shape t k with hs | ⟨j, hc, hle, hv, hs1, hs2⟩
  · rw [hs]
    exact ⟨Or.inl rfl, fun p i => rfl, fun a => rfl⟩
  · rw [hs1]
    refine ⟨Or.inr ⟨j, hc, hle, rfl, hs2⟩, ?_, ?_⟩
    · intro p i
      exact Stashlist.nextOf_setVisited t j true p i
    · intro a
      exact Stashlist.levelOf_setVisited t j true a

/-- Adaptive state used by the C4 counterexample. -/
def c4T : Stashlist.StashList :=
  Stashlist.run (Stashlist.initList 2) [.add [0] [10] 2, .add [1] [11] 2]

/-- C4 counterexample: on this reachable state the mutating descent
used by `Add` and `Remove` demotes an element while searching key
`[1]` (the state changes), whereas `Get [1]` on the same state leaves
every forward pointer and every level unchanged: `Get`'s descent does
not apply the same demotion rule as the other descents. -/
theorem C4_get_frame_cex :
    (Stashlist.gpen c4T [1]).1 ≠ c4T ∧
    (Stashlist.Get c4T [1]).1.arena.map Stashlist.Element.level =
      c4T.arena.map Stashlist.Element.level ∧
    (Stashlist.Get c4T [1]).1.arena.map Stashlist.Element.next =
      c4T.arena.map Stashlist.Element.next ∧
    (Stashlist.Get c4T [1]).1.headNext = c4T.headNext := by decide

/-- C5: for the baseline variant, every live element's forward-link
array length equals its participation level, and the element lies on
the level-`i` chain exactly when `i` is below that level (linked into
levels `0..level-1` and into no others, with all chains at or above
`maxLevel` empty).  (The adaptive variant allocates `maxLevel` slots
regardless of the level; see the counterexample.) -/
theorem C5_links_match_level (l : Skiplist.SkipList) (hr : Skiplist.Reach l) :
    ∃ ls, Skiplist.WF l ls ∧
      ∀ j ∈ ls,
        (Skiplist.node l j).next.length = Skiplist.lvlOf l j ∧
        (∀ i, i < l.maxLevel → (j ∈ Skiplist.levelChain l i ↔ i < Skiplist.lvlOf l j)) ∧
        (∀ i, l.maxLevel ≤ i → j ∉ Skiplist.levelChain l i) := by
  obtain ⟨ls, hwf⟩ := Skiplist.Reach_WF hr
  refine ⟨ls, hwf, fun j hj => ⟨rfl, ?_, ?_⟩⟩
  · intro i hi
    rw [Skiplist.levelChain_eq hwf i hi]
    show j ∈ ls.filter (fun a => decide (i < Skiplist.lvlOf l a)) ↔ _
    rw [List.mem_filter]
    constructor
    · rintro ⟨-, h⟩
      exact of_decide_eq_true h
    · intro h
      exact ⟨hj, decide_eq_true h⟩
  · intro i hi
    rw [Skiplist.levelChain_of_maxLevel hwf i hi]
    exact List.not_mem_nil j

theorem C5_links_match_level_witness :
    Skiplist.Reach (Skiplist.run (Skiplist.initList 2) [Skiplist.Op.add [3] [7] 2]) ∧
    ∃ ls, Skiplist.WF (Skiplist.run (Skiplist.initList 2) [Skiplist.Op.add [3] [7] 2]) ls ∧
      ∀ j ∈ ls,
        (Skiplist.node (Skiplist.run (Skiplist.initList 2) [Skiplist.Op.add [3] [7] 2]) j).next.length =
          Skiplist.lvlOf (Skiplist.run (Skiplist.initList 2) [Skiplist.Op.add [3] [7] 2]) j ∧
        (∀ i, i < (Skiplist.run (Skiplist.initList 2) [Skiplist.Op.add [3] [7] 2]).maxLevel →
          (j ∈ Skiplist.levelChain (Skiplist.run (Skiplist.initList 2) [Skiplist.Op.add [3] [7] 2]) i ↔
            i < Skiplist.lvlOf (Skiplist.run (Skiplist.initList 2) [Skiplist.Op.add [3] [7] 2]) j)) ∧
        (∀ i, (Skiplist.run (Skiplist.initList 2) [Skiplist.Op.add [3] [7] 2]).maxLevel ≤ i →
          j ∉ Skiplist.levelChain (Skiplist.run (Skiplist.initList 2) [Skiplist.Op.add [3] [7] 2]) i) :=
  ⟨⟨2, [Skiplist.Op.add [3] [7] 2], by omega, by omega, rfl⟩,
   C5_links_match_level _ ⟨2, [Skiplist.Op.add [3] [7] 2], by omega, by omega, rfl⟩⟩

/-- C5 counterexample (adaptive): a fresh insert at drawn level 1 into
a `maxLevel = 2` index allocates 2 forward slots while the element's
participation level is 1: the array length is not the level. -/
theorem C5_links_match_level_cex :
    (Stashlist.node (Stashlist.Add (Stashlist.initList 2) [0] [1] 1) 0).next.length = 2 ∧
    Stashlist.levelOf (Stashlist.Add (Stashlist.initList 2) [0] [1] 1) 0 = 1 := by decide

/-- C6: for the baseline variant, a key added with value `v` and not
touched by any later operation (no later `Add`/`Remove` of that key)
reads back as `v` after arbitrary interleaved operations on other
keys.  (The adaptive variant violates this; see the counterexample.) -/
theorem C6_roundtrip (l : Skiplist.SkipList) (hr : Skiplist.Reach l) (k : Key)
    (v : Bytes) (r : Nat) (ops : List Skiplist.Op)
    (hops : ∀ op ∈ ops, ¬ Skiplist.Op.touches op k) :
    Skiplist.Get (Skiplist.run (Skiplist.Add l k v r) ops) k = some v := by
  obtain ⟨ls, hwf⟩ := Skiplist.Reach_WF hr
  obtain ⟨ls1, hwf1, j0, hj0, hkey, hval⟩ := Skiplist.Add_live hwf k v r
  obtain ⟨ls2, hwf2, htr⟩ := Skiplist.run_transport hwf1 ops
  exact (Skiplist.Get_eq_some_iff hwf2 k v).mpr (htr k v hops ⟨j0, hj0, hkey, hval⟩)

theorem C6_roundtrip_witness :
    Skiplist.Reach (Skiplist.run (Skiplist.initList 1) []) ∧
    (∀ op ∈ [Skiplist.Op.get [0]], ¬ Skiplist.Op.touches op [0]) ∧
    Skiplist.Get (Skiplist.run (Skiplist.Add (Skiplist.run (Skiplist.initList 1) []) [0] [9] 1)
      [Skiplist.Op.get [0]]) [0] = some [9] :=
  ⟨⟨1, [], by omega, by omega, rfl⟩,
   fun op hop => by
     rw [List.mem_singleton] at hop
     subst hop
     exact not_false,
   C6_roundtrip _ ⟨1, [], by omega, by omega, rfl⟩ [0] [9] 1 [Skiplist.Op.get [0]]
     (fun op hop => by
       rw [List.mem_singleton] at hop
       subst hop
       exact not_false)⟩

/-- Adaptive state used by the C6 counterexample. -/
def c6Bad : Stashlist.StashList :=
  Stashlist.run (Stashlist.initList 2)
    [.add [2] [1] 1, .add [0] [2] 2, .add [1] [3] 2, .remove [1], .remove [2], .add [2] [6] 2]

/-- C6 counterexample (adaptive): key `[2]` is re-added with value
`[7]` as the final operation and is never touched again, yet `Get [2]`
returns the stale value `[1]` left in a ghost element — not `[7]`. -/
theorem C6_roundtrip_cex :
    (Stashlist.Get (Stashlist.Add c6Bad [2] [7] 1) [2]).2 = some [1] ∧
    some ([1] : Bytes) ≠ some ([7] : Bytes) := by decide

/-- C7: for the baseline variant, `Add k v1` followed by `Add k v2`
leaves the length unchanged by the second insert, makes `Get k`
return `v2`, and leaves exactly one live element with key `k`.  (The
adaptive variant violates this; see the counterexample.) -/
theorem C7_double_add (l : Skiplist.SkipList) (hr : Skiplist.Reach l) (k : Key)
    (v1 v2 : Bytes) (r1 r2 : Nat) :
    (Skiplist.Add (Skiplist.Add l k v1 r1) k v2 r2).Length =
      (Skiplist.Add l k v1 r1).Length ∧
    Skiplist.Get (Skiplist.Add (Skiplist.Add l k v1 r1) k v2 r2) k = some v2 ∧
    ∃ ls2, Skiplist.WF (Skiplist.Add (Skiplist.Add l k v1 r1) k v2 r2) ls2 ∧
      ∃! j, j ∈ ls2 ∧
        Skiplist.keyOf (Skiplist.Add (Skiplist.Add l k v1 r1) k v2 r2) j = k := by
  obtain ⟨ls, hwf⟩ := Skiplist.Reach_WF hr
  obtain ⟨ls1, hwf1, j0, hj0, hkey, hval⟩ := Skiplist.Add_live hwf k v1 r1
  have hadd2 : Skiplist.Add (Skiplist.Add l k v1 r1) k v2 r2 =
      Skiplist.setValue (Skiplist.Add l k v1 r1) j0 v2 :=
    Skiplist.Add_of_mem hwf1 k v2 r2 j0 hj0 hkey
  have hwf2 : Skiplist.WF (Skiplist.Add (Skiplist.Add l k v1 r1) k v2 r2) ls1 := by
    rw [hadd2]
    exact Skiplist.setValue_WF hwf1 j0 v2
  have hk2 : Skiplist.keyOf (Skiplist.Add (Skiplist.Add l k v1 r1) k v2 r2) j0 = k := by
    rw [hadd2, Skiplist.keyOf_setValue]
    exact hkey
  refine ⟨?_, ?_, ls1, hwf2, ?_⟩
  · rw [hadd2]
    exact Skiplist.Length_setValue _ j0 v2
  · apply (Skiplist.Get_eq_some_iff hwf2 k v2).mpr
    refine ⟨j0, hj0, hk2, ?_⟩
    rw [hadd2]
    exact Skiplist.valueOf_setValue_same _ j0 v2 (hwf1.mem_lt j0 hj0)
  · refine ⟨j0, ⟨hj0, hk2⟩, ?_⟩
    rintro j ⟨hjmem, hjkey⟩
    exact Skiplist.live_key_unique hwf2 j j0 hjmem hj0 (by rw [hjkey, hk2])

theorem C7_double_add_witness :
    Skiplist.Reach (Skiplist.run (Skiplist.initList 1) []) ∧
    ((Skiplist.Add (Skiplist.Add (Skiplist.run (Skiplist.initList 1) []) [0] [1] 1) [0] [2] 1).Length =
      (Skiplist.Add (Skiplist.run (Skiplist.initList 1) []) [0] [1] 1).Length ∧
    Skiplist.Get (Skiplist.Add (Skiplist.Add (Skiplist.run (Skiplist.initList 1) []) [0] [1] 1) [0] [2] 1)
      [0] = some [2] ∧
    ∃ ls2, Skiplist.WF
        (Skiplist.Add (Skiplist.Add (Skiplist.run (Skiplist.initList 1) []) [0] [1] 1) [0] [2] 1) ls2 ∧
      ∃! j, j ∈ ls2 ∧
        Skiplist.keyOf
          (Skiplist.Add (Skiplist.Add (Skiplist.run (Skiplist.initList 1) []) [0] [1] 1) [0] [2] 1)
          j = [0]) :=
  ⟨⟨1, [], by omega, by omega, rfl⟩,
   C7_double_add _ ⟨1, [], by omega, by omega, rfl⟩ [0] [1] [2] 1 1⟩

/-- Adaptive state used by the C7 counterexample. -/
def c7Bad : Stashlist.StashList :=
  Stashlist.run (Stashlist.initList 2)
    [.add [2] [10] 2, .add [0] [11] 2, .remove [2], .add [2] [21] 2, .add [2] [22] 2]

/-- C7 counterexample (adaptive): the trace ends with `Add [2] [21]`
followed by `Add [2] [22]`, yet afterwards two distinct elements with
key `[2]` (arena indices 0 and 2) are reachable on the level-1 chain,
and the ghost at index 0 still carries the stale value `[10]` — not
exactly one element for the key. -/
theorem C7_double_add_cex :
    0 ∈ Stashlist.levelChain c7Bad 1 ∧
    2 ∈ Stashlist.levelChain c7Bad 1 ∧
    Stashlist.keyOf c7Bad 0 = [2] ∧
    Stashlist.keyOf c7Bad 2 = [2] ∧
    Stashlist.valueOf c7Bad 0 = [10] ∧
    Stashlist.valueOf c7Bad 2 = [22] ∧ (0 : Nat) ≠ 2 := by decide

/-- C8: in both variants the loose match test `candidate.key ≤ key`
used by `Get`, `Add` and `Remove` after the descent is equivalent to
exact key equality — for the baseline on every reachable state, and
for the adaptive variant on every state whose forward pointers are
sound (`goodAll`: each pointer stays in the arena and strictly
increases the key), which is what the descent relies on to stop at
the first key at or above the search key. -/
theorem C8_match_iff_equality :
    (∀ l : Skiplist.SkipList, Skiplist.Reach l → ∀ (k : Key) (j : Nat),
      Skiplist.candidate l k = some j →
      (Skiplist.keyOf l j ≤ k ↔ Skiplist.keyOf l j = k)) ∧
    (∀ t : Stashlist.StashList, 0 < t.maxLevel → Stashlist.goodAll t = true →
      ∀ (k : Key) (j : Nat), Stashlist.candidate t k = some j →
      (Stashlist.keyOf t j ≤ k ↔ Stashlist.keyOf t j = k)) := by
  constructor
  · intro l hr k j hj
    obtain ⟨ls, hwf⟩ := Skiplist.Reach_WF hr
    exact Skiplist.candidate_match_iff_eq hwf k j hj
  · intro t hml hg k j hj
    exact Stashlist.stash_match_iff t k hml hg j hj

theorem C8_match_iff_equality_witness :
    Skiplist.Reach (Skiplist.run (Skiplist.initList 1) [Skiplist.Op.add [0] [1] 1]) ∧
    Skiplist.candidate (Skiplist.run (Skiplist.initList 1) [Skiplist.Op.add [0] [1] 1]) [0] =
      some 0 ∧
    (Skiplist.keyOf (Skiplist.run (Skiplist.initList 1) [Skiplist.Op.add [0] [1] 1]) 0 ≤ [0] ↔
      Skiplist.keyOf (Skiplist.run (Skiplist.initList 1) [Skiplist.Op.add [0] [1] 1]) 0 = [0]) ∧
    0 < (Stashlist.run (Stashlist.initList 1) [Stashlist.Op.add [0] [1] 1]).maxLevel ∧
    Stashlist.goodAll (Stashlist.run (Stashlist.initList 1) [Stashlist.Op.add [0] [1] 1]) = true ∧
    Stashlist.candidate (Stashlist.run (Stashlist.initList 1) [Stashlist.Op.add [0] [1] 1]) [0] =
      some 0 ∧
    (Stashlist.keyOf (Stashlist.run (Stashlist.initList 1) [Stashlist.Op.add [0] [1] 1]) 0 ≤ [0] ↔
      Stashlist.keyOf (Stashlist.run (Stashlist.initList 1) [Stashlist.Op.add [0] [1] 1]) 0 = [0]) :=
  ⟨⟨1, [Skiplist.Op.add [0] [1] 1], by omega, by omega, rfl⟩,
   by decide,
   C8_match_iff_equality.1 _ ⟨1, [Skiplist.Op.add [0] [1] 1], by omega, by omega, rfl⟩ [0] 0
     (by decide),
   by decide,
   by decide,
   by decide,
   C8_match_iff_equality.2 _ (by decide) (by decide) [0] 0 (by decide)⟩

/-- C9: in both variants the constructor with an explicit `maxLevel`
fails (the source panics) exactly when `maxLevel` lies outside
`[1, 64]`, succeeds on every `maxLevel` in `[1, 64]` producing the
empty well-formed state with that `maxLevel`, the configured default
probability is `1 / e`, and the default constructor uses
`maxLevel = 18`. -/
theorem C9_constructors :
    (∀ m : Int, Skiplist.NewWithMaxLevel m = none ↔ (m < 1 ∨ m > 64)) ∧
    (∀ m : Int, 1 ≤ m → m ≤ 64 →
      Skiplist.NewWithMaxLevel m = some (Skiplist.initList m.toNat) ∧
      (Skiplist.initList m.toNat).maxLevel = m.toNat ∧
      Skiplist.WF (Skiplist.initList m.toNat) []) ∧
    Skiplist.DefaultProbability = 1 / Real.exp 1 ∧
    Skiplist.NewSkipList = Skiplist.NewWithMaxLevel 18 ∧
    (∀ m : Int, Stashlist.NewWithMaxLevel m = none ↔ (m < 1 ∨ m > 64)) ∧
    (∀ m : Int, 1 ≤ m → m ≤ 64 →
      Stashlist.NewWithMaxLevel m = some (Stashlist.initList m.toNat) ∧
      (Stashlist.initList m.toNat).maxLevel = m.toNat ∧
      Stashlist.LB (Stashlist.initList m.toNat)) ∧
    Stashlist.DefaultProbability = 1 / Real.exp 1 ∧
    Stashlist.NewStashList = Stashlist.NewWithMaxLevel 18 := by
  refine ⟨?_, ?_, rfl, rfl, ?_, ?_, rfl, rfl⟩
  · intro m
    unfold Skiplist.NewWithMaxLevel
    by_cases hm : m < 1 ∨ m > 64
    · rw [if_pos hm]
      simp [hm]
    · rw [if_neg hm]
      simp [hm]
  · intro m h1 h2
    refine ⟨?_, rfl, Skiplist.initList_WF m.toNat (by omega)⟩
    unfold Skiplist.NewWithMaxLevel
    rw [if_neg (by omega)]
  · intro m
    unfold Stashlist.NewWithMaxLevel
    by_cases hm : m < 1 ∨ m > 64
    · rw [if_pos hm]
      simp [hm]
    · rw [if_neg hm]
      simp [hm]
  · intro m h1 h2
    refine ⟨?_, rfl, Stashlist.initList_LB m.toNat⟩
    unfold Stashlist.NewWithMaxLevel
    rw [if_neg (by omega)]

theorem C9_constructors_witness :
    (1 : Int) ≤ 18 ∧ (18 : Int) ≤ 64 ∧
    Skiplist.NewWithMaxLevel 18 = some (Skiplist.initList 18) ∧
    Stashlist.NewWithMaxLevel 18 = some (Stashlist.initList 18) ∧
    (Skiplist.NewWithMaxLevel 0 = none ↔ ((0 : Int) < 1 ∨ (0 : Int) > 64)) :=
  ⟨by omega, by omega,
   (C9_constructors.2.1 18 (by omega) (by omega)).1,
   (C9_constructors.2.2.2.2.2.1 18 (by omega) (by omega)).1,
   C9_constructors.1 0⟩
